import Mathlib

/-!
# Verification of the banana-split core against its specification

This file gives a shallow embedding, in Lean 4, of the core of the
banana-split program: the diff data model, the unified-diff parser, the
partial-diff renderer, the semantic atomizer (grouping, dependency edges,
topological ordering with fallback), the plan validator/orderer, and the
apply engine's control flow.  Python dictionaries are modelled as
insertion-ordered association lists, Python sets attached to a dict key as
duplicate-free lists, Python truthiness of strings ("" is falsy) by
explicit helpers, and Python string primitives by executable functions on
the underlying character lists.  Loops whose termination is not structural
are given an explicit fuel argument that provably dominates the number of
iterations, so that every definition evaluates by kernel reduction.

The theorems at the end settle the frozen claims C1..C10 about this code.
-/

/-! ## Python-style string primitives -/

/-- Python `s.startswith(p)`. -/
def pyStartsWith (s p : String) : Bool := p.data.isPrefixOf s.data

/-- Python `s.endswith(p)`. -/
def pyEndsWith (s p : String) : Bool := p.data.isSuffixOf s.data

/-- Bool-valued infix test on lists (Python `in` on strings). -/
def listIsInfixOf [BEq α] : List α → List α → Bool
  | p, [] => p.isEmpty
  | p, l@(_ :: tl) => p.isPrefixOf l || listIsInfixOf p tl

/-- Python `p in s` (substring containment). -/
def pyContains (s p : String) : Bool := listIsInfixOf p.data s.data

/-- Python `s[n:]` for a nonnegative `n`. -/
def pyDropChars (n : Nat) (s : String) : String := String.mk (s.data.drop n)

/-- Python `s[:n]` for a nonnegative `n`. -/
def pyTakeChars (n : Nat) (s : String) : String := String.mk (s.data.take n)

/-- The characters Python counts as whitespace (`str.isspace()`), the set
`str.strip()` trims and `str.split()` with no argument splits on: ASCII
whitespace including vertical tab and form feed, the file/group/record/unit
separators, NEL, NBSP, Ogham space mark, the U+2000 spacing block, line and
paragraph separators, narrow and mathematical spaces, and ideographic space. -/
def pyIsSpace (c : Char) : Bool :=
  c == ' ' || c == '\t' || c == '\n' || c == '\r' || c == '\x0b' || c == '\x0c' ||
  c == '\x1c' || c == '\x1d' || c == '\x1e' || c == '\x1f' ||
  c == '\x85' || c == '\xa0' || c == '\u1680' ||
  ('\u2000' ≤ c && c ≤ '\u200a') ||
  c == '\u2028' || c == '\u2029' || c == '\u202f' || c == '\u205f' || c == '\u3000'

/-- The line boundaries Python `str.splitlines()` splits on (`\r\n` counts
as a single boundary): newline, carriage return, vertical tab, form feed,
the file/group/record separators, NEL, and the line/paragraph separators. -/
def pyIsLineBound (c : Char) : Bool :=
  c == '\n' || c == '\r' || c == '\x0b' || c == '\x0c' ||
  c == '\x1c' || c == '\x1d' || c == '\x1e' ||
  c == '\x85' || c == '\u2028' || c == '\u2029'

/-- Python `s.strip()` (whitespace trimmed from both ends). -/
def pyStrip (s : String) : String :=
  String.mk (((s.data.dropWhile pyIsSpace).reverse.dropWhile pyIsSpace).reverse)

/-- Python `s.lower()` (ASCII lowering suffices for the paths involved). -/
def pyToLower (s : String) : String := String.mk (s.data.map Char.toLower)

/-- Worker for `pySplitWs`: splits on whitespace runs, dropping empty parts.
The accumulator holds the current token reversed. -/
def splitWsGo : List Char → List Char → List (List Char)
  | [], acc => if acc = [] then [] else [acc.reverse]
  | c :: cs, acc =>
    if pyIsSpace c then
      if acc = [] then splitWsGo cs [] else acc.reverse :: splitWsGo cs []
    else splitWsGo cs (c :: acc)

/-- Python `s.split()` with no argument. -/
def pySplitWs (s : String) : List String := (splitWsGo s.data []).map String.mk

/-- Worker for `pySplitLines`.  The accumulator holds the current line
reversed; a carriage return immediately followed by a newline is consumed as
one boundary.  The fuel dominates the number of characters and never runs out
when called with the input length, since every step consumes at least one
character. -/
def splitLinesGo : Nat → List Char → List Char → List String
  | _, [], acc => if acc = [] then [] else [String.mk acc.reverse]
  | 0, rest, acc => [String.mk (acc.reverse ++ rest)]
  | fuel + 1, c :: cs, acc =>
    if c = '\r' then
      String.mk acc.reverse ::
        (match cs with
         | '\n' :: cs2 => splitLinesGo fuel cs2 []
         | _ => splitLinesGo fuel cs [])
    else if pyIsLineBound c then String.mk acc.reverse :: splitLinesGo fuel cs []
    else splitLinesGo fuel cs (c :: acc)

/-- Python `s.splitlines()`: splits at every Python line boundary
(`pyIsLineBound`), treating `\r\n` as one boundary and dropping a trailing
boundary. -/
def pySplitLines (s : String) : List String := splitLinesGo s.data.length s.data []

/-- Characters of `"\n".join(ls)`. -/
def joinNlChars : List String → List Char
  | [] => []
  | [s] => s.data
  | s :: rest => s.data ++ '\n' :: joinNlChars rest

/-- Python `"\n".join(ls)`. -/
def pyJoinNl (ls : List String) : String := String.mk (joinNlChars ls)

/-- Characters of `" ".join(ls)`. -/
def joinSpaceChars : List String → List Char
  | [] => []
  | [s] => s.data
  | s :: rest => s.data ++ ' ' :: joinSpaceChars rest

/-- Python `" ".join(ls)`. -/
def pyJoinSpace (ls : List String) : String := String.mk (joinSpaceChars ls)

/-- Python truthiness of an optional string: `None` and `""` are falsy. -/
def pyTruthy : Option String → Bool
  | none => false
  | some s => s ≠ ""

/-- Python `a or b` over optional strings. -/
def pyOr (a b : Option String) : Option String := if pyTruthy a then a else b

/-- Python `a or d` where `d` is a plain string, producing a plain string. -/
def pyOrD (a : Option String) (d : String) : String :=
  match a with
  | some s => if s = "" then d else s
  | none => d

/-- Python `a or b or d` over optional strings with a plain default. -/
def pyOrD2 (a b : Option String) (d : String) : String := pyOrD a (pyOrD b d)

/-- Python split on a single character, keeping empty parts (as `str.split(sep)`). -/
def splitCharGo (sep : Char) : List Char → List Char → List String
  | [], acc => [String.mk acc.reverse]
  | c :: cs, acc =>
    if c = sep then String.mk acc.reverse :: splitCharGo sep cs [] else splitCharGo sep cs (c :: acc)

def pySplitChar (sep : Char) (s : String) : List String := splitCharGo sep s.data []

/-- Worker for splitting on the two-character separator `"@@"`, with fuel
bounding the number of characters still to scan. -/
def splitAtAtGo : Nat → List Char → List Char → List (List Char)
  | _, [], acc => [acc.reverse]
  | 0, rest, acc => [acc.reverse ++ rest]
  | Nat.succ n, c :: cs, acc =>
    if ['@', '@'].isPrefixOf (c :: cs) then acc.reverse :: splitAtAtGo n (cs.drop 1) []
    else splitAtAtGo n cs (c :: acc)

/-- Python `s.split("@@")`. -/
def pySplitAtAt (s : String) : List String :=
  (splitAtAtGo s.data.length s.data []).map String.mk

/-- `Path(path).name`: the last nonempty `/`-separated component. -/
def pyPathName (path : String) : String :=
  (((pySplitChar '/' path).filter (fun c => c ≠ "")).getLast?).getD ""

/-- Index (from the end) of the last `'.'` in a character list, if any. -/
def lastDotSplit (l : List Char) : Option (List Char × List Char) :=
  match l.reverse.findIdx? (fun c => c = '.') with
  | none => none
  | some k =>
    let i := l.length - 1 - k
    some (l.take i, l.drop i)

/-- `Path(path).stem`: the final component with its last extension removed;
a leading dot (hidden file) does not count as an extension separator. -/
def pyPathStem (path : String) : String :=
  let name := pyPathName path
  match lastDotSplit name.data with
  | none => name
  | some (pre, _) => if pre = [] then name else String.mk pre

/-! ## Domain model (`banana_split.domain`) -/

inductive PyLineType
  | add
  | del
  | ctx
deriving DecidableEq, Repr

structure DiffLine where
  line_type : PyLineType
  content : String
  original_lineno : Option Nat
  new_lineno : Option Nat
deriving DecidableEq, Repr

/-- A diff hunk.  The open `meta` map of the Python dataclass is modelled by
the two keys the program ever writes or reads: `"language"` and `"symbol"`. -/
structure DiffHunk where
  id : String
  file_path : String
  header : String
  lines : List DiffLine
  metaLanguage : Option String := none
  metaSymbol : Option String := none
deriving DecidableEq, Repr

inductive ChangeType
  | add
  | modify
  | delete
  | rename
deriving DecidableEq, Repr

structure FileDiff where
  path_old : Option String
  path_new : Option String
  change_type : ChangeType
  is_binary : Bool
  hunks : List DiffHunk := []
deriving DecidableEq, Repr

structure Diff where
  base_commit : Option String
  target_commit : Option String
  files : List FileDiff := []
deriving DecidableEq, Repr

/-- An atomic change.  The Python tag `set` is modelled as a duplicate-free
list (insertion order); only membership is ever observed. -/
structure AtomicChange where
  id : String
  hunk_ids : List String
  tags : List String := []
  summary : Option String := none
deriving DecidableEq, Repr

structure SuggestedCommit where
  id : String
  title : String
  body : Option String
  atomic_change_ids : List String
  hunk_ids : List String
  estimated_risk : Option String := none
deriving DecidableEq, Repr

structure Plan where
  diff : Diff
  atomic_changes : List AtomicChange := []
  suggested_commits : List SuggestedCommit := []
  invariants_checked : Bool := false
deriving DecidableEq, Repr

/-- The concatenation of all hunk ids of a diff in canonical (file order,
hunk order) sequence. -/
def allHunkIds (diff : Diff) : List String :=
  diff.files.flatMap (fun f => f.hunks.map (fun h => h.id))

/-! ## `banana_split.analysis.language_intel` -/

def detect_language (path : String) : Option String :=
  let lower := pyToLower path
  if pyEndsWith lower ".py" then some "python"
  else if pyEndsWith lower ".js" || pyEndsWith lower ".mjs" || pyEndsWith lower ".cjs" then
    some "javascript"
  else if pyEndsWith lower ".ts" || pyEndsWith lower ".tsx" then some "typescript"
  else if pyEndsWith lower ".go" then some "go"
  else if pyEndsWith lower ".java" then some "java"
  else if pyEndsWith lower ".rb" then some "ruby"
  else if pyEndsWith lower ".rs" then some "rust"
  else none

def extract_symbol_name_from_hunk_header (header : String) : Option String :=
  let parts := pySplitAtAt header
  if parts.length < 3 then none
  else
    let tail := pyStrip (parts.getLast?.getD "")
    if tail = "" then none else some tail

/-! ## Unified diff parser (`banana_split.diff_parser`) -/

/-- Digits taken greedily from the front of a character list. -/
def takeDigits (l : List Char) : List Char × List Char :=
  (l.takeWhile Char.isDigit, l.dropWhile Char.isDigit)

def digitsToNat (l : List Char) : Nat :=
  l.foldl (fun a c => a * 10 + (c.toNat - 48)) 0

/-- `_parse_hunk_header_ranges`: prefix-match the regex
`^@@ -(old)[,(n)] \+(new)[,(n)] @@` and extract the two start numbers. -/
def parse_hunk_header_ranges (header : String) : Option Nat × Option Nat :=
  match header.data with
  | '@' :: '@' :: ' ' :: '-' :: r0 =>
    let (d1, r1) := takeDigits r0
    if d1 = [] then (none, none)
    else
      let r2? : Option (List Char) :=
        match r1 with
        | ',' :: r => (fun p : List Char × List Char =>
            if p.1 = [] then none else some p.2) (takeDigits r)
        | _ => some r1
      match r2? with
      | none => (none, none)
      | some r2 =>
        match r2 with
        | ' ' :: '+' :: r3 =>
          let (d3, r4) := takeDigits r3
          if d3 = [] then (none, none)
          else
            let r5? : Option (List Char) :=
              match r4 with
              | ',' :: r => (fun p : List Char × List Char =>
                  if p.1 = [] then none else some p.2) (takeDigits r)
              | _ => some r4
            match r5? with
            | some (' ' :: '@' :: '@' :: _) => (some (digitsToNat d1), some (digitsToNat d3))
            | _ => (none, none)
        | _ => (none, none)
  | _ => (none, none)

/-- A line at which a hunk body stops: the next file section or hunk header. -/
def hunkStop (line : String) : Bool :=
  pyStartsWith line "diff --git " || pyStartsWith line "@@"

/-- The body lines of a hunk, folded into `DiffLine`s with the running
old/new line counters, exactly as the loop in `_parse_hunk` does. -/
def buildDiffLines : List String → Option Nat → Option Nat → List DiffLine
  | [], _, _ => []
  | line :: rest, o, n =>
    if pyStartsWith line "\\ No newline at end of file" then buildDiffLines rest o n
    else
      let tc : PyLineType × String :=
        if line = "" then (PyLineType.ctx, "")
        else
          match line.data with
          | '+' :: cs => (PyLineType.add, String.mk cs)
          | '-' :: cs => (PyLineType.del, String.mk cs)
          | ' ' :: cs => (PyLineType.ctx, String.mk cs)
          | _ => (PyLineType.ctx, line)
      let o' := if tc.1 = PyLineType.add then o else o.map (· + 1)
      let n' := if tc.1 = PyLineType.del then n else n.map (· + 1)
      ⟨tc.1, tc.2, o, n⟩ :: buildDiffLines rest o' n'

/-- `_parse_hunk`: consume the body following the header line and build the
hunk with its id and metadata. Returns the remaining lines. -/
def parse_hunk (header : String) (rest : List String) (file_path : String)
    (hunk_index : Nat) (language : Option String) : DiffHunk × List String :=
  let body := rest.takeWhile (fun l => ¬ hunkStop l)
  let rest' := rest.dropWhile (fun l => ¬ hunkStop l)
  let (old_start, new_start) := parse_hunk_header_ranges header
  let diff_lines := buildDiffLines body old_start new_start
  let hunk_id := file_path ++ "::h" ++ toString hunk_index
  let symbol := extract_symbol_name_from_hunk_header header
  (⟨hunk_id, file_path, header, diff_lines, language, symbol⟩, rest')

/-- The loop scanning for `@@` hunk headers until the next file section.
`fuel` dominates the number of lines left and only makes the recursion
structural; it never runs out when called with `lines.length + 1`. -/
def hunksScan : Nat → List String → String → Nat → Option String →
    List DiffHunk × List String
  | 0, rest, _, _, _ => ([], rest)
  | _ + 1, [], _, _, _ => ([], [])
  | fuel + 1, line :: rest, fp, idx, lang =>
    if pyStartsWith line "diff --git " then ([], line :: rest)
    else if pyStartsWith line "@@" then
      let hr := parse_hunk line rest fp idx lang
      let hs := hunksScan fuel hr.2 fp (idx + 1) lang
      (hr.1 :: hs.1, hs.2)
    else hunksScan fuel rest fp idx lang

/-- State accumulated by the metadata scan of `_parse_single_file_diff`. -/
structure MetaState where
  change_type : ChangeType
  is_binary : Bool
  rename_from : Option String
  rename_to : Option String
deriving DecidableEq, Repr

/-- How the metadata scan stopped. -/
inductive MetaStop
  | eof
  | contentHeader
  | nextFile
deriving DecidableEq, Repr

/-- The metadata-consuming loop of `_parse_single_file_diff` (everything
between the `diff --git` header and the `---`/`+++` pair). -/
def metaScan : List String → MetaState → MetaState × MetaStop × List String
  | [], st => (st, MetaStop.eof, [])
  | line :: rest, st =>
    if pyStartsWith line "diff --git " then (st, MetaStop.nextFile, line :: rest)
    else if pyStartsWith line "new file mode " then
      metaScan rest { st with change_type := ChangeType.add }
    else if pyStartsWith line "deleted file mode " then
      metaScan rest { st with change_type := ChangeType.delete }
    else if pyStartsWith line "rename from " then
      metaScan rest { st with rename_from := some (pyStrip (pyDropChars 12 line)),
                              change_type := ChangeType.rename }
    else if pyStartsWith line "rename to " then
      metaScan rest { st with rename_to := some (pyStrip (pyDropChars 10 line)),
                              change_type := ChangeType.rename }
    else if pyStartsWith line "Binary files " && pyContains line " differ" then
      metaScan rest { st with is_binary := true }
    else if pyStartsWith line "GIT binary patch" then
      metaScan rest { st with is_binary := true }
    else if pyStartsWith line "--- " then (st, MetaStop.contentHeader, line :: rest)
    else metaScan rest st

/-- Consume a `--- ` or `+++ ` content-header line, returning its stripped
remainder (the prefix is 4 characters in both cases). -/
def stripContentHeader (pre : String) (r : List String) : Option String × List String :=
  match r with
  | l :: ls => if pyStartsWith l pre then (some (pyStrip (pyDropChars 4 l)), ls)
               else (none, l :: ls)
  | [] => (none, [])

/-- The `old_path_line` refinement of `_parse_single_file_diff`: `/dev/null`
forces kind `add` and clears the path; otherwise the path is taken from the
header (minus a leading `a/`) or kept. -/
def oldRefOf (kind : ChangeType) (fallback : String) :
    Option String → ChangeType × Option String
  | some s =>
    if s = "/dev/null" then (ChangeType.add, none)
    else if s ≠ "" && pyStartsWith s "a/" then (kind, some (pyDropChars 2 s))
    else if s ≠ "" then (kind, some s)
    else (kind, some fallback)
  | none => (kind, some fallback)

/-- The `new_path_line` refinement of `_parse_single_file_diff`: `/dev/null`
forces kind `delete` and clears the path; otherwise the path is taken from
the header (minus a leading `b/`) or kept. -/
def newRefOf (kind : ChangeType) (fallback : String) :
    Option String → ChangeType × Option String
  | some s =>
    if s = "/dev/null" then (ChangeType.delete, none)
    else if s ≠ "" && pyStartsWith s "b/" then (kind, some (pyDropChars 2 s))
    else if s ≠ "" then (kind, some s)
    else (kind, some fallback)
  | none => (kind, some fallback)

/-- `_parse_single_file_diff`: parse one `diff --git` section.  `header_line`
is the `diff --git` line itself, `rest` the lines after it; returns the
parsed file (or `none` for a malformed header) and the remaining lines,
which start at the next file section or are empty. -/
def parse_single_file_diff (header_line : String) (rest : List String) :
    Option FileDiff × List String :=
  let parts := pySplitWs header_line
  if parts.length < 4 then
    (none, rest.dropWhile (fun l => ¬ pyStartsWith l "diff --git "))
  else
    let path_old0 := parts.getD (parts.length - 2) ""
    let path_new0 := parts.getD (parts.length - 1) ""
    let path_old1 := if pyStartsWith path_old0 "a/" then pyDropChars 2 path_old0 else path_old0
    let path_new1 := if pyStartsWith path_new0 "b/" then pyDropChars 2 path_new0 else path_new0
    let scan := metaScan rest ⟨ChangeType.modify, false, none, none⟩
    let st := scan.1
    let stop := scan.2.1
    let r0 := scan.2.2
    if stop = MetaStop.nextFile then
      (some ⟨some path_old1, some path_new1, st.change_type, st.is_binary, []⟩, r0)
    else
      let path_old2 := match st.rename_from with
        | some s => s
        | none => path_old1
      let path_new2 := match st.rename_to with
        | some s => s
        | none => path_new1
      if st.is_binary then
        (some ⟨some path_old2, some path_new2, st.change_type, true, []⟩,
          r0.dropWhile (fun l => ¬ pyStartsWith l "diff --git "))
      else
        let step1 := stripContentHeader "--- " r0
        let step2 := stripContentHeader "+++ " step1.2
        let oldRef := oldRefOf st.change_type path_old2 step1.1
        let newRef := newRefOf oldRef.1 path_new2 step2.1
        let change_type := newRef.1
        let path_old3 := oldRef.2
        let path_new3 := newRef.2
        let eff := pyOr path_new3 path_old3
        let language := if pyTruthy eff then detect_language (pyOrD eff "") else none
        let fp := pyOrD2 path_new3 path_old3 ""
        let hsr := hunksScan (step2.2.length + 1) step2.2 fp 0 language
        (some ⟨path_old3, path_new3, change_type, false, hsr.1⟩, hsr.2)

/-- The outer loop of `parse_unified_diff` over file sections; `fuel`
dominates the number of lines and never runs out when called with
`lines.length + 1`, since each section consumes at least its header line. -/
def parseFilesGo : Nat → List String → List FileDiff
  | 0, _ => []
  | _ + 1, [] => []
  | fuel + 1, line :: rest =>
    if pyStartsWith line "diff --git " then
      match parse_single_file_diff line rest with
      | (some fd, rest') => fd :: parseFilesGo fuel rest'
      | (none, rest') => parseFilesGo fuel rest'
    else parseFilesGo fuel rest

/-- `parse_unified_diff`: raw text to `Diff`. -/
def parse_unified_diff (raw_diff : String) : Diff :=
  let lines := pySplitLines raw_diff
  let lines1 := lines.dropWhile (fun l => ¬ pyStartsWith l "diff --git ")
  ⟨none, none, parseFilesGo (lines1.length + 1) lines1⟩

/-! ## Partial diff renderer (`render_partial_diff`) -/

/-- One rendered body line: marker character followed by the stored content. -/
def renderLine (l : DiffLine) : String :=
  (match l.line_type with
   | PyLineType.add => "+"
   | PyLineType.del => "-"
   | PyLineType.ctx => " ") ++ l.content

/-- The lines rendered for one file (empty if none of its hunks is selected). -/
def render_file_lines (file : FileDiff) (include_ids : List String) : List String :=
  let selected := file.hunks.filter (fun h => include_ids.contains h.id)
  if selected = [] then []
  else
    let path_old := pyOrD2 file.path_old file.path_new "unknown"
    let path_new := pyOrD2 file.path_new file.path_old "unknown"
    let labels : String × String :=
      if file.change_type = ChangeType.add then ("/dev/null", "b/" ++ path_new)
      else if file.change_type = ChangeType.delete then ("a/" ++ path_old, "/dev/null")
      else ("a/" ++ path_old, "b/" ++ path_new)
    ("diff --git a/" ++ path_old ++ " b/" ++ path_new) ::
    ("--- " ++ labels.1) :: ("+++ " ++ labels.2) ::
    selected.flatMap (fun h => h.header :: h.lines.map renderLine)

/-- `render_partial_diff`: a unified diff containing only the given hunks. -/
def render_partial_diff (diff : Diff) (hunk_ids : List String) : String :=
  if hunk_ids = [] then ""
  else
    let output := diff.files.flatMap (fun f => render_file_lines f hunk_ids)
    if output = [] then "" else String.mk (joinNlChars output ++ ['\n'])

/-! ## Semantic atomizer (`banana_split.analysis.semantic_atomizer`) -/

/-- `set.add` on a set modelled as a duplicate-free insertion-ordered list. -/
def setAdd (l : List String) (s : String) : List String := if s ∈ l then l else l ++ [s]

/-- Python-dict insert: overwrite in place if the key exists, else append. -/
def dictInsert [BEq α] (m : List (α × β)) (k : α) (v : β) : List (α × β) :=
  if m.any (fun p => p.1 == k) then m.map (fun p => if p.1 == k then (k, v) else p)
  else m ++ [(k, v)]

/-- `d.setdefault(k, []).append(v)` on a dict of lists. -/
def dictAppend [BEq α] (m : List (α × List β)) (k : α) (v : β) : List (α × List β) :=
  if m.any (fun p => p.1 == k) then
    m.map (fun p => if p.1 == k then (p.1, p.2 ++ [v]) else p)
  else m ++ [(k, [v])]

/-- `edges[src].add(dst)`: every call site in the source guards that `src`
is a key of `edges`, so a missing key needs no behaviour. -/
def edgesAdd (m : List (String × List String)) (src dst : String) :
    List (String × List String) :=
  m.map (fun p =>
    if p.1 == src then (p.1, if p.2.contains dst then p.2 else p.2 ++ [dst]) else p)

/-- `_build_hunk_order`: hunk id to global canonical index. -/
def build_hunk_order (diff : Diff) : List (String × Nat) :=
  (diff.files.foldl
    (fun (acc : List (String × Nat) × Nat) f =>
      f.hunks.foldl (fun acc2 h => (dictInsert acc2.1 h.id acc2.2, acc2.2 + 1)) acc)
    ([], 0)).1

/-- Dict indexing `hunk_order[hid]`; every reachable lookup is for a present
key, so the default is never observed. -/
def lookupOrder (m : List (String × Nat)) (hid : String) : Nat := (List.lookup hid m).getD 0

/-- Python `min` of a list of naturals (callers guarantee nonemptiness). -/
def pyMinNat : List Nat → Nat
  | [] => 0
  | x :: xs => xs.foldl Nat.min x

/-- Insert `x` after every element `y` with `le y x`: the insertion step of
a stable insertion sort. -/
def pyInsertSorted (le : α → α → Bool) (x : α) : List α → List α
  | [] => [x]
  | y :: ys => if le y x then y :: pyInsertSorted le x ys else x :: y :: ys

/-- Python `sorted(l, key=...)` as a stable insertion sort.  For a total
preorder (which every `key`-based comparison is) all stable sorts produce
the same list, so this models CPython's stable sort exactly, and unlike
`List.mergeSort` it evaluates by kernel reduction. -/
def pySorted (le : α → α → Bool) (l : List α) : List α :=
  l.foldl (fun acc x => pyInsertSorted le x acc) []

/-- The symbol key a hunk contributes to grouping: `meta.get("symbol")`,
kept only when it is a string with nonempty strip. -/
def hunkSymbolKey (h : DiffHunk) : Option String :=
  match h.metaSymbol with
  | some s => if pyStrip s = "" then none else some (pyStrip s)
  | none => none

/-- Appending a hunk to the bucket of its key (Python dict of lists plus the
`order` list: buckets appear in first-occurrence order of their key). -/
def addToGroup : List (Option String × List DiffHunk) → Option String → DiffHunk →
    List (Option String × List DiffHunk)
  | [], k, h => [(k, [h])]
  | (k', hs) :: rest, k, h =>
    if k' = k then (k', hs ++ [h]) :: rest else (k', hs) :: addToGroup rest k h

/-- `_group_hunks_by_symbol`. -/
def group_hunks_by_symbol (hunks : List DiffHunk) : List (Option String × List DiffHunk) :=
  hunks.foldl (fun acc h => addToGroup acc (hunkSymbolKey h) h) []

/-- `_is_test_path`. -/
def is_test_path (path : String) : Bool :=
  let lower := pyToLower path
  let name := pyToLower (pyPathName path)
  if pyContains ("/" ++ lower ++ "/") "/tests/" then true
  else if pyStartsWith name "test_" || pyEndsWith name "_test.py" || pyEndsWith name ".spec.ts"
    then true
  else pyContains lower "test"

/-- `_base_tags_for_path`. -/
def base_tags_for_path (path : String) : List String :=
  let t0 : List String := []
  let t1 := match detect_language path with
    | some l => setAdd t0 l
    | none => t0
  if is_test_path path then setAdd t1 "test" else t1

/-- `_normalize_symbol`. -/
def normalize_symbol : Option String → String
  | none => ""
  | some s => if s = "" then "" else pyToLower (pyJoinSpace (pySplitWs (pyStrip s)))

/-- `_module_key`. -/
def module_key (path : String) : Option String :=
  let name := pyPathStem path
  if name = "" then none
  else
    let lower := pyToLower name
    let l1 := if pyStartsWith lower "test_" then pyDropChars 5 lower else lower
    let l2 := if pyEndsWith l1 "_test" then pyTakeChars (l1.data.length - 5) l1 else l1
    if l2 = "" then none else some l2

/-- `_SemanticNode`. -/
structure SemanticNode where
  id : String
  file_path : String
  symbol : Option String
  hunk_ids : List String
  tags : List String
  summary : Option String
  first_order : Nat
deriving DecidableEq, Repr

/-- The four collections `_build_nodes` returns. -/
structure NodesResult where
  nodes : List SemanticNode
  by_file : List (String × List SemanticNode)
  by_symbol : List (String × List SemanticNode)
  by_module : List (String × List SemanticNode)
deriving Repr

/-- One iteration of the `for idx, (symbol, hunks) in enumerate(groups)` loop
of `_build_nodes`. -/
def nodeFoldStep (hunk_order : List (String × Nat)) (path : String) (tags : List String)
    (st : NodesResult × List SemanticNode) (gi : Nat × (Option String × List DiffHunk)) :
    NodesResult × List SemanticNode :=
  let idx := gi.1
  let symbol := gi.2.1
  let hunks := gi.2.2
  if hunks = [] then st
  else
    let hunk_ids := hunks.map (fun h => h.id)
    let node_tags0 := setAdd tags ("path:" ++ path)
    let node_tags1 :=
      if pyTruthy symbol then
        setAdd node_tags0 ("symbol:" ++ normalize_symbol symbol)
      else node_tags0
    let mk := module_key path
    let node_tags2 := match mk with
      | some m => setAdd node_tags1 ("module:" ++ m)
      | none => node_tags1
    let summary :=
      if pyTruthy symbol then
        "Changes in " ++ path ++ " (" ++ symbol.getD "" ++ ")"
      else "Changes in " ++ path
    let first_order := pyMinNat (hunk_ids.map (lookupOrder hunk_order))
    let node : SemanticNode :=
      ⟨path ++ "::ac" ++ toString idx, path, symbol, hunk_ids, node_tags2,
        some summary, first_order⟩
    let r := st.1
    let r1 : NodesResult := { r with nodes := r.nodes ++ [node] }
    let ns : Option String :=
      if pyTruthy symbol then some (normalize_symbol symbol) else none
    let r2 : NodesResult :=
      if pyTruthy ns then
        { r1 with by_symbol := dictAppend r1.by_symbol (ns.getD "") node }
      else r1
    let r3 : NodesResult := match mk with
      | some m => { r2 with by_module := dictAppend r2.by_module m node }
      | none => r2
    (r3, st.2 ++ [node])

/-- The body of `_build_nodes` for one file. -/
def buildNodesForFile (hunk_order : List (String × Nat)) (acc : NodesResult)
    (file : FileDiff) : NodesResult :=
  if file.hunks = [] then acc
  else
    let path := pyOrD2 file.path_new file.path_old ""
    if path = "" then acc
    else
      let tags := base_tags_for_path path
      let groups := group_hunks_by_symbol file.hunks
      let st := groups.enum.foldl (nodeFoldStep hunk_order path tags) (acc, [])
      { st.1 with by_file := dictInsert st.1.by_file path st.2 }

/-- `_build_nodes`. -/
def build_nodes (diff : Diff) (hunk_order : List (String × Nat)) : NodesResult :=
  diff.files.foldl (buildNodesForFile hunk_order) ⟨[], [], [], []⟩

/-- `node_by_id[k]`: dict-comprehension semantics (the last node with a given
id wins). -/
def nodeById (nodes : List SemanticNode) (k : String) : Option SemanticNode :=
  nodes.reverse.find? (fun n => n.id == k)

/-- `{key: v0 for key in ids}`: a Python dict comprehension over possibly
repeated keys, as a first-occurrence keyed list. -/
def keyFold (ids : List String) (v0 : β) : List (String × β) :=
  ids.foldl (fun m s => if m.any (fun p => p.1 == s) then m else m ++ [(s, v0)]) []

/-- `_build_dependencies`. -/
def build_dependencies (nodes : List SemanticNode)
    (by_file : List (String × List SemanticNode))
    (by_symbol : List (String × List SemanticNode))
    (by_module : List (String × List SemanticNode)) : List (String × List String) :=
  let edges0 : List (String × List String) := keyFold (nodes.map (fun n => n.id)) []
  let edges1 := by_file.foldl
    (fun m p => (p.2.zip p.2.tail).foldl (fun m2 q => edgesAdd m2 q.1.id q.2.id) m)
    edges0
  nodes.foldl
    (fun m node =>
      if ¬ node.tags.contains "test" then m
      else
        let linked0 : List String :=
          if pyTruthy node.symbol then
            let symbol_key := normalize_symbol node.symbol
            ((List.lookup symbol_key by_symbol).getD []).foldl
              (fun acc c =>
                if c.id == node.id then acc
                else if c.tags.contains "test" then acc
                else setAdd acc c.id)
              []
          else []
        let linked :=
          if linked0 = [] then
            match module_key node.file_path with
            | some mk =>
              ((List.lookup mk by_module).getD []).foldl
                (fun acc c =>
                  if c.id == node.id then acc
                  else if c.tags.contains "test" then acc
                  else setAdd acc c.id)
                []
            | none => []
          else linked0
        linked.foldl
          (fun m2 source_id =>
            if (nodeById nodes source_id).isSome then edgesAdd m2 source_id node.id else m2)
          m)
    edges1

/-- The mutable loop state of `_topological_sort`. -/
structure TopoState where
  indeg : List (String × Int)
  ready : List String
  ordered : List String
deriving Repr

def setIndeg (m : List (String × Int)) (k : String) (v : Int) : List (String × Int) :=
  m.map (fun p => if p.1 == k then (p.1, v) else p)

/-- The inner `for dst in sorted(edges.get(nid, set()), ...)` loop body:
decrement present keys and append to `ready` those that reach zero. -/
def processDsts : List String → List (String × Int) → List String →
    List (String × Int) × List String
  | [], indeg, ready => (indeg, ready)
  | dst :: rest, indeg, ready =>
    match List.lookup dst indeg with
    | none => processDsts rest indeg ready
    | some v =>
      let indeg' := setIndeg indeg dst (v - 1)
      let ready' := if v - 1 = 0 then ready ++ [dst] else ready
      processDsts rest indeg' ready'

/-- Sort key `node_by_id[x].first_order` (with the `0` default used for
destinations not among the nodes). -/
def foKey (nodes : List SemanticNode) (x : String) : Nat :=
  ((nodeById nodes x).map (fun n => n.first_order)).getD 0

def edgesOf (edges : List (String × List String)) (x : String) : List String :=
  (List.lookup x edges).getD []

/-- The `while ready:` loop of `_topological_sort`; `fuel` dominates the
iteration count (each step strictly decreases `topoMeasure`). -/
def topoLoop (nodes : List SemanticNode) (edges : List (String × List String)) :
    Nat → TopoState → List String
  | 0, st => st.ordered
  | fuel + 1, st =>
    match st.ready with
    | [] => st.ordered
    | nid :: rest =>
      let dsts := pySorted (fun a b => foKey nodes a ≤ foKey nodes b) (edgesOf edges nid)
      let pr := processDsts dsts st.indeg rest
      let ready2 := pySorted (fun a b => foKey nodes a ≤ foKey nodes b) pr.2
      topoLoop nodes edges fuel ⟨pr.1, ready2, st.ordered ++ [nid]⟩

/-- `indegree[dst] += 1` when `dst` is a key (`if dst in indegree`). -/
def incrIndeg (m2 : List (String × Int)) (dst : String) : List (String × Int) :=
  match List.lookup dst m2 with
  | some v => setIndeg m2 dst (v + 1)
  | none => m2

/-- Initial indegrees: all node-id keys at 0, then one increment per edge
whose destination is a key. -/
def initIndeg (nodes : List SemanticNode) (edges : List (String × List String)) :
    List (String × Int) :=
  let base : List (String × Int) := keyFold (nodes.map (fun n => n.id)) (0 : Int)
  edges.foldl
    (fun m p => if m.any (fun q => q.1 == p.1) then p.2.foldl incrIndeg m else m)
    base

def topoMeasure (st : TopoState) : Nat :=
  st.ready.length + (st.indeg.map (fun p => p.2.toNat)).sum

/-- `_topological_sort`. -/
def topological_sort (nodes : List SemanticNode) (edges : List (String × List String)) :
    List SemanticNode :=
  let indeg0 := initIndeg nodes edges
  let ready0 := pySorted (fun a b => foKey nodes a ≤ foKey nodes b)
    ((indeg0.filter (fun p => p.2 = 0)).map (fun p => p.1))
  let st0 : TopoState := ⟨indeg0, ready0, []⟩
  let ordered_ids := topoLoop nodes edges (topoMeasure st0 + 1) st0
  if ordered_ids.length ≠ nodes.length then
    pySorted (fun a b => a.first_order ≤ b.first_order) nodes
  else ordered_ids.filterMap (nodeById nodes)

/-- `atomize_semantically`. -/
def atomize_semantically (diff : Diff) : List AtomicChange :=
  let hunk_order := build_hunk_order diff
  let res := build_nodes diff hunk_order
  if res.nodes = [] then []
  else
    let edges := build_dependencies res.nodes res.by_file res.by_symbol res.by_module
    let ordered := topological_sort res.nodes edges
    ordered.map (fun node => ⟨node.id, node.hunk_ids, node.tags, node.summary⟩)

/-! ## Plan validation (`banana_split.planner._validate_and_order_plan`) -/

/-- The distinguishable failures of `_validate_and_order_plan`.  The first
four are `PlanValidationError`s with distinct messages; `emptyCommitMin`
models the `ValueError` Python's `min` raises on an empty sequence inside
the sort-key computation — a different exception type. -/
inductive PlanFailure
  | unknownHunk (hid : String)
  | coverage (missing extra : List String)
  | duplicateAssign
  | reorder (path : String) (expected actual : List Nat)
  | emptyCommitMin
deriving DecidableEq, Repr

def PlanFailure.isPlanValidationError : PlanFailure → Bool
  | PlanFailure.emptyCommitMin => false
  | _ => true

/-- The three per-hunk maps the validator builds from the diff. -/
structure PlanIndex where
  hunk_order : List (String × Nat)
  hunk_file : List (String × String)
  all_hunk_ids : List String
deriving Repr

def buildPlanIndex (diff : Diff) : PlanIndex :=
  (diff.files.foldl
    (fun (acc : PlanIndex × Nat) f =>
      let path := pyOrD2 f.path_new f.path_old ""
      f.hunks.foldl
        (fun (a : PlanIndex × Nat) h =>
          (⟨dictInsert a.1.hunk_order h.id a.2, dictInsert a.1.hunk_file h.id path,
            a.1.all_hunk_ids ++ [h.id]⟩, a.2 + 1))
        acc)
    (⟨[], [], []⟩, 0)).1

/-- The first referenced hunk id that is not a key of `hunk_order`, in
commit order then hunk order — where the Python loop raises. -/
def firstUnknown (commits : List SuggestedCommit) (hunk_order : List (String × Nat)) :
    Option String :=
  commits.findSome? (fun c => c.hunk_ids.find? (fun hid => (List.lookup hid hunk_order).isNone))

/-- `set(a) == set(b)`. -/
def listSetEq (a b : List String) : Bool := a.all (fun x => b.contains x) && b.all (fun x => a.contains x)

/-- Sort key: `min(hunk_order[hid] for hid in c.hunk_ids)`. -/
def commitMinKey (hunk_order : List (String × Nat)) (c : SuggestedCommit) : Nat :=
  pyMinNat (c.hunk_ids.map (lookupOrder hunk_order))

/-- The per-file sequence of order indices induced by the commit list:
`[hunk_order[hid] for commit in commits for hid in commit.hunk_ids if hunk_file.get(hid) == path]`. -/
def inducedSeq (hunk_order : List (String × Nat)) (hunk_file : List (String × String))
    (commits : List SuggestedCommit) (path : String) : List Nat :=
  commits.flatMap
    (fun c => (c.hunk_ids.filter (fun hid => List.lookup hid hunk_file = some path)).map
      (lookupOrder hunk_order))

/-- The first file whose induced sequence differs from its native order. -/
def firstReorder (diff : Diff) (hunk_order : List (String × Nat))
    (hunk_file : List (String × String)) (commits : List SuggestedCommit) :
    Option (String × List Nat × List Nat) :=
  diff.files.findSome? (fun f =>
    let path := pyOrD2 f.path_new f.path_old ""
    let file_hunk_ids := f.hunks.map (fun h => h.id)
    if file_hunk_ids = [] then none
    else
      let sequence := inducedSeq hunk_order hunk_file commits path
      let expected := file_hunk_ids.map (lookupOrder hunk_order)
      if sequence ≠ expected then some (path, expected, sequence) else none)

/-- `_validate_and_order_plan`.  The returned plan is the state of the
(mutated) Python plan object when the function returns or raises: the
commit list is replaced by its sorted version exactly when the sort in
step 4 has executed. -/
def validate_and_order_plan (plan : Plan) : Plan × Option PlanFailure :=
  let idx := buildPlanIndex plan.diff
  match firstUnknown plan.suggested_commits idx.hunk_order with
  | some hid => (plan, some (PlanFailure.unknownHunk hid))
  | none =>
    let assigned := plan.suggested_commits.flatMap (fun c => c.hunk_ids)
    if ¬ listSetEq assigned idx.all_hunk_ids then
      (plan, some (PlanFailure.coverage
        ((idx.all_hunk_ids.filter (fun x => ¬ assigned.contains x)).eraseDups)
        ((assigned.filter (fun x => ¬ idx.all_hunk_ids.contains x)).eraseDups)))
    else if ¬ assigned.Nodup then (plan, some PlanFailure.duplicateAssign)
    else if plan.suggested_commits.any (fun c => c.hunk_ids.isEmpty) then
      (plan, some PlanFailure.emptyCommitMin)
    else
      let sortedCommits := pySorted
        (fun a b => commitMinKey idx.hunk_order a ≤ commitMinKey idx.hunk_order b)
        plan.suggested_commits
      let plan2 := { plan with suggested_commits := sortedCommits }
      match firstReorder plan.diff idx.hunk_order idx.hunk_file sortedCommits with
      | some r => (plan2, some (PlanFailure.reorder r.1 r.2.1 r.2.2))
      | none => (plan2, none)

/-! ## Apply engine (`banana_split.apply`) -/

/-- Python exception classes relevant to the apply engine.  `gitError` and
`otherError` derive from `Exception`; `keyboardInterrupt` derives only from
`BaseException` and is therefore not caught by `except Exception`. -/
inductive PyExc
  | gitError (msg : String)
  | keyboardInterrupt
  | otherError (msg : String)
deriving DecidableEq, Repr

/-- Whether `except Exception` catches this exception. -/
def PyExc.isException : PyExc → Bool
  | PyExc.keyboardInterrupt => false
  | _ => true

def PyExc.isGitError : PyExc → Bool
  | PyExc.gitError _ => true
  | _ => false

/-- One observable call to the injected repository service. -/
inductive GitCall
  | ensureClean
  | getCurrentRef
  | createBranch (name start_point : String)
  | checkoutRef (ref : String)
  | applyPatch (patch : String) (index_only : Bool)
  | createCommit (message : String)
  | treesEqual (a b : String)
  | deleteBranch (name : String) (force : Bool)
deriving DecidableEq, Repr

/-- Behaviour of the repository service: each operation either returns or
raises.  Patch application and commit creation may depend on the position
of the commit being applied. -/
structure GitOps where
  ensure_repo_clean : Except PyExc Unit
  get_current_ref : Except PyExc String
  create_branch : Except PyExc Unit
  checkout : String → Except PyExc Unit
  apply_patch : Nat → Except PyExc Unit
  create_commit : Nat → Except PyExc Unit
  trees_equal : Except PyExc Bool
  delete_branch : Except PyExc Unit

structure ApplyResult where
  trace : List GitCall
  outcome : Except PyExc Unit
deriving Repr

/-- `_rollback_partial_apply`: best-effort checkout of the pre-run ref then
forced branch deletion; a `GitError` from either step is logged and
swallowed, while any other exception escapes the helper. -/
def rollback_partial_apply (ops : GitOps) (original_ref branch_name : String)
    (branch_created branch_checked_out : Bool) : List GitCall × Option PyExc :=
  let c1 : List GitCall × Option PyExc :=
    if branch_checked_out then
      match ops.checkout original_ref with
      | Except.ok _ => ([GitCall.checkoutRef original_ref], none)
      | Except.error e =>
        if e.isGitError then ([GitCall.checkoutRef original_ref], none)
        else ([GitCall.checkoutRef original_ref], some e)
    else ([], none)
  match c1.2 with
  | some e => (c1.1, some e)
  | none =>
    if branch_created then
      match ops.delete_branch with
      | Except.ok _ => (c1.1 ++ [GitCall.deleteBranch branch_name true], none)
      | Except.error e =>
        if e.isGitError then (c1.1 ++ [GitCall.deleteBranch branch_name true], none)
        else (c1.1 ++ [GitCall.deleteBranch branch_name true], some e)
    else (c1.1, none)

/-- The `for suggested in plan.suggested_commits:` loop of `apply_plan`.
`i` is the position of the commit (used to index the oracle). -/
def applyCommitsLoop (ops : GitOps) (diff : Diff) :
    List SuggestedCommit → Nat → List GitCall × Option PyExc
  | [], _ => ([], none)
  | c :: rest, i =>
    if c.hunk_ids = [] then applyCommitsLoop ops diff rest (i + 1)
    else
      let patch := render_partial_diff diff c.hunk_ids
      if pyStrip patch = "" then applyCommitsLoop ops diff rest (i + 1)
      else
        match ops.apply_patch i with
        | Except.error e => ([GitCall.applyPatch patch true], some e)
        | Except.ok _ =>
          let message := match c.body with
            | some b => if b = "" then c.title else c.title ++ "\n\n" ++ b
            | none => c.title
          match ops.create_commit i with
          | Except.error e =>
            ([GitCall.applyPatch patch true, GitCall.createCommit message], some e)
          | Except.ok _ =>
            let r := applyCommitsLoop ops diff rest (i + 1)
            (GitCall.applyPatch patch true :: GitCall.createCommit message :: r.1, r.2)

/-- Result of the `try` block of `apply_plan`. -/
structure TryResult where
  calls : List GitCall
  err : Option PyExc
  branch_created : Bool
  branch_checked_out : Bool
deriving Repr

/-- `apply_plan`.  `trace` records every repository call in order;
`outcome` is normal return or the propagated exception. -/
def apply_plan (ops : GitOps) (plan : Plan) (dry_run : Bool) : ApplyResult :=
  if dry_run then ⟨[], Except.ok ()⟩
  else
    let base? := plan.diff.base_commit
    let target? := plan.diff.target_commit
    if ¬ (pyTruthy base? && pyTruthy target?) then
      ⟨[], Except.error (PyExc.gitError "cannot apply plan without both base and target commits")⟩
    else
      let base := base?.getD ""
      let target := target?.getD ""
      match ops.ensure_repo_clean with
      | Except.error e => ⟨[GitCall.ensureClean], Except.error e⟩
      | Except.ok _ =>
        match ops.get_current_ref with
        | Except.error e => ⟨[GitCall.ensureClean, GitCall.getCurrentRef], Except.error e⟩
        | Except.ok original_ref =>
          let branch_name := "banana-split/split-" ++ pyTakeChars 7 target
          let tryRes : TryResult :=
            match ops.create_branch with
            | Except.error e => ⟨[GitCall.createBranch branch_name base], some e, false, false⟩
            | Except.ok _ =>
              match ops.checkout branch_name with
              | Except.error e =>
                ⟨[GitCall.createBranch branch_name base, GitCall.checkoutRef branch_name],
                  some e, true, false⟩
              | Except.ok _ =>
                let lr := applyCommitsLoop ops plan.diff plan.suggested_commits 0
                let pre := [GitCall.createBranch branch_name base,
                  GitCall.checkoutRef branch_name] ++ lr.1
                match lr.2 with
                | some e => ⟨pre, some e, true, true⟩
                | none =>
                  match ops.trees_equal with
                  | Except.error e => ⟨pre ++ [GitCall.treesEqual target "HEAD"], some e, true, true⟩
                  | Except.ok b =>
                    if b then ⟨pre ++ [GitCall.treesEqual target "HEAD"], none, true, true⟩
                    else
                      ⟨pre ++ [GitCall.treesEqual target "HEAD"],
                        some (PyExc.gitError
                          "final tree does not match original commit after applying plan"),
                        true, true⟩
          let prefixCalls := [GitCall.ensureClean, GitCall.getCurrentRef] ++ tryRes.calls
          match tryRes.err with
          | none => ⟨prefixCalls, Except.ok ()⟩
          | some e =>
            if e.isException then
              let rb := rollback_partial_apply ops original_ref branch_name
                tryRes.branch_created tryRes.branch_checked_out
              match rb.2 with
              | some e2 => ⟨prefixCalls ++ rb.1, Except.error e2⟩
              | none => ⟨prefixCalls ++ rb.1, Except.error e⟩
            else ⟨prefixCalls, Except.error e⟩

/-! ## Spec-side grouping definitions and facts (claim C4) -/

/-- Keys of a list in order of first occurrence (the order of buckets of a
Python dict). -/
def firstOccur [DecidableEq α] (l : List α) : List α :=
  l.foldl (fun acc k => if k ∈ acc then acc else acc ++ [k]) []

theorem firstOccur_append_one [DecidableEq α] (xs : List α) (k : α) :
    firstOccur (xs ++ [k]) =
      if k ∈ firstOccur xs then firstOccur xs else firstOccur xs ++ [k] := by
  simp [firstOccur, List.foldl_append]

theorem mem_firstOccur [DecidableEq α] {a : α} {l : List α} :
    a ∈ firstOccur l ↔ a ∈ l := by
  induction l using List.reverseRecOn with
  | nil => simp [firstOccur]
  | append_singleton xs x ih =>
    rw [firstOccur_append_one]
    by_cases hx : x ∈ firstOccur xs
    · simp only [hx, if_true, List.mem_append, List.mem_singleton]
      constructor
      · intro h; exact Or.inl (ih.mp h)
      · rintro (h | rfl)
        · exact ih.mpr h
        · exact hx
    · simp only [hx, if_false, List.mem_append, List.mem_singleton, ih]

theorem nodup_firstOccur [DecidableEq α] (l : List α) : (firstOccur l).Nodup := by
  induction l using List.reverseRecOn with
  | nil => simp [firstOccur]
  | append_singleton xs x ih =>
    rw [firstOccur_append_one]
    by_cases hx : x ∈ firstOccur xs
    · simpa [hx]
    · simpa [hx] using List.Nodup.append ih (List.nodup_singleton x)
        (by simpa [List.disjoint_singleton] using hx)

theorem firstOccur_eq_self [DecidableEq α] {l : List α} (h : l.Nodup) :
    firstOccur l = l := by
  induction l using List.reverseRecOn with
  | nil => simp [firstOccur]
  | append_singleton xs x ih =>
    rcases List.nodup_append.mp h with ⟨h1, _, h3⟩
    have hx : x ∉ xs := by simpa [List.disjoint_singleton] using h3
    rw [firstOccur_append_one, ih h1, if_neg hx]

theorem length_firstOccur_le [DecidableEq α] (l : List α) :
    (firstOccur l).length ≤ l.length := by
  induction l using List.reverseRecOn with
  | nil => simp [firstOccur]
  | append_singleton xs x ih =>
    rw [firstOccur_append_one]
    by_cases hx : x ∈ firstOccur xs
    · simp only [hx, if_true, List.length_append, List.length_singleton]
      omega
    · simp only [hx, if_false, List.length_append, List.length_singleton]
      omega

/-- Modelled from the claim's words: partition a file's hunks, in order,
into maximal runs of hunks with the same symbol key — every change of key
starts a new group, even if the key reappeared earlier. -/
def specGroupRuns : List DiffHunk → List (Option String × List DiffHunk)
  | [] => []
  | h :: rest =>
    match specGroupRuns rest with
    | [] => [(hunkSymbolKey h, [h])]
    | (k, hs) :: gs =>
      if k = hunkSymbolKey h then (k, h :: hs) :: gs
      else (hunkSymbolKey h, [h]) :: (k, hs) :: gs

/-- What the source actually computes: one bucket per distinct symbol key in
first-occurrence order, each holding every hunk with that key. -/
def specGroupByFirstKey (hunks : List DiffHunk) : List (Option String × List DiffHunk) :=
  (firstOccur (hunks.map hunkSymbolKey)).map
    (fun k => (k, hunks.filter (fun h => hunkSymbolKey h = k)))

theorem addToGroup_not_mem {m : List (Option String × List DiffHunk)} {k : Option String}
    {h : DiffHunk} (hk : k ∉ m.map Prod.fst) : addToGroup m k h = m ++ [(k, [h])] := by
  induction m with
  | nil => rfl
  | cons p rest ih =>
    simp only [List.map_cons, List.mem_cons] at hk
    push_neg at hk
    cases p with
    | mk k' hs =>
      simp only [addToGroup, if_neg (fun hh : k' = k => hk.1 hh.symm)]
      rw [ih hk.2]
      simp

theorem addToGroup_mem_nodup {m : List (Option String × List DiffHunk)} {k : Option String}
    {h : DiffHunk} (hnd : (m.map Prod.fst).Nodup) (hk : k ∈ m.map Prod.fst) :
    addToGroup m k h = m.map (fun p => if p.1 = k then (p.1, p.2 ++ [h]) else p) := by
  induction m with
  | nil => simp at hk
  | cons p rest ih =>
    cases p with
    | mk k' hs =>
      simp only [List.map_cons, List.nodup_cons] at hnd
      by_cases hkk : k' = k
      · subst hkk
        have hmapid : ∀ p ∈ rest, (fun p : Option String × List DiffHunk =>
            if p.1 = k' then (p.1, p.2 ++ [h]) else p) p = p := by
          intro p hp
          have : p.1 ≠ k' := fun hh => hnd.1 (hh ▸ List.mem_map_of_mem Prod.fst hp)
          simp [this]
        simp [addToGroup, List.map_congr_left hmapid]
      · simp only [List.map_cons, List.mem_cons] at hk
        rcases hk with hk | hk
        · exact absurd hk.symm hkk
        · simp only [addToGroup, if_neg hkk, List.map_cons, if_neg hkk]
          rw [ih hnd.2 hk]

theorem map_fst_specGroupByFirstKey (hunks : List DiffHunk) :
    (specGroupByFirstKey hunks).map Prod.fst = firstOccur (hunks.map hunkSymbolKey) := by
  simp only [specGroupByFirstKey, List.map_map]
  have : ∀ k ∈ firstOccur (hunks.map hunkSymbolKey),
      (Prod.fst ∘ fun k => (k, hunks.filter (fun h => hunkSymbolKey h = k))) k = id k := by
    intro k _; rfl
  rw [List.map_congr_left this, List.map_id]

theorem addToGroup_state (pre : List DiffHunk) (h : DiffHunk) :
    addToGroup (specGroupByFirstKey pre) (hunkSymbolKey h) h =
      specGroupByFirstKey (pre ++ [h]) := by
  by_cases hk : hunkSymbolKey h ∈ pre.map hunkSymbolKey
  · have hk' : hunkSymbolKey h ∈ (specGroupByFirstKey pre).map Prod.fst := by
      rw [map_fst_specGroupByFirstKey]; exact mem_firstOccur.mpr hk
    rw [addToGroup_mem_nodup (by rw [map_fst_specGroupByFirstKey]; exact nodup_firstOccur _) hk']
    unfold specGroupByFirstKey
    have hfo : firstOccur ((pre ++ [h]).map hunkSymbolKey) =
        firstOccur (pre.map hunkSymbolKey) := by
      rw [List.map_append, List.map_singleton, firstOccur_append_one,
        if_pos (mem_firstOccur.mpr hk)]
    rw [hfo, List.map_map]
    apply List.map_congr_left
    intro k _
    by_cases hkk : k = hunkSymbolKey h
    · subst hkk
      simp [List.filter_append]
    · simp only [Function.comp_apply, if_neg (by simpa using hkk)]
      have hd : (decide (hunkSymbolKey h = k)) = false :=
        decide_eq_false (fun hh => hkk hh.symm)
      simp [List.filter_append, List.filter_cons, hd]
  · have hk' : hunkSymbolKey h ∉ (specGroupByFirstKey pre).map Prod.fst := by
      rw [map_fst_specGroupByFirstKey]
      exact fun hh => hk (mem_firstOccur.mp hh)
    rw [addToGroup_not_mem hk']
    unfold specGroupByFirstKey
    have hfo : firstOccur ((pre ++ [h]).map hunkSymbolKey) =
        firstOccur (pre.map hunkSymbolKey) ++ [hunkSymbolKey h] := by
      rw [List.map_append, List.map_singleton, firstOccur_append_one,
        if_neg (fun hh => hk (mem_firstOccur.mp hh))]
    rw [hfo, List.map_append]
    congr 1
    · apply List.map_congr_left
      intro k hkmem
      have hkk : k ≠ hunkSymbolKey h := by
        intro hh
        exact hk (hh ▸ mem_firstOccur.mp hkmem)
      have hd : (decide (hunkSymbolKey h = k)) = false :=
        decide_eq_false (fun hh => hkk hh.symm)
      simp [List.filter_append, List.filter_cons, hd]
    · have hnil : List.filter (fun h' => decide (hunkSymbolKey h' = hunkSymbolKey h)) pre = [] := by
        apply List.filter_eq_nil_iff.mpr
        intro a ha
        simp only [decide_eq_true_eq]
        intro hh
        exact hk (hh ▸ List.mem_map_of_mem hunkSymbolKey ha)
      simp [List.filter_append, hnil, List.filter]

theorem group_foldl_state (hs : List DiffHunk) :
    ∀ pre : List DiffHunk,
      List.foldl (fun acc h => addToGroup acc (hunkSymbolKey h) h)
        (specGroupByFirstKey pre) hs = specGroupByFirstKey (pre ++ hs) := by
  induction hs with
  | nil => intro pre; simp
  | cons h hs ih =>
    intro pre
    simp only [List.foldl_cons]
    rw [addToGroup_state pre h, ih (pre ++ [h])]
    simp

/-- The grouping function computes one bucket per distinct symbol key (in
first-occurrence order), each collecting every hunk of that key. -/
theorem group_hunks_by_symbol_eq (hunks : List DiffHunk) :
    group_hunks_by_symbol hunks = specGroupByFirstKey hunks := by
  have h0 : specGroupByFirstKey [] = [] := by simp [specGroupByFirstKey, firstOccur]
  have := group_foldl_state hunks []
  rw [h0] at this
  simpa [group_hunks_by_symbol] using this

theorem addToGroup_cons_self (k : Option String) (hs : List DiffHunk)
    (rest : List (Option String × List DiffHunk)) (h : DiffHunk) :
    addToGroup ((k, hs) :: rest) k h = (k, hs ++ [h]) :: rest := by
  simp [addToGroup]

theorem addToGroup_cons_ne {k' k : Option String} (hkk : k' ≠ k) (hs : List DiffHunk)
    (rest : List (Option String × List DiffHunk)) (h : DiffHunk) :
    addToGroup ((k', hs) :: rest) k h = (k', hs) :: addToGroup rest k h := by
  simp [addToGroup, hkk]

theorem addToGroup_flat (m : List (Option String × List DiffHunk)) (k : Option String)
    (h : DiffHunk) :
    ((addToGroup m k h).flatMap Prod.snd).Perm (m.flatMap Prod.snd ++ [h]) := by
  induction m with
  | nil => simp [addToGroup]
  | cons p rest ih =>
    cases p with
    | mk k' hs =>
      by_cases hkk : k' = k
      · subst hkk
        rw [addToGroup_cons_self]
        simp only [List.flatMap_cons, List.append_assoc]
        exact List.Perm.append_left hs List.perm_append_comm
      · rw [addToGroup_cons_ne hkk]
        simp only [List.flatMap_cons, List.append_assoc]
        exact List.Perm.append_left hs ih

theorem group_foldl_flat_perm (hs : List DiffHunk) :
    ∀ acc : List (Option String × List DiffHunk),
      ((List.foldl (fun acc h => addToGroup acc (hunkSymbolKey h) h) acc hs).flatMap
        Prod.snd).Perm (acc.flatMap Prod.snd ++ hs) := by
  induction hs with
  | nil => intro acc; simp
  | cons h hs ih =>
    intro acc
    simp only [List.foldl_cons]
    refine (ih (addToGroup acc (hunkSymbolKey h) h)).trans ?_
    refine (List.Perm.append_right hs (addToGroup_flat acc (hunkSymbolKey h) h)).trans ?_
    simp

/-- The buckets of the grouping cover exactly the input hunks (as a
permutation). -/
theorem group_hunks_by_symbol_flat_perm (hunks : List DiffHunk) :
    ((group_hunks_by_symbol hunks).flatMap Prod.snd).Perm hunks := by
  simpa using group_foldl_flat_perm hunks []

theorem addToGroup_ne_nil {m : List (Option String × List DiffHunk)} {k : Option String}
    {h : DiffHunk} (hm : ∀ p ∈ m, p.2 ≠ []) :
    ∀ p ∈ addToGroup m k h, p.2 ≠ [] := by
  induction m with
  | nil =>
    intro p hp
    simp only [addToGroup, List.mem_singleton] at hp
    subst hp; simp
  | cons q rest ih =>
    cases q with
    | mk k' hs =>
      by_cases hkk : k' = k
      · subst hkk
        intro p hp
        rw [addToGroup_cons_self] at hp
        rcases List.mem_cons.mp hp with hp | hp
        · rw [hp]; simp
        · exact hm p (List.mem_cons_of_mem _ hp)
      · intro p hp
        rw [addToGroup_cons_ne hkk] at hp
        rcases List.mem_cons.mp hp with hp | hp
        · rw [hp]; exact hm _ (List.mem_cons_self _ _)
        · exact ih (fun q hq => hm q (List.mem_cons_of_mem _ hq)) p hp

theorem group_hunks_by_symbol_ne_nil (hunks : List DiffHunk) :
    ∀ p ∈ group_hunks_by_symbol hunks, p.2 ≠ [] := by
  have : ∀ (hs : List DiffHunk) (acc : List (Option String × List DiffHunk)),
      (∀ p ∈ acc, p.2 ≠ []) →
      ∀ p ∈ List.foldl (fun acc h => addToGroup acc (hunkSymbolKey h) h) acc hs, p.2 ≠ [] := by
    intro hs
    induction hs with
    | nil => intro acc hacc; simpa using hacc
    | cons h hs ih =>
      intro acc hacc
      simp only [List.foldl_cons]
      exact ih _ (addToGroup_ne_nil hacc)
  exact this hunks [] (by simp)

/-- Concrete input for claim C4: symbol keys `a`, `b`, `a` in that order. -/
def c4hunk (i : Nat) (sym : String) : DiffHunk :=
  { id := "f.py::h" ++ toString i, file_path := "f.py", header := "@@ -1 +1 @@",
    lines := [], metaSymbol := some sym }

def c4hunks : List DiffHunk := [c4hunk 0 "def a", c4hunk 1 "def b", c4hunk 2 "def a"]

/-- **C4, counterexample.**  On a file whose hunks carry symbol keys
`a`, `b`, `a`, the grouping does not produce the claimed run partition
(three groups): the reappearing key `a` joins the earlier `a` group, giving
two groups with the third hunk merged into the first group. -/
theorem C4_counterexample :
    group_hunks_by_symbol c4hunks ≠ specGroupRuns c4hunks ∧
    group_hunks_by_symbol c4hunks =
      [(some "def a", [c4hunk 0 "def a", c4hunk 2 "def a"]),
       (some "def b", [c4hunk 1 "def b"])] ∧
    specGroupRuns c4hunks =
      [(some "def a", [c4hunk 0 "def a"]), (some "def b", [c4hunk 1 "def b"]),
       (some "def a", [c4hunk 2 "def a"])] := by
  refine ⟨?_, by decide, by decide⟩
  decide

/-- **C4, amended.**  Within each file the atomizer's grouping
(`_group_hunks_by_symbol`) partitions the hunks by symbol key (absent
symbol being a valid key) into one group per distinct key, the groups
ordered by the key's first occurrence, each group collecting every hunk of
that key in file order — so a key that reappears after an interruption
joins its earlier group rather than starting a new one. -/
theorem C4_grouping_by_first_occurrence (hunks : List DiffHunk) :
    group_hunks_by_symbol hunks = specGroupByFirstKey hunks :=
  group_hunks_by_symbol_eq hunks

/-! ## Properties of the validator's index maps -/

theorem dictInsert_not_mem [BEq α] [LawfulBEq α] {m : List (α × β)} {k : α} {v : β}
    (h : k ∉ m.map Prod.fst) : dictInsert m k v = m ++ [(k, v)] := by
  have hnone : ¬ (m.any (fun p => p.1 == k) = true) := by
    simp only [List.any_eq_true]
    rintro ⟨p, hp, hpk⟩
    exact h (eq_of_beq hpk ▸ List.mem_map_of_mem Prod.fst hp)
  unfold dictInsert
  rw [if_neg hnone]

theorem lookup_eq_none_of_not_mem_keys [BEq α] [LawfulBEq α] {m : List (α × β)} {k : α}
    (h : k ∉ m.map Prod.fst) : List.lookup k m = none := by
  induction m with
  | nil => rfl
  | cons q rest ih =>
    obtain ⟨qk, qv⟩ := q
    simp only [List.map_cons, List.mem_cons, not_or] at h
    simp only [List.lookup, beq_eq_false_iff_ne.mpr (fun hh : k = qk => h.1 hh)]
    exact ih h.2

theorem lookup_of_mem_nodup [BEq α] [LawfulBEq α] {m : List (α × β)}
    (hnd : (m.map Prod.fst).Nodup) {p : α × β} (hp : p ∈ m) :
    List.lookup p.1 m = some p.2 := by
  induction m with
  | nil => simp at hp
  | cons q rest ih =>
    obtain ⟨qk, qv⟩ := q
    obtain ⟨pk, pv⟩ := p
    simp only [List.map_cons, List.nodup_cons] at hnd
    rcases List.mem_cons.mp hp with hp | hp
    · rw [hp]
      simp [List.lookup]
    · have hne : pk ≠ qk := by
        intro hh
        exact hnd.1 (hh ▸ List.mem_map_of_mem Prod.fst hp)
      simp only [List.lookup, beq_eq_false_iff_ne.mpr hne]
      exact ih hnd.2 hp

theorem pyInsertSorted_perm (le : α → α → Bool) (x : α) (l : List α) :
    (pyInsertSorted le x l).Perm (x :: l) := by
  induction l with
  | nil => exact List.Perm.refl _
  | cons y ys ih =>
    unfold pyInsertSorted
    by_cases hle : le y x = true
    · rw [if_pos hle]
      exact (ih.cons y).trans (List.Perm.swap x y ys)
    · rw [if_neg hle]

theorem pySorted_foldl_perm (le : α → α → Bool) (l : List α) :
    ∀ acc : List α, (l.foldl (fun acc x => pyInsertSorted le x acc) acc).Perm (acc ++ l) := by
  induction l with
  | nil => intro acc; simp
  | cons x xs ih =>
    intro acc
    simp only [List.foldl_cons]
    refine (ih (pyInsertSorted le x acc)).trans ?_
    refine (List.Perm.append_right xs (pyInsertSorted_perm le x acc)).trans ?_
    exact List.perm_middle.symm.trans (by simp)

theorem pySorted_perm (le : α → α → Bool) (l : List α) : (pySorted le l).Perm l := by
  simpa using pySorted_foldl_perm le l []

theorem mem_pySorted {le : α → α → Bool} {l : List α} {a : α} :
    a ∈ pySorted le l ↔ a ∈ l :=
  (pySorted_perm le l).mem_iff

theorem length_pySorted (le : α → α → Bool) (l : List α) :
    (pySorted le l).length = l.length :=
  (pySorted_perm le l).length_eq

theorem pyInsertSorted_pairwise {le : α → α → Bool}
    (total : ∀ a b, le a b || le b a) {x : α} {l : List α}
    (trans : ∀ a b c, le a b = true → le b c = true → le a c = true)
    (h : l.Pairwise (fun a b => le a b = true)) :
    (pyInsertSorted le x l).Pairwise (fun a b => le a b = true) := by
  induction l with
  | nil => simp [pyInsertSorted]
  | cons y ys ih =>
    rcases List.pairwise_cons.mp h with ⟨hy, hys⟩
    unfold pyInsertSorted
    by_cases hle : le y x = true
    · rw [if_pos hle]
      rw [List.pairwise_cons]
      refine ⟨?_, ih hys⟩
      intro z hz
      rcases (pyInsertSorted_perm le x ys).mem_iff.mp hz with hz2
      rcases List.mem_cons.mp hz2 with hz3 | hz3
      · rw [hz3]; exact hle
      · exact hy z hz3
    · rw [if_neg hle]
      have hxy : le x y = true := by
        have := total x y
        rcases Bool.or_eq_true_iff.mp this with h1 | h1
        · exact h1
        · exact absurd h1 hle
      rw [List.pairwise_cons]
      refine ⟨?_, h⟩
      intro z hz
      rcases List.mem_cons.mp hz with hz2 | hz2
      · rw [hz2]; exact hxy
      · exact trans x y z hxy (hy z hz2)

theorem pySorted_pairwise {le : α → α → Bool}
    (trans : ∀ a b c, le a b = true → le b c = true → le a c = true)
    (total : ∀ a b, le a b || le b a) (l : List α) :
    (pySorted le l).Pairwise (fun a b => le a b = true) := by
  unfold pySorted
  have main : ∀ acc : List α, acc.Pairwise (fun a b => le a b = true) →
      (l.foldl (fun acc x => pyInsertSorted le x acc) acc).Pairwise
        (fun a b => le a b = true) := by
    induction l with
    | nil => intro acc hacc; simpa using hacc
    | cons x xs ih =>
      intro acc hacc
      simp only [List.foldl_cons]
      exact ih _ (pyInsertSorted_pairwise total trans hacc)
  exact main [] (by simp)

/-- The flattened (hunk id, file path) traversal the validator performs. -/
def hunkPairs (diff : Diff) : List (String × String) :=
  diff.files.flatMap
    (fun f => f.hunks.map (fun h => (h.id, pyOrD2 f.path_new f.path_old "")))

theorem map_fst_hunkPairs (diff : Diff) :
    (hunkPairs diff).map Prod.fst = allHunkIds diff := by
  unfold hunkPairs allHunkIds
  rw [List.map_flatMap]
  simp only [List.map_map]
  rfl

def pairStep (a : PlanIndex × Nat) (p : String × String) : PlanIndex × Nat :=
  (⟨dictInsert a.1.hunk_order p.1 a.2, dictInsert a.1.hunk_file p.1 p.2,
    a.1.all_hunk_ids ++ [p.1]⟩, a.2 + 1)

theorem buildPlanIndex_eq_pairs (diff : Diff) :
    buildPlanIndex diff = ((hunkPairs diff).foldl pairStep (⟨[], [], []⟩, 0)).1 := by
  have main : ∀ (files : List FileDiff) (acc : PlanIndex × Nat),
      files.foldl
        (fun (acc : PlanIndex × Nat) f =>
          let path := pyOrD2 f.path_new f.path_old ""
          f.hunks.foldl
            (fun (a : PlanIndex × Nat) h =>
              (⟨dictInsert a.1.hunk_order h.id a.2, dictInsert a.1.hunk_file h.id path,
                a.1.all_hunk_ids ++ [h.id]⟩, a.2 + 1))
            acc)
        acc =
      (files.flatMap
        (fun f => f.hunks.map (fun h => (h.id, pyOrD2 f.path_new f.path_old "")))).foldl
        pairStep acc := by
    intro files
    induction files with
    | nil => intro acc; simp
    | cons f fs ih =>
      intro acc
      simp only [List.foldl_cons, List.flatMap_cons, List.foldl_append]
      rw [ih]
      congr 1
      rw [List.foldl_map]
      rfl
  unfold buildPlanIndex hunkPairs
  rw [main]

theorem enum_pairs_keys (qs : List (String × String)) :
    (qs.enum.map (fun r => (r.2.1, r.1))).map Prod.fst = qs.map Prod.fst := by
  rw [List.map_map]
  have h1 : (Prod.fst ∘ fun r : Nat × String × String => (r.2.1, r.1)) =
      (Prod.fst ∘ Prod.snd) := rfl
  rw [h1, ← List.map_map, List.enum_map_snd]

theorem pairsFold_spec (ps : List (String × String)) (hnd : (ps.map Prod.fst).Nodup) :
    (ps.foldl pairStep (⟨[], [], []⟩, 0)).1.hunk_order =
        ps.enum.map (fun q => (q.2.1, q.1)) ∧
    (ps.foldl pairStep (⟨[], [], []⟩, 0)).1.hunk_file = ps ∧
    (ps.foldl pairStep (⟨[], [], []⟩, 0)).1.all_hunk_ids = ps.map Prod.fst ∧
    (ps.foldl pairStep (⟨[], [], []⟩, 0)).2 = ps.length := by
  induction ps using List.reverseRecOn with
  | nil => exact ⟨rfl, rfl, rfl, rfl⟩
  | append_singleton qs q ih =>
    have hndq : ((qs.map Prod.fst) ++ [q.1]).Nodup := by
      simpa using hnd
    rcases List.nodup_append.mp hndq with ⟨hnd', _, hdisj⟩
    have hq : q.1 ∉ qs.map Prod.fst := by
      intro hmem
      exact (List.disjoint_right.mp hdisj (List.mem_singleton_self q.1)) hmem
    obtain ⟨h1, h2, h3, h4⟩ := ih hnd'
    rw [List.foldl_append]
    refine ⟨?_, ?_, ?_, ?_⟩
    · simp only [List.foldl_cons, List.foldl_nil, pairStep, h1, h4]
      have hkeys : q.1 ∉ (qs.enum.map (fun r => (r.2.1, r.1))).map Prod.fst := by
        rw [enum_pairs_keys]
        exact hq
      rw [dictInsert_not_mem hkeys, List.enum_append]
      simp
    · simp only [List.foldl_cons, List.foldl_nil, pairStep, h2]
      rw [dictInsert_not_mem hq]
    · simp only [List.foldl_cons, List.foldl_nil, pairStep, h3]
      simp
    · simp only [List.foldl_cons, List.foldl_nil, pairStep, h4]
      simp

theorem lookup_isSome_iff_mem_keys [BEq α] [LawfulBEq α] {m : List (α × β)} {k : α} :
    (List.lookup k m).isSome = true ↔ k ∈ m.map Prod.fst := by
  induction m with
  | nil => simp [List.lookup]
  | cons q rest ih =>
    obtain ⟨qk, qv⟩ := q
    by_cases hk : k = qk
    · subst hk
      simp [List.lookup]
    · simp only [List.lookup, beq_eq_false_iff_ne.mpr hk, List.map_cons, List.mem_cons]
      rw [ih]
      constructor
      · exact Or.inr
      · rintro (h | h)
        · exact absurd h hk
        · exact h

theorem bpi_components (diff : Diff) (hnd : (allHunkIds diff).Nodup) :
    (buildPlanIndex diff).hunk_order = (hunkPairs diff).enum.map (fun q => (q.2.1, q.1)) ∧
    (buildPlanIndex diff).hunk_file = hunkPairs diff ∧
    (buildPlanIndex diff).all_hunk_ids = allHunkIds diff := by
  have hnd' : ((hunkPairs diff).map Prod.fst).Nodup := by
    rw [map_fst_hunkPairs]; exact hnd
  obtain ⟨h1, h2, h3, _⟩ := pairsFold_spec (hunkPairs diff) hnd'
  rw [buildPlanIndex_eq_pairs]
  exact ⟨h1, h2, by rw [h3, map_fst_hunkPairs]⟩

theorem bpi_order_keys (diff : Diff) (hnd : (allHunkIds diff).Nodup) :
    ((buildPlanIndex diff).hunk_order).map Prod.fst = allHunkIds diff := by
  rw [(bpi_components diff hnd).1, enum_pairs_keys, map_fst_hunkPairs]

theorem bpi_lookup_order_isSome (diff : Diff) (hnd : (allHunkIds diff).Nodup) (hid : String) :
    (List.lookup hid (buildPlanIndex diff).hunk_order).isSome = true ↔
      hid ∈ allHunkIds diff := by
  rw [lookup_isSome_iff_mem_keys, bpi_order_keys diff hnd]

theorem lookup_enumFrom_pairs :
    ∀ (ps : List (String × String)) (n : Nat) (hid : String), hid ∈ ps.map Prod.fst →
      List.lookup hid ((ps.enumFrom n).map (fun q => (q.2.1, q.1))) =
        some (n + (ps.map Prod.fst).indexOf hid) := by
  intro ps
  induction ps with
  | nil => intro n hid hmem; simp at hmem
  | cons p qs ih =>
    intro n hid hmem
    obtain ⟨pk, pv⟩ := p
    by_cases hk : hid = pk
    · subst hk
      simp [List.enumFrom, List.lookup, List.indexOf_cons_self]
    · have hmem' : hid ∈ qs.map Prod.fst := by
        rcases List.mem_cons.mp hmem with hm | hm
        · exact absurd hm hk
        · exact hm
      have hbeq : (hid == pk) = false := beq_eq_false_iff_ne.mpr hk
      simp only [List.enumFrom, List.map_cons, List.lookup, hbeq]
      rw [ih (n + 1) hid hmem']
      have hidx : (pk :: qs.map Prod.fst).indexOf hid = (qs.map Prod.fst).indexOf hid + 1 :=
        List.indexOf_cons_ne _ (fun hh => hk hh.symm)
      rw [hidx]
      congr 1
      omega

theorem lookup_enum_pairs {ps : List (String × String)}
    {hid : String} (hmem : hid ∈ ps.map Prod.fst) :
    List.lookup hid (ps.enum.map (fun q => (q.2.1, q.1))) =
      some ((ps.map Prod.fst).indexOf hid) := by
  have := lookup_enumFrom_pairs ps 0 hid hmem
  simpa [List.enum] using this

theorem bpi_lookup_order_indexOf (diff : Diff) (hnd : (allHunkIds diff).Nodup)
    {hid : String} (hmem : hid ∈ allHunkIds diff) :
    List.lookup hid (buildPlanIndex diff).hunk_order =
      some ((allHunkIds diff).indexOf hid) := by
  rw [(bpi_components diff hnd).1,
    lookup_enum_pairs (by rw [map_fst_hunkPairs]; exact hmem), map_fst_hunkPairs]

theorem bpi_lookup_file (diff : Diff) (hnd : (allHunkIds diff).Nodup)
    {f : FileDiff} (hf : f ∈ diff.files) {h : DiffHunk} (hh : h ∈ f.hunks) :
    List.lookup h.id (buildPlanIndex diff).hunk_file =
      some (pyOrD2 f.path_new f.path_old "") := by
  rw [(bpi_components diff hnd).2.1]
  have hnd' : ((hunkPairs diff).map Prod.fst).Nodup := by
    rw [map_fst_hunkPairs]; exact hnd
  have hmem : ((h.id, pyOrD2 f.path_new f.path_old "") : String × String) ∈ hunkPairs diff := by
    unfold hunkPairs
    rw [List.mem_flatMap]
    exact ⟨f, hf, List.mem_map_of_mem _ hh⟩
  exact lookup_of_mem_nodup hnd' hmem

/-! ## Claim-side predicates about plans -/

/-- Canonical order index of a hunk id (position in `allHunkIds`). -/
def canonIdx (diff : Diff) (hid : String) : Nat := (allHunkIds diff).indexOf hid

def fileIds (f : FileDiff) : List String := f.hunks.map (fun h => h.id)

/-- The sequence of a file's hunk ids read off a commit list in order. -/
def inducedFileIds (commits : List SuggestedCommit) (f : FileDiff) : List String :=
  commits.flatMap (fun c => c.hunk_ids.filter (fun hid => (fileIds f).contains hid))

/-- The minimum canonical order index among a commit's hunks. -/
def specCommitMin (diff : Diff) (c : SuggestedCommit) : Nat :=
  pyMinNat (c.hunk_ids.map (canonIdx diff))

/-- Claim violation 1: a commit references a hunk id not in the diff. -/
def planV1 (plan : Plan) : Prop :=
  ∃ c ∈ plan.suggested_commits, ∃ hid ∈ c.hunk_ids, hid ∉ allHunkIds plan.diff

/-- Claim violation 2: some hunk of the diff appears in no commit. -/
def planV2 (plan : Plan) : Prop :=
  ∃ hid ∈ allHunkIds plan.diff, ∀ c ∈ plan.suggested_commits, hid ∉ c.hunk_ids

/-- Claim violation 3: some hunk id appears in two commits. -/
def planV3 (plan : Plan) : Prop :=
  ∃ hid ∈ plan.suggested_commits.flatMap (fun c => c.hunk_ids),
    2 ≤ plan.suggested_commits.countP (fun c => decide (hid ∈ c.hunk_ids))

/-- Per-file order preservation of a commit list against the diff. -/
def orderOk (diff : Diff) (commits : List SuggestedCommit) : Prop :=
  ∀ f ∈ diff.files, inducedFileIds commits f = fileIds f

theorem flatMap_congr_mem {l : List α} {f g : α → List β} (h : ∀ x ∈ l, f x = g x) :
    l.flatMap f = l.flatMap g := by
  induction l with
  | nil => rfl
  | cons x xs ih =>
    simp only [List.flatMap_cons]
    rw [h x (List.mem_cons_self _ _), ih (fun y hy => h y (List.mem_cons_of_mem _ hy))]

theorem firstUnknown_none_iff (plan : Plan) (hnd : (allHunkIds plan.diff).Nodup) :
    firstUnknown plan.suggested_commits (buildPlanIndex plan.diff).hunk_order = none ↔
      ¬ planV1 plan := by
  unfold firstUnknown planV1
  rw [List.findSome?_eq_none_iff]
  constructor
  · intro h ⟨c, hc, hid, hhid, hmem⟩
    have hfind := h c hc
    rw [List.find?_eq_none] at hfind
    apply hfind hid hhid
    rw [Option.isNone_iff_eq_none]
    have hns : ¬ (List.lookup hid (buildPlanIndex plan.diff).hunk_order).isSome = true := by
      rw [bpi_lookup_order_isSome plan.diff hnd hid]; exact hmem
    cases hlk : List.lookup hid (buildPlanIndex plan.diff).hunk_order with
    | none => rfl
    | some v => rw [hlk] at hns; simp at hns
  · intro h c hc
    rw [List.find?_eq_none]
    intro hid hhid
    simp only [Option.isNone_iff_eq_none]
    intro hnone
    have : hid ∈ allHunkIds plan.diff := by
      by_contra hno
      exact h ⟨c, hc, hid, hhid, hno⟩
    have := (bpi_lookup_order_isSome plan.diff hnd hid).mpr this
    rw [hnone] at this
    simp at this

theorem firstUnknown_some_not_mem (plan : Plan) (hnd : (allHunkIds plan.diff).Nodup)
    {hid : String}
    (h : firstUnknown plan.suggested_commits (buildPlanIndex plan.diff).hunk_order = some hid) :
    hid ∉ allHunkIds plan.diff := by
  unfold firstUnknown at h
  obtain ⟨c, hc, hfind⟩ := List.exists_of_findSome?_eq_some h
  have hpred := List.find?_some hfind
  intro hmem
  have := (bpi_lookup_order_isSome plan.diff hnd hid).mpr hmem
  rcases Option.isSome_iff_exists.mp this with ⟨v, hv⟩
  rw [hv] at hpred
  simp at hpred

theorem listSetEq_true_iff (a b : List String) :
    listSetEq a b = true ↔ ((∀ x ∈ a, x ∈ b) ∧ (∀ x ∈ b, x ∈ a)) := by
  simp [listSetEq, List.all_eq_true, List.contains_eq_any_beq, List.any_eq_true, beq_iff_eq]

theorem countP_le_count_flatMap (commits : List SuggestedCommit) (hid : String) :
    commits.countP (fun c => decide (hid ∈ c.hunk_ids)) ≤
      (commits.flatMap (fun c => c.hunk_ids)).count hid := by
  induction commits with
  | nil => simp
  | cons c rest ih =>
    simp only [List.flatMap_cons, List.count_append]
    by_cases hm : hid ∈ c.hunk_ids
    · rw [List.countP_cons_of_pos _ _ (by simpa using hm)]
      have : 1 ≤ c.hunk_ids.count hid := List.one_le_count_iff.mpr hm
      omega
    · rw [List.countP_cons_of_neg _ _ (by simpa using hm)]
      omega

theorem planV3_not_nodup (plan : Plan) (h : planV3 plan) :
    ¬ (plan.suggested_commits.flatMap (fun c => c.hunk_ids)).Nodup := by
  obtain ⟨hid, _, hcount⟩ := h
  intro hnd
  have h1 := countP_le_count_flatMap plan.suggested_commits hid
  have h2 := List.nodup_iff_count_le_one.mp hnd hid
  omega

theorem lookupOrder_eq_canonIdx (diff : Diff) (hnd : (allHunkIds diff).Nodup)
    {hid : String} (hmem : hid ∈ allHunkIds diff) :
    lookupOrder (buildPlanIndex diff).hunk_order hid = canonIdx diff hid := by
  unfold lookupOrder canonIdx
  rw [bpi_lookup_order_indexOf diff hnd hmem]
  rfl

theorem map_lookupOrder_inj (diff : Diff) (hnd : (allHunkIds diff).Nodup) :
    ∀ {l₁ l₂ : List String}, (∀ x ∈ l₁, x ∈ allHunkIds diff) →
      (∀ x ∈ l₂, x ∈ allHunkIds diff) →
      l₁.map (lookupOrder (buildPlanIndex diff).hunk_order) =
        l₂.map (lookupOrder (buildPlanIndex diff).hunk_order) → l₁ = l₂ := by
  intro l₁
  induction l₁ with
  | nil =>
    intro l₂ _ _ heq
    exact (List.map_eq_nil_iff.mp heq.symm).symm
  | cons x xs ih =>
    intro l₂ h₁ h₂ heq
    cases l₂ with
    | nil => simp at heq
    | cons y ys =>
      simp only [List.map_cons, List.cons.injEq] at heq
      have hx := h₁ x (List.mem_cons_self _ _)
      have hy := h₂ y (List.mem_cons_self _ _)
      have hxy : x = y := by
        have h1 := lookupOrder_eq_canonIdx diff hnd hx
        have h2 := lookupOrder_eq_canonIdx diff hnd hy
        have : canonIdx diff x = canonIdx diff y := by rw [← h1, ← h2]; exact heq.1
        unfold canonIdx at this
        exact (List.indexOf_inj hx hy).mp this
      rw [hxy]
      rw [ih (fun z hz => h₁ z (List.mem_cons_of_mem _ hz))
        (fun z hz => h₂ z (List.mem_cons_of_mem _ hz)) heq.2]

theorem mem_allHunkIds_iff {diff : Diff} {hid : String} :
    hid ∈ allHunkIds diff ↔ ∃ f ∈ diff.files, hid ∈ fileIds f := by
  unfold allHunkIds fileIds
  rw [List.mem_flatMap]

theorem file_filter_iff (diff : Diff) (hnd : (allHunkIds diff).Nodup)
    (hPaths : (diff.files.map (fun f => pyOrD2 f.path_new f.path_old "")).Nodup)
    {f : FileDiff} (hf : f ∈ diff.files) {hid : String} (hmem : hid ∈ allHunkIds diff) :
    List.lookup hid (buildPlanIndex diff).hunk_file =
        some (pyOrD2 f.path_new f.path_old "") ↔
      hid ∈ fileIds f := by
  constructor
  · intro hlk
    obtain ⟨g, hg, hidg⟩ := mem_allHunkIds_iff.mp hmem
    obtain ⟨h, hh, hhid⟩ := List.mem_map.mp hidg
    have hlk2 : List.lookup hid (buildPlanIndex diff).hunk_file =
        some (pyOrD2 g.path_new g.path_old "") := by
      rw [← hhid]
      exact bpi_lookup_file diff hnd hg hh
    rw [hlk] at hlk2
    have hpeq : pyOrD2 f.path_new f.path_old "" = pyOrD2 g.path_new g.path_old "" :=
      Option.some.inj hlk2
    have hfg : f = g := List.inj_on_of_nodup_map hPaths hf hg hpeq
    rw [hfg]
    exact hidg
  · intro hidf
    obtain ⟨h, hh, hhid⟩ := List.mem_map.mp hidf
    rw [← hhid]
    exact bpi_lookup_file diff hnd hf hh

theorem inducedSeq_bridge (diff : Diff) (hnd : (allHunkIds diff).Nodup)
    (hPaths : (diff.files.map (fun f => pyOrD2 f.path_new f.path_old "")).Nodup)
    {commits : List SuggestedCommit}
    (hSub : ∀ c ∈ commits, ∀ hid ∈ c.hunk_ids, hid ∈ allHunkIds diff)
    {f : FileDiff} (hf : f ∈ diff.files) :
    inducedSeq (buildPlanIndex diff).hunk_order (buildPlanIndex diff).hunk_file commits
        (pyOrD2 f.path_new f.path_old "") =
      (inducedFileIds commits f).map (lookupOrder (buildPlanIndex diff).hunk_order) := by
  unfold inducedSeq inducedFileIds
  rw [List.map_flatMap]
  apply flatMap_congr_mem
  intro c hc
  congr 1
  apply List.filter_congr
  intro hid hhid
  have hmem : hid ∈ allHunkIds diff := hSub c hc hid hhid
  have hiff := file_filter_iff diff hnd hPaths hf hmem
  have hcont : (fileIds f).contains hid = decide (hid ∈ fileIds f) :=
    List.elem_eq_mem hid (fileIds f)
  by_cases hmemf : hid ∈ fileIds f
  · rw [decide_eq_true (hiff.mpr hmemf), hcont, decide_eq_true hmemf]
  · rw [decide_eq_false (fun hh => hmemf (hiff.mp hh)), hcont, decide_eq_false hmemf]

theorem inducedFileIds_of_fileIds_nil {commits : List SuggestedCommit} {f : FileDiff}
    (h : fileIds f = []) : inducedFileIds commits f = [] := by
  unfold inducedFileIds
  rw [List.flatMap_eq_nil_iff]
  intro c _
  rw [List.filter_eq_nil_iff]
  intro a _
  rw [h]
  simp [List.contains]

theorem mem_of_mem_inducedFileIds {commits : List SuggestedCommit} {f : FileDiff}
    {x : String} (hx : x ∈ inducedFileIds commits f) : ∃ c ∈ commits, x ∈ c.hunk_ids := by
  unfold inducedFileIds at hx
  obtain ⟨c, hc, hmem⟩ := List.mem_flatMap.mp hx
  exact ⟨c, hc, (List.mem_filter.mp hmem).1⟩

theorem fileIds_sublist {diff : Diff} {f : FileDiff} (hf : f ∈ diff.files) :
    List.Sublist (fileIds f) (allHunkIds diff) := by
  obtain ⟨s, t, hst⟩ := List.append_of_mem hf
  unfold allHunkIds
  rw [hst, List.flatMap_append, List.flatMap_cons]
  exact (List.sublist_append_left (fileIds f) _).trans (List.sublist_append_right _ _)

theorem fileIds_nodup {diff : Diff} (hnd : (allHunkIds diff).Nodup) {f : FileDiff}
    (hf : f ∈ diff.files) : (fileIds f).Nodup :=
  (fileIds_sublist hf).nodup hnd

/-- The body of the `findSome?` in `firstReorder`, written without lets. -/
def frBody (hunk_order : List (String × Nat)) (hunk_file : List (String × String))
    (commits : List SuggestedCommit) (f : FileDiff) :
    Option (String × List Nat × List Nat) :=
  if (f.hunks.map (fun h => h.id)) = [] then none
  else
    if inducedSeq hunk_order hunk_file commits (pyOrD2 f.path_new f.path_old "") ≠
        (f.hunks.map (fun h => h.id)).map (lookupOrder hunk_order) then
      some (pyOrD2 f.path_new f.path_old "",
        (f.hunks.map (fun h => h.id)).map (lookupOrder hunk_order),
        inducedSeq hunk_order hunk_file commits (pyOrD2 f.path_new f.path_old ""))
    else none

theorem firstReorder_eq (diff : Diff) (hunk_order : List (String × Nat))
    (hunk_file : List (String × String)) (commits : List SuggestedCommit) :
    firstReorder diff hunk_order hunk_file commits =
      diff.files.findSome? (frBody hunk_order hunk_file commits) := rfl

/-- The per-file order check of `_validate_and_order_plan` succeeds exactly
when, for every file, the id sequence induced by the commits equals the
file's native id sequence. -/
theorem firstReorder_none_iff (diff : Diff) (hnd : (allHunkIds diff).Nodup)
    (hPaths : (diff.files.map (fun f => pyOrD2 f.path_new f.path_old "")).Nodup)
    {commits : List SuggestedCommit}
    (hSub : ∀ c ∈ commits, ∀ hid ∈ c.hunk_ids, hid ∈ allHunkIds diff) :
    firstReorder diff (buildPlanIndex diff).hunk_order (buildPlanIndex diff).hunk_file
        commits = none ↔ orderOk diff commits := by
  rw [firstReorder_eq, List.findSome?_eq_none_iff]
  unfold orderOk
  have hbody : ∀ f ∈ diff.files,
      (frBody (buildPlanIndex diff).hunk_order (buildPlanIndex diff).hunk_file commits f =
        none ↔ inducedFileIds commits f = fileIds f) := by
    intro f hf
    unfold frBody
    by_cases hids : (f.hunks.map (fun h => h.id)) = []
    · rw [if_pos hids]
      simp only [true_iff]
      rw [inducedFileIds_of_fileIds_nil hids]
      rw [show fileIds f = f.hunks.map (fun h => h.id) from rfl, hids]
    · rw [if_neg hids]
      constructor
      · intro hb
        have hseq : inducedSeq (buildPlanIndex diff).hunk_order
            (buildPlanIndex diff).hunk_file commits (pyOrD2 f.path_new f.path_old "") =
            (f.hunks.map (fun h => h.id)).map
              (lookupOrder (buildPlanIndex diff).hunk_order) := by
          by_contra hne
          rw [if_pos hne] at hb
          exact Option.some_ne_none _ hb
        rw [inducedSeq_bridge diff hnd hPaths hSub hf] at hseq
        exact map_lookupOrder_inj diff hnd
          (fun x hx => by
            obtain ⟨c, hc, hcx⟩ := mem_of_mem_inducedFileIds hx
            exact hSub c hc x hcx)
          (fun x hx => (fileIds_sublist hf).mem hx)
          hseq
      · intro heq
        rw [if_neg]
        rw [inducedSeq_bridge diff hnd hPaths hSub hf]
        simp only [ne_eq, not_not]
        exact congrArg _ heq
  constructor
  · intro h f hf
    exact (hbody f hf).mp (h f hf)
  · intro h f hf
    exact (hbody f hf).mpr (h f hf)

theorem not_nodup_exists_two {l : List String} (h : ¬ l.Nodup) : ∃ x, 2 ≤ l.count x := by
  rw [List.nodup_iff_count_le_one] at h
  push_neg at h
  obtain ⟨x, hx⟩ := h
  exact ⟨x, by omega⟩

theorem count_inducedFileIds {commits : List SuggestedCommit} {f : FileDiff} {hid : String}
    (hm : hid ∈ fileIds f) :
    (inducedFileIds commits f).count hid = (commits.flatMap (fun c => c.hunk_ids)).count hid := by
  unfold inducedFileIds
  induction commits with
  | nil => rfl
  | cons c rest ih =>
    simp only [List.flatMap_cons, List.count_append]
    rw [ih]
    congr 1
    have hp : ((fileIds f).contains hid) = true :=
      (List.elem_eq_mem hid (fileIds f)).trans (decide_eq_true hm)
    rw [List.count_filter hp]

theorem not_planV1_sub {plan : Plan} (h : ¬ planV1 plan) :
    ∀ c ∈ plan.suggested_commits, ∀ hid ∈ c.hunk_ids, hid ∈ allHunkIds plan.diff := by
  intro c hc hid hhid
  by_contra hno
  exact h ⟨c, hc, hid, hhid, hno⟩

theorem setEq_iff_not_planV2 {plan : Plan}
    (hSub : ∀ c ∈ plan.suggested_commits, ∀ hid ∈ c.hunk_ids, hid ∈ allHunkIds plan.diff) :
    listSetEq (plan.suggested_commits.flatMap (fun c => c.hunk_ids)) (allHunkIds plan.diff) =
        true ↔ ¬ planV2 plan := by
  rw [listSetEq_true_iff]
  unfold planV2
  constructor
  · rintro ⟨_, h2⟩ ⟨hid, hmem, hno⟩
    obtain ⟨c, hc, hcx⟩ := List.mem_flatMap.mp (h2 hid hmem)
    exact hno c hc hcx
  · intro h
    constructor
    · intro x hx
      obtain ⟨c, hc, hcx⟩ := List.mem_flatMap.mp hx
      exact hSub c hc x hcx
    · intro x hx
      by_contra hno
      apply h
      refine ⟨x, hx, ?_⟩
      intro c hc hcx
      exact hno (List.mem_flatMap.mpr ⟨c, hc, hcx⟩)

theorem any_isEmpty_false {commits : List SuggestedCommit}
    (hNE : ∀ c ∈ commits, c.hunk_ids ≠ []) :
    commits.any (fun c => c.hunk_ids.isEmpty) = false := by
  rw [Bool.eq_false_iff]
  intro hany
  obtain ⟨c, hc, hce⟩ := List.any_eq_true.mp hany
  exact hNE c hc (List.isEmpty_iff.mp hce)

/-- The sorted commit list step 4 of the validator produces. -/
def sortedCommitsOf (plan : Plan) : List SuggestedCommit :=
  pySorted
    (fun a b => commitMinKey (buildPlanIndex plan.diff).hunk_order a ≤
      commitMinKey (buildPlanIndex plan.diff).hunk_order b)
    plan.suggested_commits

theorem validate_eq_unknown {plan : Plan} {hid : String}
    (hfu : firstUnknown plan.suggested_commits (buildPlanIndex plan.diff).hunk_order =
      some hid) :
    validate_and_order_plan plan = (plan, some (PlanFailure.unknownHunk hid)) := by
  simp only [validate_and_order_plan]
  rw [hfu]

theorem validate_eq_coverage {plan : Plan}
    (hfu : firstUnknown plan.suggested_commits (buildPlanIndex plan.diff).hunk_order = none)
    (hset : listSetEq (plan.suggested_commits.flatMap (fun c => c.hunk_ids))
      (buildPlanIndex plan.diff).all_hunk_ids = false) :
    ∃ m e, validate_and_order_plan plan = (plan, some (PlanFailure.coverage m e)) := by
  simp only [validate_and_order_plan]
  rw [hfu]
  rw [if_pos (by simp [hset])]
  exact ⟨_, _, rfl⟩

theorem validate_eq_duplicate {plan : Plan}
    (hfu : firstUnknown plan.suggested_commits (buildPlanIndex plan.diff).hunk_order = none)
    (hset : listSetEq (plan.suggested_commits.flatMap (fun c => c.hunk_ids))
      (buildPlanIndex plan.diff).all_hunk_ids = true)
    (hdup : ¬ (plan.suggested_commits.flatMap (fun c => c.hunk_ids)).Nodup) :
    validate_and_order_plan plan = (plan, some PlanFailure.duplicateAssign) := by
  simp only [validate_and_order_plan]
  rw [hfu]
  rw [if_neg (by simp [hset]), if_pos hdup]

theorem validate_eq_emptyCommit {plan : Plan}
    (hfu : firstUnknown plan.suggested_commits (buildPlanIndex plan.diff).hunk_order = none)
    (hset : listSetEq (plan.suggested_commits.flatMap (fun c => c.hunk_ids))
      (buildPlanIndex plan.diff).all_hunk_ids = true)
    (hnd : (plan.suggested_commits.flatMap (fun c => c.hunk_ids)).Nodup)
    (hany : plan.suggested_commits.any (fun c => c.hunk_ids.isEmpty) = true) :
    validate_and_order_plan plan = (plan, some PlanFailure.emptyCommitMin) := by
  simp only [validate_and_order_plan]
  rw [hfu]
  rw [if_neg (by simp [hset]), if_neg (by simp [hnd]), if_pos hany]

theorem validate_eq_after_sort {plan : Plan}
    (hfu : firstUnknown plan.suggested_commits (buildPlanIndex plan.diff).hunk_order = none)
    (hset : listSetEq (plan.suggested_commits.flatMap (fun c => c.hunk_ids))
      (buildPlanIndex plan.diff).all_hunk_ids = true)
    (hnd : (plan.suggested_commits.flatMap (fun c => c.hunk_ids)).Nodup)
    (hany : plan.suggested_commits.any (fun c => c.hunk_ids.isEmpty) = false) :
    validate_and_order_plan plan =
      (match firstReorder plan.diff (buildPlanIndex plan.diff).hunk_order
          (buildPlanIndex plan.diff).hunk_file (sortedCommitsOf plan) with
        | some r =>
          ({ plan with suggested_commits := sortedCommitsOf plan },
            some (PlanFailure.reorder r.1 r.2.1 r.2.2))
        | none => ({ plan with suggested_commits := sortedCommitsOf plan }, none)) := by
  simp only [validate_and_order_plan, sortedCommitsOf]
  rw [hfu]
  rw [if_neg (by simp [hset]), if_neg (by simp [hnd]), if_neg (by simp [hany])]

/-- The property claim C5 asserts of `_validate_and_order_plan`, for one
plan: success exactly when no violation is present, and a distinguishable
`PlanValidationError` for each violation case, checked in order. -/
def planValidatorSpec (plan : Plan) : Prop :=
  ((validate_and_order_plan plan).2 = none ↔
    (¬ planV1 plan ∧ ¬ planV2 plan ∧ ¬ planV3 plan ∧
      orderOk plan.diff (validate_and_order_plan plan).1.suggested_commits)) ∧
  (planV1 plan → ∃ hid, (validate_and_order_plan plan).2 =
    some (PlanFailure.unknownHunk hid) ∧ hid ∉ allHunkIds plan.diff) ∧
  (¬ planV1 plan → planV2 plan → ∃ m e,
    (validate_and_order_plan plan).2 = some (PlanFailure.coverage m e)) ∧
  (¬ planV1 plan → ¬ planV2 plan → planV3 plan →
    (validate_and_order_plan plan).2 = some PlanFailure.duplicateAssign) ∧
  (¬ planV1 plan → ¬ planV2 plan →
    (plan.suggested_commits.flatMap (fun c => c.hunk_ids)).Nodup →
    ¬ orderOk plan.diff (validate_and_order_plan plan).1.suggested_commits →
    ∃ p exp act, (validate_and_order_plan plan).2 =
      some (PlanFailure.reorder p exp act)) ∧
  (∀ pf, (validate_and_order_plan plan).2 = some pf → pf.isPlanValidationError = true)

/-- **C5, amended.**  For a diff with unique hunk ids and distinct file
paths, and a plan in which every commit references at least one hunk,
`_validate_and_order_plan` succeeds exactly when no claimed violation is
present, and each violation case fails with its own distinguishable
`PlanValidationError`: an unknown reference, inexact coverage, a hunk id
assigned twice, and a per-file order violation, checked in this order.
(A commit with an empty hunk list instead escapes as a `ValueError` from
the sort key — see the counterexample.) -/
theorem C5_validator_checks (plan : Plan)
    (hnd : (allHunkIds plan.diff).Nodup)
    (hPaths : (plan.diff.files.map (fun f => pyOrD2 f.path_new f.path_old "")).Nodup)
    (hNE : ∀ c ∈ plan.suggested_commits, c.hunk_ids ≠ []) :
    planValidatorSpec plan := by
  unfold planValidatorSpec
  cases hfu : firstUnknown plan.suggested_commits (buildPlanIndex plan.diff).hunk_order with
  | some hid =>
    have hV1 : planV1 plan := by
      by_contra hno
      rw [(firstUnknown_none_iff plan hnd).mpr hno] at hfu
      exact Option.noConfusion hfu
    have heq := validate_eq_unknown hfu
    rw [heq]
    refine ⟨?_, ?_, ?_, ?_, ?_, ?_⟩
    · constructor
      · intro h; exact Option.noConfusion h
      · rintro ⟨h1, _⟩; exact absurd hV1 h1
    · intro _
      exact ⟨hid, rfl, firstUnknown_some_not_mem plan hnd hfu⟩
    · intro hnV1 _; exact absurd hV1 hnV1
    · intro hnV1 _ _; exact absurd hV1 hnV1
    · intro hnV1 _ _ _; exact absurd hV1 hnV1
    · intro pf hpf
      have : PlanFailure.unknownHunk hid = pf := Option.some.inj hpf
      rw [← this]; rfl
  | none =>
    have hnV1 : ¬ planV1 plan := (firstUnknown_none_iff plan hnd).mp hfu
    have hSub := not_planV1_sub hnV1
    cases hset : listSetEq (plan.suggested_commits.flatMap (fun c => c.hunk_ids))
        (buildPlanIndex plan.diff).all_hunk_ids with
    | false =>
      have hset2 : listSetEq (plan.suggested_commits.flatMap (fun c => c.hunk_ids))
          (allHunkIds plan.diff) = false := by
        rw [← (bpi_components plan.diff hnd).2.2]; exact hset
      have hV2 : planV2 plan := by
        by_contra hno
        rw [(setEq_iff_not_planV2 hSub).mpr hno] at hset2
        exact Bool.noConfusion hset2
      obtain ⟨m, e, heq⟩ := validate_eq_coverage hfu hset
      rw [heq]
      refine ⟨?_, ?_, ?_, ?_, ?_, ?_⟩
      · constructor
        · intro h; exact Option.noConfusion h
        · rintro ⟨_, h2, _⟩; exact absurd hV2 h2
      · intro h; exact absurd h hnV1
      · intro _ _; exact ⟨m, e, rfl⟩
      · intro _ hnV2 _; exact absurd hV2 hnV2
      · intro _ hnV2 _ _; exact absurd hV2 hnV2
      · intro pf hpf
        have : PlanFailure.coverage m e = pf := Option.some.inj hpf
        rw [← this]; rfl
    | true =>
      have hset2 : listSetEq (plan.suggested_commits.flatMap (fun c => c.hunk_ids))
          (allHunkIds plan.diff) = true := by
        rw [← (bpi_components plan.diff hnd).2.2]; exact hset
      have hnV2 : ¬ planV2 plan := (setEq_iff_not_planV2 hSub).mp hset2
      by_cases hdup : (plan.suggested_commits.flatMap (fun c => c.hunk_ids)).Nodup
      · -- no duplicates: proceed to the sort and the order check
        have hnV3 : ¬ planV3 plan := fun h => planV3_not_nodup plan h hdup
        have hany := any_isEmpty_false hNE
        have hSubSorted : ∀ c ∈ sortedCommitsOf plan, ∀ hid ∈ c.hunk_ids,
            hid ∈ allHunkIds plan.diff := by
          intro c hc
          apply hSub c
          unfold sortedCommitsOf at hc
          exact mem_pySorted.mp hc
        cases hfr : firstReorder plan.diff (buildPlanIndex plan.diff).hunk_order
            (buildPlanIndex plan.diff).hunk_file (sortedCommitsOf plan) with
        | some r =>
          have heq : validate_and_order_plan plan =
              ({ plan with suggested_commits := sortedCommitsOf plan },
                some (PlanFailure.reorder r.1 r.2.1 r.2.2)) := by
            rw [validate_eq_after_sort hfu hset hdup hany, hfr]
          rw [heq]
          have hnOrd : ¬ orderOk plan.diff (sortedCommitsOf plan) := by
            intro ho
            rw [(firstReorder_none_iff plan.diff hnd hPaths hSubSorted).mpr ho] at hfr
            exact Option.noConfusion hfr
          refine ⟨?_, ?_, ?_, ?_, ?_, ?_⟩
          · constructor
            · intro h; exact Option.noConfusion h
            · rintro ⟨_, _, _, h4⟩; exact absurd h4 hnOrd
          · intro h; exact absurd h hnV1
          · intro _ h; exact absurd h hnV2
          · intro _ _ h; exact absurd h hnV3
          · intro _ _ _ _; exact ⟨r.1, r.2.1, r.2.2, rfl⟩
          · intro pf hpf
            have : PlanFailure.reorder r.1 r.2.1 r.2.2 = pf := Option.some.inj hpf
            rw [← this]; rfl
        | none =>
          have heq : validate_and_order_plan plan =
              ({ plan with suggested_commits := sortedCommitsOf plan }, none) := by
            rw [validate_eq_after_sort hfu hset hdup hany, hfr]
          rw [heq]
          have hOrd : orderOk plan.diff (sortedCommitsOf plan) :=
            (firstReorder_none_iff plan.diff hnd hPaths hSubSorted).mp hfr
          refine ⟨?_, ?_, ?_, ?_, ?_, ?_⟩
          · constructor
            · intro _; exact ⟨hnV1, hnV2, hnV3, hOrd⟩
            · intro _; rfl
          · intro h; exact absurd h hnV1
          · intro _ h; exact absurd h hnV2
          · intro _ _ h; exact absurd h hnV3
          · intro _ _ _ hnOrd; exact absurd hOrd hnOrd
          · intro pf hpf; exact Option.noConfusion hpf
      · -- a duplicated reference: the duplicate check fires
        have heq := validate_eq_duplicate hfu hset hdup
        rw [heq]
        refine ⟨?_, ?_, ?_, ?_, ?_, ?_⟩
        · constructor
          · intro h; exact Option.noConfusion h
          · rintro ⟨_, _, hnV3, hord⟩
            obtain ⟨hid, hcnt⟩ := not_nodup_exists_two hdup
            have hmemA : hid ∈ plan.suggested_commits.flatMap (fun c => c.hunk_ids) :=
              List.count_pos_iff.mp (by omega)
            obtain ⟨c, hc, hcx⟩ := List.mem_flatMap.mp hmemA
            have hmemAll : hid ∈ allHunkIds plan.diff := hSub c hc hid hcx
            obtain ⟨f, hf, hmemf⟩ := mem_allHunkIds_iff.mp hmemAll
            have hcnt2 := @count_inducedFileIds plan.suggested_commits f hid hmemf
            have hford := hord f hf
            rw [hford] at hcnt2
            have hle := List.nodup_iff_count_le_one.mp (fileIds_nodup hnd hf) hid
            omega
        · intro h; exact absurd h hnV1
        · intro _ h; exact absurd h hnV2
        · intro _ _ _; rfl
        · intro _ _ hndup _; exact absurd hndup hdup
        · intro pf hpf
          have : PlanFailure.duplicateAssign = pf := Option.some.inj hpf
          rw [← this]; rfl

/-- A hunk of file `a.py` with ordinal `i` and no symbol metadata. -/
def aHunk (i : Nat) : DiffHunk :=
  { id := "a.py::h" ++ toString i, file_path := "a.py", header := "@@ -1 +1 @@", lines := [] }

def aFile (hs : List DiffHunk) : FileDiff :=
  { path_old := some "a.py", path_new := some "a.py", change_type := ChangeType.modify,
    is_binary := false, hunks := hs }

def mkCommit (cid : String) (hids : List String) : SuggestedCommit :=
  { id := cid, title := "Atomic change", body := none, atomic_change_ids := [cid],
    hunk_ids := hids }

/-- Diff with one hunk; commits `[h0]` and `[]`: no claimed violation is
present, yet validation fails (with a `ValueError`, not a
`PlanValidationError`). -/
def c5cexPlan : Plan :=
  { diff := ⟨some "base", some "tgt", [aFile [aHunk 0]]⟩,
    suggested_commits := [mkCommit "c1" ["a.py::h0"], mkCommit "c2" []] }

/-- **C5, counterexample.**  A plan exhibiting none of the four claimed
violations — every referenced id exists, coverage is exact, no id is in
two commits, and the induced per-file order is native — on which the
validator nevertheless fails, and with a `ValueError` (from `min` of an
empty sort key), not a `PlanValidationError`. -/
theorem C5_counterexample :
    (validate_and_order_plan c5cexPlan).2 = some PlanFailure.emptyCommitMin ∧
    PlanFailure.emptyCommitMin.isPlanValidationError = false ∧
    ¬ planV1 c5cexPlan ∧ ¬ planV2 c5cexPlan ∧ ¬ planV3 c5cexPlan ∧
    orderOk c5cexPlan.diff (validate_and_order_plan c5cexPlan).1.suggested_commits := by
  refine ⟨by decide, rfl, by unfold planV1; decide, by unfold planV2; decide,
    by unfold planV3; decide, ?_⟩
  intro f hf
  fin_cases hf
  decide

/-- A well-formed two-hunk plan on which validation succeeds. -/
def c5wPlan : Plan :=
  { diff := ⟨some "base", some "tgt", [aFile [aHunk 0, aHunk 1]]⟩,
    suggested_commits := [mkCommit "c1" ["a.py::h0"], mkCommit "c2" ["a.py::h1"]] }

/-- Witness for C5 at a concrete plan. -/
theorem C5_validator_checks_witness : planValidatorSpec c5wPlan :=
  C5_validator_checks c5wPlan (by decide) (by decide) (by decide)

/-- **C6.**  On every plan that passes validation (over a diff with unique
hunk ids and distinct file paths), the suggested-commit list afterwards is
sorted ascending by the minimum canonical order index of each commit's
hunks, and reading off each file's hunk ids from the sorted commits yields
exactly that file's native hunk order. -/
theorem C6_commits_sorted_and_order_preserved (plan : Plan)
    (hnd : (allHunkIds plan.diff).Nodup)
    (hPaths : (plan.diff.files.map (fun f => pyOrD2 f.path_new f.path_old "")).Nodup)
    (hOk : (validate_and_order_plan plan).2 = none) :
    ((validate_and_order_plan plan).1.suggested_commits).Pairwise
      (fun a b => specCommitMin plan.diff a ≤ specCommitMin plan.diff b) ∧
    orderOk plan.diff (validate_and_order_plan plan).1.suggested_commits := by
  cases hfu : firstUnknown plan.suggested_commits (buildPlanIndex plan.diff).hunk_order with
  | some hid =>
    rw [validate_eq_unknown hfu] at hOk
    exact Option.noConfusion hOk
  | none =>
    have hnV1 : ¬ planV1 plan := (firstUnknown_none_iff plan hnd).mp hfu
    have hSub := not_planV1_sub hnV1
    cases hset : listSetEq (plan.suggested_commits.flatMap (fun c => c.hunk_ids))
        (buildPlanIndex plan.diff).all_hunk_ids with
    | false =>
      obtain ⟨m, e, heq⟩ := validate_eq_coverage hfu hset
      rw [heq] at hOk
      exact Option.noConfusion hOk
    | true =>
      by_cases hdup : (plan.suggested_commits.flatMap (fun c => c.hunk_ids)).Nodup
      · cases hany : plan.suggested_commits.any (fun c => c.hunk_ids.isEmpty) with
        | true =>
          rw [validate_eq_emptyCommit hfu hset hdup hany] at hOk
          exact Option.noConfusion hOk
        | false =>
          have hSubSorted : ∀ c ∈ sortedCommitsOf plan, ∀ hid ∈ c.hunk_ids,
              hid ∈ allHunkIds plan.diff := by
            intro c hc
            apply hSub c
            unfold sortedCommitsOf at hc
            exact mem_pySorted.mp hc
          cases hfr : firstReorder plan.diff (buildPlanIndex plan.diff).hunk_order
              (buildPlanIndex plan.diff).hunk_file (sortedCommitsOf plan) with
          | some r =>
            have heq : validate_and_order_plan plan =
                ({ plan with suggested_commits := sortedCommitsOf plan },
                  some (PlanFailure.reorder r.1 r.2.1 r.2.2)) := by
              rw [validate_eq_after_sort hfu hset hdup hany, hfr]
            rw [heq] at hOk
            exact Option.noConfusion hOk
          | none =>
            have heq : validate_and_order_plan plan =
                ({ plan with suggested_commits := sortedCommitsOf plan }, none) := by
              rw [validate_eq_after_sort hfu hset hdup hany, hfr]
            rw [heq]
            constructor
            · have hpw := @pySorted_pairwise SuggestedCommit
                (fun a b => commitMinKey (buildPlanIndex plan.diff).hunk_order a ≤
                  commitMinKey (buildPlanIndex plan.diff).hunk_order b)
                (by
                  intro a b c hab hbc
                  simp only [decide_eq_true_eq] at hab hbc ⊢
                  omega)
                (by
                  intro a b
                  simp only [Bool.or_eq_true, decide_eq_true_eq]
                  omega)
                plan.suggested_commits
              have : (sortedCommitsOf plan).Pairwise
                  (fun a b => commitMinKey (buildPlanIndex plan.diff).hunk_order a ≤
                    commitMinKey (buildPlanIndex plan.diff).hunk_order b) := by
                unfold sortedCommitsOf
                exact hpw.imp (by intro a b hab; exact decide_eq_true_eq.mp hab)
              refine List.Pairwise.imp_of_mem ?_ this
              intro a b ha hb hab
              have hka : commitMinKey (buildPlanIndex plan.diff).hunk_order a =
                  specCommitMin plan.diff a := by
                unfold commitMinKey specCommitMin
                congr 1
                apply List.map_congr_left
                intro hid hhid
                exact lookupOrder_eq_canonIdx plan.diff hnd (hSubSorted a ha hid hhid)
              have hkb : commitMinKey (buildPlanIndex plan.diff).hunk_order b =
                  specCommitMin plan.diff b := by
                unfold commitMinKey specCommitMin
                congr 1
                apply List.map_congr_left
                intro hid hhid
                exact lookupOrder_eq_canonIdx plan.diff hnd (hSubSorted b hb hid hhid)
              rw [← hka, ← hkb]
              exact hab
            · exact (firstReorder_none_iff plan.diff hnd hPaths hSubSorted).mp hfr
      · rw [validate_eq_duplicate hfu hset hdup] at hOk
        exact Option.noConfusion hOk

/-- Witness for C6 at a concrete plan (deliberately given out of order: the
validator re-sorts it). -/
def c6wPlan : Plan :=
  { diff := ⟨some "base", some "tgt", [aFile [aHunk 0, aHunk 1]]⟩,
    suggested_commits := [mkCommit "c2" ["a.py::h1"], mkCommit "c1" ["a.py::h0"]] }

theorem C6_commits_sorted_and_order_preserved_witness :
    ((validate_and_order_plan c6wPlan).1.suggested_commits).Pairwise
      (fun a b => specCommitMin c6wPlan.diff a ≤ specCommitMin c6wPlan.diff b) ∧
    orderOk c6wPlan.diff (validate_and_order_plan c6wPlan).1.suggested_commits :=
  C6_commits_sorted_and_order_preserved c6wPlan (by decide) (by decide) (by decide)

def isReorderFailure : Option PlanFailure → Bool
  | some (PlanFailure.reorder _ _ _) => true
  | _ => false

/-- **C10.**  Whenever validation fails at the per-file order check (the
only check that can produce a reorder failure, and the only one performed
after the sort), the returned plan's `suggested_commits` list has already
been replaced by the list sorted by minimum hunk order: the sort in step 4
mutates the plan in place before step 5 can raise. -/
theorem C10_sorted_before_reorder_error (plan : Plan)
    (h : isReorderFailure (validate_and_order_plan plan).2 = true) :
    (validate_and_order_plan plan).1.suggested_commits = sortedCommitsOf plan := by
  cases hfu : firstUnknown plan.suggested_commits (buildPlanIndex plan.diff).hunk_order with
  | some hid =>
    rw [validate_eq_unknown hfu] at h
    exact Bool.noConfusion h
  | none =>
    cases hset : listSetEq (plan.suggested_commits.flatMap (fun c => c.hunk_ids))
        (buildPlanIndex plan.diff).all_hunk_ids with
    | false =>
      obtain ⟨m, e, heq⟩ := validate_eq_coverage hfu hset
      rw [heq] at h
      exact Bool.noConfusion h
    | true =>
      by_cases hdup : (plan.suggested_commits.flatMap (fun c => c.hunk_ids)).Nodup
      · cases hany : plan.suggested_commits.any (fun c => c.hunk_ids.isEmpty) with
        | true =>
          rw [validate_eq_emptyCommit hfu hset hdup hany] at h
          exact Bool.noConfusion h
        | false =>
          cases hfr : firstReorder plan.diff (buildPlanIndex plan.diff).hunk_order
              (buildPlanIndex plan.diff).hunk_file (sortedCommitsOf plan) with
          | some r =>
            have heq : validate_and_order_plan plan =
                ({ plan with suggested_commits := sortedCommitsOf plan },
                  some (PlanFailure.reorder r.1 r.2.1 r.2.2)) := by
              rw [validate_eq_after_sort hfu hset hdup hany, hfr]
            rw [heq]
          | none =>
            have heq : validate_and_order_plan plan =
                ({ plan with suggested_commits := sortedCommitsOf plan }, none) := by
              rw [validate_eq_after_sort hfu hset hdup hany, hfr]
            rw [heq]
      · rw [validate_eq_duplicate hfu hset hdup] at h
        exact Bool.noConfusion h

/-- A plan whose only defect is per-file order: commit `c1` holds hunks 0
and 2, commit `c2` holds hunk 1. -/
def c10Plan : Plan :=
  { diff := ⟨some "base", some "tgt", [aFile [aHunk 0, aHunk 1, aHunk 2]]⟩,
    suggested_commits := [mkCommit "c1" ["a.py::h0", "a.py::h2"],
      mkCommit "c2" ["a.py::h1"]] }

theorem C10_sorted_before_reorder_error_witness :
    isReorderFailure (validate_and_order_plan c10Plan).2 = true ∧
    (validate_and_order_plan c10Plan).1.suggested_commits = sortedCommitsOf c10Plan :=
  ⟨by decide, C10_sorted_before_reorder_error c10Plan (by decide)⟩

/-! ## Kahn-loop invariants for `_topological_sort` -/

theorem lookup_cons_self {β : Type} {b : β} {l : List (String × β)} {k : String} :
    List.lookup k ((k, b) :: l) = some b := by
  simp [List.lookup]

theorem lookup_cons_ne {β : Type} {a k : String} {b : β} {l : List (String × β)} (h : k ≠ a) :
    List.lookup k ((a, b) :: l) = List.lookup k l := by
  simp only [List.lookup, beq_eq_false_iff_ne.mpr h]

theorem lookup_some_mem {β : Type} {l : List (String × β)} {k : String} {v : β}
    (h : List.lookup k l = some v) : (k, v) ∈ l := by
  induction l with
  | nil => exact Option.noConfusion h
  | cons q rest ih =>
    obtain ⟨qk, qv⟩ := q
    by_cases hk : k = qk
    · subst hk
      rw [lookup_cons_self] at h
      obtain rfl : qv = v := Option.some.inj h
      exact List.mem_cons_self _ _
    · rw [lookup_cons_ne hk] at h
      exact List.mem_cons_of_mem _ (ih h)

theorem lookup_append_of_some {β : Type} {l l' : List (String × β)} {k : String} {v : β}
    (h : List.lookup k l = some v) : List.lookup k (l ++ l') = some v := by
  induction l with
  | nil => exact Option.noConfusion h
  | cons q rest ih =>
    obtain ⟨qk, qv⟩ := q
    by_cases hk : k = qk
    · subst hk
      rw [lookup_cons_self] at h
      rw [List.cons_append, lookup_cons_self]
      exact h
    · rw [lookup_cons_ne hk] at h
      rw [List.cons_append, lookup_cons_ne hk]
      exact ih h

theorem lookup_append_of_none {β : Type} {l l' : List (String × β)} {k : String}
    (h : List.lookup k l = none) : List.lookup k (l ++ l') = List.lookup k l' := by
  induction l with
  | nil => rfl
  | cons q rest ih =>
    obtain ⟨qk, qv⟩ := q
    by_cases hk : k = qk
    · subst hk
      rw [lookup_cons_self] at h
      exact Option.noConfusion h
    · rw [lookup_cons_ne hk] at h
      rw [List.cons_append, lookup_cons_ne hk]
      exact ih h

theorem contains_iff_mem {l : List String} {a : String} :
    l.contains a = true ↔ a ∈ l := by
  simp [List.contains]

theorem any_beq_iff_mem_keys {β : Type} {m : List (String × β)} {k : String} :
    (m.any (fun p => p.1 == k)) = true ↔ k ∈ m.map Prod.fst := by
  simp only [List.any_eq_true, List.mem_map, beq_iff_eq]

theorem setIndeg_cons (q : String × Int) (rest : List (String × Int)) (k : String) (v : Int) :
    setIndeg (q :: rest) k v =
      (if q.1 == k then (q.1, v) else q) :: setIndeg rest k v := rfl

theorem setIndeg_keys (m : List (String × Int)) (k : String) (v : Int) :
    (setIndeg m k v).map Prod.fst = m.map Prod.fst := by
  induction m with
  | nil => rfl
  | cons q rest ih =>
    rw [setIndeg_cons]
    simp only [List.map_cons]
    rw [ih]
    by_cases h : q.1 == k
    · simp [h]
    · simp [h]

theorem setIndeg_id {m : List (String × Int)} {k : String} (v : Int)
    (h : k ∉ m.map Prod.fst) : setIndeg m k v = m := by
  induction m with
  | nil => rfl
  | cons q rest ih =>
    simp only [List.map_cons, List.mem_cons, not_or] at h
    rw [setIndeg_cons]
    rw [if_neg (by simpa using fun hh : q.1 = k => h.1 hh.symm)]
    rw [ih h.2]

theorem lookup_setIndeg_ne {m : List (String × Int)} {k x : String} (v : Int) (h : x ≠ k) :
    List.lookup x (setIndeg m k v) = List.lookup x m := by
  induction m with
  | nil => rfl
  | cons q rest ih =>
    obtain ⟨qk, qv⟩ := q
    rw [setIndeg_cons]
    by_cases hq : qk = k
    · subst hq
      simp only [beq_self_eq_true, if_true]
      rw [lookup_cons_ne h, lookup_cons_ne h]
      exact ih
    · rw [if_neg (by simpa using hq)]
      by_cases hx : x = qk
      · subst hx
        rw [lookup_cons_self, lookup_cons_self]
      · rw [lookup_cons_ne hx, lookup_cons_ne hx]
        exact ih

theorem lookup_setIndeg_self {m : List (String × Int)} {k : String} {w : Int} (v : Int)
    (h : List.lookup k m = some w) :
    List.lookup k (setIndeg m k v) = some v := by
  induction m with
  | nil => exact Option.noConfusion h
  | cons q rest ih =>
    obtain ⟨qk, qv⟩ := q
    rw [setIndeg_cons]
    by_cases hk : k = qk
    · subst hk
      simp only [beq_self_eq_true, if_true]
      rw [lookup_cons_self]
    · rw [if_neg (by simpa using fun hh : qk = k => hk hh.symm)]
      rw [lookup_cons_ne hk]
      rw [lookup_cons_ne hk] at h
      exact ih h

theorem processDsts_cons_none {dst : String} {rest : List String}
    {i : List (String × Int)} {r : List String} (hl : List.lookup dst i = none) :
    processDsts (dst :: rest) i r = processDsts rest i r := by
  simp only [processDsts, hl]

theorem processDsts_cons_some {dst : String} {rest : List String}
    {i : List (String × Int)} {r : List String} {v : Int}
    (hl : List.lookup dst i = some v) :
    processDsts (dst :: rest) i r =
      processDsts rest (setIndeg i dst (v - 1)) (if v - 1 = 0 then r ++ [dst] else r) := by
  simp only [processDsts, hl]

theorem processDsts_keys (d : List String) (i : List (String × Int)) (r : List String) :
    (processDsts d i r).1.map Prod.fst = i.map Prod.fst := by
  induction d generalizing i r with
  | nil => rfl
  | cons dst rest ih =>
    cases hl : List.lookup dst i with
    | none =>
      rw [processDsts_cons_none hl]
      exact ih i r
    | some v =>
      rw [processDsts_cons_some hl]
      rw [ih (setIndeg i dst (v - 1)) _]
      exact setIndeg_keys i dst (v - 1)

theorem processDsts_lookup (d : List String) (i : List (String × Int)) (r : List String)
    (x : String) :
    List.lookup x (processDsts d i r).1 =
      (List.lookup x i).map (fun v => v - (d.count x : Int)) := by
  induction d generalizing i r with
  | nil =>
    simp only [processDsts, List.count_nil]
    cases List.lookup x i <;> simp
  | cons dst rest ih =>
    cases hl : List.lookup dst i with
    | none =>
      rw [processDsts_cons_none hl, ih i r]
      by_cases hx : x = dst
      · subst hx
        rw [hl]
        simp
      · have hx' : ¬ dst = x := fun h => hx h.symm
        cases h2 : List.lookup x i <;>
          simp [h2, List.count_cons, hx, hx']
    | some v =>
      rw [processDsts_cons_some hl, ih _ _]
      by_cases hx : x = dst
      · subst hx
        rw [lookup_setIndeg_self (v - 1) hl, hl]
        simp only [Option.map_some', Option.some.injEq, List.count_cons, beq_self_eq_true,
          if_true]
        push_cast
        ring
      · have hx' : ¬ dst = x := fun h => hx h.symm
        rw [lookup_setIndeg_ne (v - 1) hx]
        cases h2 : List.lookup x i <;>
          simp [h2, List.count_cons, hx, hx']

theorem processDsts_ready_prefix (d : List String) (i : List (String × Int)) (r : List String) :
    ∃ n, (processDsts d i r).2 = r ++ n := by
  induction d generalizing i r with
  | nil => exact ⟨[], (List.append_nil r).symm⟩
  | cons dst rest ih =>
    cases hl : List.lookup dst i with
    | none =>
      rw [processDsts_cons_none hl]
      exact ih i r
    | some v =>
      rw [processDsts_cons_some hl]
      by_cases hv : v - 1 = 0
      · rw [if_pos hv]
        obtain ⟨n, hn⟩ := ih (setIndeg i dst (v - 1)) (r ++ [dst])
        refine ⟨dst :: n, ?_⟩
        rw [hn, List.append_assoc]
        rfl
      · rw [if_neg hv]
        exact ih _ r

theorem sum_toNat_setIndeg {m : List (String × Int)} {k : String} {w : Int} (v : Int)
    (hnd : (m.map Prod.fst).Nodup) (h : List.lookup k m = some w) :
    ((setIndeg m k v).map (fun p => p.2.toNat)).sum + w.toNat =
      (m.map (fun p => p.2.toNat)).sum + v.toNat := by
  induction m with
  | nil => exact Option.noConfusion h
  | cons q rest ih =>
    obtain ⟨qk, qv⟩ := q
    simp only [List.map_cons, List.nodup_cons] at hnd
    rw [setIndeg_cons]
    by_cases hk : k = qk
    · subst hk
      rw [lookup_cons_self] at h
      obtain rfl : qv = w := Option.some.inj h
      simp only [beq_self_eq_true, if_true]
      rw [setIndeg_id v hnd.1]
      simp only [List.map_cons, List.sum_cons]
      omega
    · rw [if_neg (by simpa using fun hh : qk = k => hk hh.symm)]
      rw [lookup_cons_ne hk] at h
      have := ih hnd.2 h
      simp only [List.map_cons, List.sum_cons]
      omega

theorem processDsts_measure (d : List String) (i : List (String × Int)) (r : List String)
    (hnd : (i.map Prod.fst).Nodup) :
    ((processDsts d i r).1.map (fun p => p.2.toNat)).sum + (processDsts d i r).2.length ≤
      (i.map (fun p => p.2.toNat)).sum + r.length := by
  induction d generalizing i r with
  | nil => exact le_refl _
  | cons dst rest ih =>
    cases hl : List.lookup dst i with
    | none =>
      rw [processDsts_cons_none hl]
      exact ih i r hnd
    | some v =>
      rw [processDsts_cons_some hl]
      have hnd' : ((setIndeg i dst (v - 1)).map Prod.fst).Nodup := by
        rw [setIndeg_keys]
        exact hnd
      have hsum := sum_toNat_setIndeg (v - 1) hnd hl
      by_cases hv : v - 1 = 0
      · rw [if_pos hv]
        have hrec := ih (setIndeg i dst (v - 1)) (r ++ [dst]) hnd'
        have hlen : (r ++ [dst]).length = r.length + 1 := by simp
        omega
      · rw [if_neg hv]
        have hrec := ih (setIndeg i dst (v - 1)) r hnd'
        omega

theorem processDsts_main (d : List String) (i : List (String × Int)) (r D : List String)
    (hnd : (D ++ r).Nodup)
    (hval : ∀ x ∈ D ++ r, ∃ v, List.lookup x i = some v ∧ v ≤ 0) :
    (D ++ (processDsts d i r).2).Nodup ∧
    (∀ x ∈ D ++ (processDsts d i r).2,
      ∃ v, List.lookup x (processDsts d i r).1 = some v ∧ v ≤ 0) ∧
    (∀ x v, List.lookup x (processDsts d i r).1 = some v → v ≤ 0 →
      (∃ w, List.lookup x i = some w ∧ w ≤ 0) ∨ x ∈ (processDsts d i r).2) := by
  induction d generalizing i r with
  | nil => exact ⟨hnd, hval, fun x v h1 h2 => Or.inl ⟨v, h1, h2⟩⟩
  | cons dst rest ih =>
    cases hl : List.lookup dst i with
    | none =>
      rw [processDsts_cons_none hl]
      exact ih i r hnd hval
    | some v =>
      rw [processDsts_cons_some hl]
      by_cases hv : v - 1 = 0
      · rw [if_pos hv]
        have hdst : dst ∉ D ++ r := by
          intro hmem
          obtain ⟨w, hw, hw0⟩ := hval dst hmem
          rw [hl] at hw
          obtain rfl : v = w := Option.some.inj hw
          omega
        have hperm : (D ++ (r ++ [dst])).Perm (dst :: (D ++ r)) := by
          have h1 : D ++ (r ++ [dst]) = (D ++ r) ++ [dst] := by
            rw [List.append_assoc]
          rw [h1]
          have h2 : ((D ++ r) ++ [dst]).Perm ([dst] ++ (D ++ r)) := List.perm_append_comm
          exact h2
        have hnd' : (D ++ (r ++ [dst])).Nodup :=
          (hperm.symm).nodup (List.nodup_cons.mpr ⟨hdst, hnd⟩)
        have hval' : ∀ x ∈ D ++ (r ++ [dst]),
            ∃ w, List.lookup x (setIndeg i dst (v - 1)) = some w ∧ w ≤ 0 := by
          intro x hx
          by_cases hxd : x = dst
          · subst hxd
            exact ⟨v - 1, lookup_setIndeg_self (v - 1) hl, by omega⟩
          · have hx2 : x ∈ D ++ r := by
              have := hperm.mem_iff.mp hx
              rcases List.mem_cons.mp this with h | h
              · exact absurd h hxd
              · exact h
            obtain ⟨w, hw, hw0⟩ := hval x hx2
            exact ⟨w, by rw [lookup_setIndeg_ne (v - 1) hxd]; exact hw, hw0⟩
        obtain ⟨c1, c2, c3⟩ := ih (setIndeg i dst (v - 1)) (r ++ [dst]) hnd' hval'
        refine ⟨c1, c2, ?_⟩
        intro x w h1 h2
        rcases c3 x w h1 h2 with ⟨u, hu, hu0⟩ | hmem
        · by_cases hx : x = dst
          · right
            obtain ⟨n, hn⟩ :=
              processDsts_ready_prefix rest (setIndeg i dst (v - 1)) (r ++ [dst])
            rw [hn, hx]
            simp
          · left
            rw [lookup_setIndeg_ne (v - 1) hx] at hu
            exact ⟨u, hu, hu0⟩
        · right
          exact hmem
      · rw [if_neg hv]
        have hval' : ∀ x ∈ D ++ r,
            ∃ w, List.lookup x (setIndeg i dst (v - 1)) = some w ∧ w ≤ 0 := by
          intro x hx
          obtain ⟨w, hw, hw0⟩ := hval x hx
          by_cases hxd : x = dst
          · subst hxd
            rw [hl] at hw
            obtain rfl : v = w := Option.some.inj hw
            exact ⟨v - 1, lookup_setIndeg_self (v - 1) hl, by omega⟩
          · exact ⟨w, by rw [lookup_setIndeg_ne (v - 1) hxd]; exact hw, hw0⟩
        obtain ⟨c1, c2, c3⟩ := ih (setIndeg i dst (v - 1)) r hnd hval'
        refine ⟨c1, c2, ?_⟩
        intro x w h1 h2
        rcases c3 x w h1 h2 with ⟨u, hu, hu0⟩ | hmem
        · by_cases hx : x = dst
          · subst hx
            rw [lookup_setIndeg_self (v - 1) hl] at hu
            obtain rfl : v - 1 = u := Option.some.inj hu
            left
            exact ⟨v, hl, by omega⟩
          · left
            rw [lookup_setIndeg_ne (v - 1) hx] at hu
            exact ⟨u, hu, hu0⟩
        · right
          exact hmem


/-- Total number of decrements destination `x` has received once the ids in
`done` have been popped and their (first-entry) edge lists processed. -/
def decs (edges : List (String × List String)) (done : List String) (x : String) : Nat :=
  (done.map (fun nid => (edgesOf edges nid).count x)).sum

/-- The in-degree of `x` as counted by `_topological_sort`'s initialisation:
one unit per occurrence of `x` in the edge list of a source that is a key. -/
def cntInE (keys : List String) (edges : List (String × List String)) (x : String) : Nat :=
  ((edges.filter (fun p => keys.contains p.1)).map (fun p => p.2.count x)).sum

theorem decs_cons {E : List (String × List String)} {n : String} {done : List String}
    {x : String} :
    decs E (n :: done) x = (edgesOf E n).count x + decs E done x := by
  simp [decs]

theorem decs_append_one {E : List (String × List String)} {done : List String}
    {n x : String} :
    decs E (done ++ [n]) x = decs E done x + (edgesOf E n).count x := by
  simp [decs]

theorem decs_perm {E : List (String × List String)} {done done' : List String} {x : String}
    (p : done.Perm done') : decs E done x = decs E done' x :=
  (p.map (fun nid => (edgesOf E nid).count x)).sum_eq

theorem decs_congr {E E' : List (String × List String)} {done : List String} {x : String}
    (h : ∀ n ∈ done, edgesOf E n = edgesOf E' n) : decs E done x = decs E' done x := by
  unfold decs
  congr 1
  exact List.map_congr_left (fun n hn => by rw [h n hn])

theorem edgesOf_cons_self {a : String} {b : List String} {rest : List (String × List String)} :
    edgesOf ((a, b) :: rest) a = b := by
  unfold edgesOf
  rw [lookup_cons_self]
  rfl

theorem edgesOf_cons_ne {k a : String} {b : List String} {rest : List (String × List String)}
    (h : k ≠ a) : edgesOf ((a, b) :: rest) k = edgesOf rest k := by
  unfold edgesOf
  rw [lookup_cons_ne h]

theorem edgesOf_nil (k : String) : edgesOf [] k = [] := rfl

theorem decs_of_nil_edges (done : List String) (x : String) : decs [] done x = 0 := by
  unfold decs
  induction done with
  | nil => rfl
  | cons n rest ih =>
    simp only [List.map_cons, List.sum_cons, edgesOf_nil, List.count_nil, Nat.zero_add]
    exact ih

theorem cntInE_nil (keys : List String) (x : String) : cntInE keys [] x = 0 := rfl

theorem cntInE_cons {keys : List String} {pk : String} {pl : List String}
    {rest : List (String × List String)} {x : String} :
    cntInE keys ((pk, pl) :: rest) x =
      (if keys.contains pk = true then pl.count x else 0) + cntInE keys rest x := by
  unfold cntInE
  by_cases h : keys.contains pk = true
  · rw [List.filter_cons, if_pos (by simpa using h), if_pos h]
    simp
  · rw [List.filter_cons, if_neg (by simpa using h), if_neg h]
    simp

theorem decs_le_cntInE (E : List (String × List String)) (keys : List String) :
    ∀ (done : List String) (x : String), done.Nodup →
      (∀ n ∈ done, keys.contains n = true) →
      decs E done x ≤ cntInE keys E x := by
  induction E with
  | nil =>
    intro done x _ _
    rw [decs_of_nil_edges, cntInE_nil]
  | cons p rest ih =>
    intro done x hnd hsub
    obtain ⟨pk, pl⟩ := p
    by_cases hp : pk ∈ done
    · have hperm := List.perm_cons_erase hp
      have hnd' : (done.erase pk).Nodup := hnd.erase _
      have hpk_not : pk ∉ done.erase pk := fun hmem =>
        ((List.Nodup.mem_erase_iff hnd).mp hmem).1 rfl
      rw [decs_perm hperm, decs_cons, edgesOf_cons_self]
      have hcongr : decs ((pk, pl) :: rest) (done.erase pk) x =
          decs rest (done.erase pk) x :=
        decs_congr (fun n hn => edgesOf_cons_ne (fun he => hpk_not (he ▸ hn)))
      rw [hcongr]
      have hrec := ih (done.erase pk) x hnd'
        (fun n hn => hsub n (List.mem_of_mem_erase hn))
      rw [cntInE_cons, if_pos (hsub pk hp)]
      omega
    · have hcongr : decs ((pk, pl) :: rest) done x = decs rest done x :=
        decs_congr (fun n hn => edgesOf_cons_ne (fun he => hp (he ▸ hn)))
      rw [hcongr, cntInE_cons]
      have hrec := ih done x hnd hsub
      by_cases h : keys.contains pk = true
      · rw [if_pos h]
        omega
      · rw [if_neg h]
        omega

theorem decs_lt_cntInE (E : List (String × List String)) (keys : List String) :
    ∀ (done : List String) (x c' : String), done.Nodup →
      (∀ n ∈ done, keys.contains n = true) →
      keys.contains c' = true → c' ∉ done → x ∈ edgesOf E c' →
      decs E done x < cntInE keys E x := by
  induction E with
  | nil =>
    intro done x c' _ _ _ _ hx
    rw [edgesOf_nil] at hx
    exact absurd hx (List.not_mem_nil x)
  | cons p rest ih =>
    intro done x c' hnd hsub hck hcnd hx
    obtain ⟨pk, pl⟩ := p
    by_cases hpc : pk = c'
    · subst hpc
      rw [edgesOf_cons_self] at hx
      have hcnt : 1 ≤ pl.count x := List.one_le_count_iff.mpr hx
      have hdone : decs ((pk, pl) :: rest) done x = decs rest done x :=
        decs_congr (fun n hn => edgesOf_cons_ne (fun he => hcnd (he ▸ hn)))
      rw [hdone, cntInE_cons, if_pos hck]
      have := decs_le_cntInE rest keys done x hnd hsub
      omega
    · rw [edgesOf_cons_ne (fun h => hpc h.symm)] at hx
      by_cases hp : pk ∈ done
      · have hperm := List.perm_cons_erase hp
        have hnd' : (done.erase pk).Nodup := hnd.erase _
        have hpk_not : pk ∉ done.erase pk := fun hmem =>
          ((List.Nodup.mem_erase_iff hnd).mp hmem).1 rfl
        rw [decs_perm hperm, decs_cons, edgesOf_cons_self]
        have hcongr : decs ((pk, pl) :: rest) (done.erase pk) x =
            decs rest (done.erase pk) x :=
          decs_congr (fun n hn => edgesOf_cons_ne (fun he => hpk_not (he ▸ hn)))
        rw [hcongr]
        have hcnd' : c' ∉ done.erase pk := fun hmem => hcnd (List.mem_of_mem_erase hmem)
        have hrec := ih (done.erase pk) x c' hnd'
          (fun n hn => hsub n (List.mem_of_mem_erase hn)) hck hcnd' hx
        rw [cntInE_cons, if_pos (hsub pk hp)]
        omega
      · have hcongr : decs ((pk, pl) :: rest) done x = decs rest done x :=
          decs_congr (fun n hn => edgesOf_cons_ne (fun he => hp (he ▸ hn)))
        rw [hcongr, cntInE_cons]
        have hrec := ih done x c' hnd hsub hck hcnd hx
        by_cases h : keys.contains pk = true
        · rw [if_pos h]
          omega
        · rw [if_neg h]
          omega

theorem decs_complete_cntInE (E : List (String × List String)) (keys : List String) :
    ∀ (done : List String) (x : String), (E.map Prod.fst).Nodup → done.Nodup →
      (∀ n ∈ done, keys.contains n = true) →
      (∀ s, keys.contains s = true → s ∉ done → (edgesOf E s).count x = 0) →
      decs E done x = cntInE keys E x := by
  induction E with
  | nil =>
    intro done x _ _ _ _
    rw [decs_of_nil_edges, cntInE_nil]
  | cons p rest ih =>
    intro done x hKE hnd hsub hall
    obtain ⟨pk, pl⟩ := p
    simp only [List.map_cons, List.nodup_cons] at hKE
    have hpk_rest : List.lookup pk rest = none := lookup_eq_none_of_not_mem_keys hKE.1
    have hpk_rest_edges : edgesOf rest pk = [] := by
      unfold edgesOf
      rw [hpk_rest]
      rfl
    by_cases hp : pk ∈ done
    · have hperm := List.perm_cons_erase hp
      have hnd' : (done.erase pk).Nodup := hnd.erase _
      have hpk_not : pk ∉ done.erase pk := fun hmem =>
        ((List.Nodup.mem_erase_iff hnd).mp hmem).1 rfl
      rw [decs_perm hperm, decs_cons, edgesOf_cons_self]
      have hcongr : decs ((pk, pl) :: rest) (done.erase pk) x =
          decs rest (done.erase pk) x :=
        decs_congr (fun n hn => edgesOf_cons_ne (fun he => hpk_not (he ▸ hn)))
      rw [hcongr]
      have hall' : ∀ s, keys.contains s = true → s ∉ done.erase pk →
          (edgesOf rest s).count x = 0 := by
        intro s hsk hse
        by_cases hs : s = pk
        · rw [hs, hpk_rest_edges]
          exact List.count_nil x
        · have hsd : s ∉ done := by
            intro hsdone
            exact hse ((List.Nodup.mem_erase_iff hnd).mpr ⟨hs, hsdone⟩)
          have := hall s hsk hsd
          rwa [edgesOf_cons_ne hs] at this
      have hrec := ih (done.erase pk) x hKE.2 hnd'
        (fun n hn => hsub n (List.mem_of_mem_erase hn)) hall'
      rw [hrec, cntInE_cons, if_pos (hsub pk hp)]
    · have hcongr : decs ((pk, pl) :: rest) done x = decs rest done x :=
        decs_congr (fun n hn => edgesOf_cons_ne (fun he => hp (he ▸ hn)))
      rw [hcongr]
      have hall' : ∀ s, keys.contains s = true → s ∉ done →
          (edgesOf rest s).count x = 0 := by
        intro s hsk hsd
        by_cases hs : s = pk
        · rw [hs, hpk_rest_edges]
          exact List.count_nil x
        · have := hall s hsk hsd
          rwa [edgesOf_cons_ne hs] at this
      have hrec := ih done x hKE.2 hnd hsub hall'
      rw [hrec, cntInE_cons]
      by_cases hk : keys.contains pk = true
      · have h0 : pl.count x = 0 := by
          have := hall pk hk hp
          rwa [edgesOf_cons_self] at this
        rw [if_pos hk, h0]
        omega
      · rw [if_neg hk]
        omega

theorem keyFold_keys {β : Type} (ids : List String) (v0 : β) :
    (keyFold ids v0).map Prod.fst = firstOccur ids := by
  suffices h : ∀ start : List (String × β),
      ((ids.foldl (fun m s => if m.any (fun p => p.1 == s) then m else m ++ [(s, v0)])
          start).map Prod.fst)
        = ids.foldl (fun acc k => if k ∈ acc then acc else acc ++ [k])
            (start.map Prod.fst) by
    exact h []
  induction ids with
  | nil =>
    intro start
    rfl
  | cons s rest ih =>
    intro start
    simp only [List.foldl_cons]
    by_cases hs : s ∈ start.map Prod.fst
    · rw [if_pos (any_beq_iff_mem_keys.mpr hs), if_pos hs]
      exact ih start
    · rw [if_neg (fun hc => hs (any_beq_iff_mem_keys.mp hc)), if_neg hs]
      have := ih (start ++ [(s, v0)])
      rw [List.map_append] at this
      exact this

theorem keyFold_lookup {β : Type} (ids : List String) (v0 : β) (x : String) :
    List.lookup x (keyFold ids v0) = if x ∈ ids then some v0 else none := by
  suffices h : ∀ start : List (String × β),
      List.lookup x
          (ids.foldl (fun m s => if m.any (fun p => p.1 == s) then m else m ++ [(s, v0)])
            start) =
        (match List.lookup x start with
         | some v => some v
         | none => if x ∈ ids then some v0 else none) by
    have h0 := h []
    simpa using h0
  induction ids with
  | nil =>
    intro start
    cases h : List.lookup x start <;> simp [h]
  | cons s rest ih =>
    intro start
    simp only [List.foldl_cons]
    by_cases hs : (start.any (fun p => p.1 == s)) = true
    · rw [if_pos hs]
      rw [ih start]
      cases h : List.lookup x start with
      | some v => rfl
      | none =>
        have hxs : x ≠ s := by
          intro he
          have hmem : x ∈ start.map Prod.fst := he ▸ any_beq_iff_mem_keys.mp hs
          have := lookup_isSome_iff_mem_keys.mpr hmem
          rw [h] at this
          exact Bool.noConfusion this
        simp [List.mem_cons, hxs]
    · rw [if_neg hs]
      rw [ih (start ++ [(s, v0)])]
      cases h : List.lookup x start with
      | some v =>
        rw [lookup_append_of_some h]
      | none =>
        rw [lookup_append_of_none h]
        by_cases hx : x = s
        · subst hx
          rw [lookup_cons_self]
          simp
        · rw [lookup_cons_ne hx]
          simp only [List.lookup_nil]
          simp [List.mem_cons, hx]

theorem incrIndeg_keys (m : List (String × Int)) (dst : String) :
    (incrIndeg m dst).map Prod.fst = m.map Prod.fst := by
  unfold incrIndeg
  cases h : List.lookup dst m with
  | none => rfl
  | some v => exact setIndeg_keys m dst (v + 1)

theorem incrFold_keys (l : List String) (m : List (String × Int)) :
    ((l.foldl incrIndeg m).map Prod.fst) = m.map Prod.fst := by
  induction l generalizing m with
  | nil => rfl
  | cons dst rest ih =>
    rw [List.foldl_cons, ih, incrIndeg_keys]

theorem incrFold_lookup (l : List String) (m : List (String × Int)) (x : String) :
    List.lookup x (l.foldl incrIndeg m) =
      (List.lookup x m).map (fun v => v + (l.count x : Int)) := by
  induction l generalizing m with
  | nil =>
    cases h : List.lookup x m <;> simp [h]
  | cons dst rest ih =>
    rw [List.foldl_cons, ih]
    unfold incrIndeg
    cases hl : List.lookup dst m with
    | none =>
      by_cases hx : x = dst
      · subst hx
        rw [hl]
        simp
      · have hx' : ¬ dst = x := fun h => hx h.symm
        cases h2 : List.lookup x m <;> simp [h2, List.count_cons, hx, hx']
    | some v =>
      by_cases hx : x = dst
      · subst hx
        rw [lookup_setIndeg_self (v + 1) hl, hl]
        simp only [Option.map_some', Option.some.injEq, List.count_cons, beq_self_eq_true,
          if_true]
        push_cast
        ring
      · have hx' : ¬ dst = x := fun h => hx h.symm
        rw [lookup_setIndeg_ne (v + 1) hx]
        cases h2 : List.lookup x m <;> simp [h2, List.count_cons, hx, hx']

theorem initFold_keys (E : List (String × List String)) (m : List (String × Int)) :
    ((E.foldl
        (fun m p => if m.any (fun q => q.1 == p.1) then p.2.foldl incrIndeg m else m)
        m).map Prod.fst) = m.map Prod.fst := by
  induction E generalizing m with
  | nil => rfl
  | cons p rest ih =>
    rw [List.foldl_cons]
    by_cases hp : (m.any (fun q => q.1 == p.1)) = true
    · rw [if_pos hp, ih, incrFold_keys]
    · rw [if_neg hp, ih]

theorem initFold_lookup (E : List (String × List String)) (keys : List String) :
    ∀ (m : List (String × Int)), m.map Prod.fst = keys → ∀ x,
      List.lookup x
          (E.foldl
            (fun m p => if m.any (fun q => q.1 == p.1) then p.2.foldl incrIndeg m else m)
            m) =
        (List.lookup x m).map (fun v => v + (cntInE keys E x : Int)) := by
  induction E with
  | nil =>
    intro m _ x
    rw [cntInE_nil]
    cases h : List.lookup x m <;> simp [h]
  | cons p rest ih =>
    intro m hkeys x
    obtain ⟨pk, pl⟩ := p
    rw [List.foldl_cons]
    by_cases hp : (m.any (fun q => q.1 == pk)) = true
    · rw [if_pos hp]
      have hkeys' : (pl.foldl incrIndeg m).map Prod.fst = keys := by
        rw [incrFold_keys]
        exact hkeys
      rw [ih (pl.foldl incrIndeg m) hkeys' x, incrFold_lookup]
      rw [cntInE_cons, if_pos (contains_iff_mem.mpr (hkeys ▸ any_beq_iff_mem_keys.mp hp))]
      cases h2 : List.lookup x m <;> simp [h2]
      ring
    · rw [if_neg hp]
      rw [ih m hkeys x]
      rw [cntInE_cons,
        if_neg (fun hc => hp (any_beq_iff_mem_keys.mpr (hkeys ▸ contains_iff_mem.mp hc)))]
      cases h2 : List.lookup x m <;> simp [h2]

theorem initIndeg_keys (nodes : List SemanticNode) (edges : List (String × List String)) :
    (initIndeg nodes edges).map Prod.fst = firstOccur (nodes.map (fun n => n.id)) := by
  unfold initIndeg
  rw [initFold_keys, keyFold_keys]

theorem initIndeg_lookup (nodes : List SemanticNode) (edges : List (String × List String))
    (x : String) :
    List.lookup x (initIndeg nodes edges) =
      if x ∈ nodes.map (fun n => n.id)
      then some ((cntInE (firstOccur (nodes.map (fun n => n.id))) edges x : Nat) : Int)
      else none := by
  unfold initIndeg
  rw [initFold_lookup edges (firstOccur (nodes.map (fun n => n.id)))
    (keyFold (nodes.map (fun n => n.id)) 0) (keyFold_keys _ _) x]
  rw [keyFold_lookup]
  by_cases hx : x ∈ nodes.map (fun n => n.id)
  · rw [if_pos hx, if_pos hx]
    simp
  · rw [if_neg hx, if_neg hx]
    rfl

/-- One iteration of the `while ready:` loop of `_topological_sort`. -/
def topoStep (nodes : List SemanticNode) (edges : List (String × List String))
    (st : TopoState) (nid : String) (rest : List String) : TopoState :=
  let dsts := pySorted (fun a b => foKey nodes a ≤ foKey nodes b) (edgesOf edges nid)
  let pr := processDsts dsts st.indeg rest
  ⟨pr.1, pySorted (fun a b => foKey nodes a ≤ foKey nodes b) pr.2, st.ordered ++ [nid]⟩

theorem topoLoop_cons (nodes : List SemanticNode) (edges : List (String × List String))
    (fuel : Nat) (st : TopoState) (nid : String) (rest : List String)
    (hready : st.ready = nid :: rest) :
    topoLoop nodes edges (fuel + 1) st =
      topoLoop nodes edges fuel (topoStep nodes edges st nid rest) := by
  obtain ⟨ig, rd, od⟩ := st
  simp only at hready
  subst hready
  rfl

theorem topoLoop_nil (nodes : List SemanticNode) (edges : List (String × List String))
    (fuel : Nat) (st : TopoState) (hready : st.ready = []) :
    topoLoop nodes edges (fuel + 1) st = st.ordered := by
  obtain ⟨ig, rd, od⟩ := st
  simp only at hready
  subst hready
  rfl

/-- The loop invariant of `_topological_sort`'s Kahn phase: the indegree keys
never change; processed and pending ids are distinct keys; the indegree of
every id equals its initial count minus one per processed in-edge; processed
and pending ids have non-positive indegree and ids with non-positive indegree
are processed or pending; no later-processed id has an edge to an
earlier-processed one; and the processed list is closed under in-edge
sources. -/
structure KahnInv (edges : List (String × List String)) (keys : List String)
    (indeg0 : List (String × Int)) (st : TopoState) : Prop where
  keysEq : st.indeg.map Prod.fst = keys
  nodupOR : (st.ordered ++ st.ready).Nodup
  subKeys : ∀ x ∈ st.ordered ++ st.ready, x ∈ keys
  ledger : ∀ x, List.lookup x st.indeg =
    (List.lookup x indeg0).map (fun v => v - (decs edges st.ordered x : Int))
  nonpos : ∀ x ∈ st.ordered ++ st.ready, ∃ v, List.lookup x st.indeg = some v ∧ v ≤ 0
  seen : ∀ x ∈ keys, ∀ v, List.lookup x st.indeg = some v → v ≤ 0 →
    x ∈ st.ordered ++ st.ready
  noBack : st.ordered.Pairwise (fun a b => b ∈ keys → a ∉ edgesOf edges b)
  noSelf : ∀ a ∈ st.ordered, a ∉ edgesOf edges a
  closedIn : ∀ a ∈ st.ordered, ∀ s, s ∈ keys → a ∈ edgesOf edges s → s ∈ st.ordered

theorem kahn_step (nodes : List SemanticNode) (edges : List (String × List String))
    (keys : List String) (indeg0 : List (String × Int))
    (hk0 : keys.Nodup)
    (h0 : ∀ x ∈ keys, List.lookup x indeg0 = some ((cntInE keys edges x : Nat) : Int))
    (st : TopoState) (nid : String) (rest : List String)
    (hready : st.ready = nid :: rest)
    (hInv : KahnInv edges keys indeg0 st) :
    KahnInv edges keys indeg0 (topoStep nodes edges st nid rest) ∧
      topoMeasure (topoStep nodes edges st nid rest) < topoMeasure st := by
  obtain ⟨hkeysEq, hnodup, hsub, hledger, hnonpos, hseen, hnoBack, hnoSelf, hclosed⟩ := hInv
  have hshape : st.ordered ++ st.ready = (st.ordered ++ [nid]) ++ rest := by
    rw [hready, List.append_assoc]
    rfl
  have hmemOR : nid ∈ st.ordered ++ st.ready := by
    rw [hready]
    simp
  have hnidK : nid ∈ keys := hsub nid hmemOR
  have hnd2 : ((st.ordered ++ [nid]) ++ rest).Nodup := by
    rw [← hshape]
    exact hnodup
  have hnid_not_ord : nid ∉ st.ordered := by
    intro hmem
    have hleft : (st.ordered ++ [nid]).Nodup := (List.nodup_append.mp hnd2).1
    have hdisj := (List.nodup_append.mp hleft).2.2
    exact hdisj hmem (List.mem_singleton.mpr rfl)
  have hordNodup : st.ordered.Nodup := (List.nodup_append.mp hnodup).1
  have hordSub : ∀ n ∈ st.ordered, keys.contains n = true :=
    fun n hn => contains_iff_mem.mpr (hsub n (List.mem_append_left _ hn))
  obtain ⟨v, hv, hv0⟩ := hnonpos nid hmemOR
  have hvval : v = (cntInE keys edges nid : Int) - (decs edges st.ordered nid : Int) := by
    have hh := hledger nid
    rw [h0 nid hnidK, hv] at hh
    simpa using hh
  have hdecs_le := decs_le_cntInE edges keys st.ordered nid hordNodup hordSub
  have hdecs_eq : decs edges st.ordered nid = cntInE keys edges nid := by omega
  have hsrc : ∀ s, s ∈ keys → nid ∈ edgesOf edges s → s ∈ st.ordered := by
    intro s hsK hsE
    by_contra hns
    have := decs_lt_cntInE edges keys st.ordered nid s hordNodup hordSub
      (contains_iff_mem.mpr hsK) hns hsE
    omega
  have hnself : nid ∉ edgesOf edges nid := fun hself => hnid_not_ord (hsrc nid hnidK hself)
  have hval2 : ∀ x ∈ (st.ordered ++ [nid]) ++ rest,
      ∃ w, List.lookup x st.indeg = some w ∧ w ≤ 0 := by
    rw [← hshape]
    exact hnonpos
  obtain ⟨c1, c2, c3⟩ :=
    processDsts_main (pySorted (fun a b => foKey nodes a ≤ foKey nodes b) (edgesOf edges nid))
      st.indeg rest (st.ordered ++ [nid]) hnd2 hval2
  obtain ⟨newr, hnewr⟩ :=
    processDsts_ready_prefix
      (pySorted (fun a b => foKey nodes a ≤ foKey nodes b) (edgesOf edges nid)) st.indeg rest
  set dsts := pySorted (fun a b => foKey nodes a ≤ foKey nodes b) (edgesOf edges nid)
    with hdsts
  set pr := processDsts dsts st.indeg rest with hpr
  have hsortedPerm : (pySorted (fun a b => foKey nodes a ≤ foKey nodes b) pr.2).Perm pr.2 :=
    pySorted_perm _ _
  have hstep : topoStep nodes edges st nid rest =
      ⟨pr.1, pySorted (fun a b => foKey nodes a ≤ foKey nodes b) pr.2,
        st.ordered ++ [nid]⟩ := rfl
  rw [hstep]
  have hORperm : ((st.ordered ++ [nid]) ++
      pySorted (fun a b => foKey nodes a ≤ foKey nodes b) pr.2).Perm
      ((st.ordered ++ [nid]) ++ pr.2) :=
    hsortedPerm.append_left _
  constructor
  · refine ⟨?_, ?_, ?_, ?_, ?_, ?_, ?_, ?_, ?_⟩
    · rw [processDsts_keys]
      exact hkeysEq
    · exact hORperm.symm.nodup c1
    · intro x hx
      obtain ⟨w, hw, _⟩ := c2 x (hORperm.mem_iff.mp hx)
      have : x ∈ pr.1.map Prod.fst := lookup_isSome_iff_mem_keys.mp (by rw [hw]; rfl)
      rw [processDsts_keys, hkeysEq] at this
      exact this
    · intro x
      rw [processDsts_lookup, hledger x]
      have hcount : dsts.count x = (edgesOf edges nid).count x :=
        (pySorted_perm _ _).count_eq x
      cases h2 : List.lookup x indeg0 with
      | none => simp
      | some w =>
        simp only [Option.map_some', Option.some.injEq]
        rw [hcount, decs_append_one]
        push_cast
        ring
    · intro x hx
      exact c2 x (hORperm.mem_iff.mp hx)
    · intro x hxK w hw hw0
      rcases c3 x w hw hw0 with ⟨u, hu, hu0⟩ | hmem
      · have := hseen x hxK u hu hu0
        rw [hshape] at this
        rcases List.mem_append.mp this with h | h
        · exact List.mem_append_left _ h
        · refine List.mem_append_right _ ?_
          rw [mem_pySorted, hnewr]
          exact List.mem_append_left _ h
      · refine List.mem_append_right _ ?_
        rw [mem_pySorted]
        exact hmem
    · rw [List.pairwise_append]
      refine ⟨hnoBack, List.pairwise_singleton _ _, ?_⟩
      intro a ha b hb
      rw [List.mem_singleton] at hb
      subst hb
      intro _ hedge
      exact hnid_not_ord (hclosed a ha b hnidK hedge)
    · intro a ha
      rcases List.mem_append.mp ha with h | h
      · exact hnoSelf a h
      · rw [List.mem_singleton] at h
        subst h
        exact hnself
    · intro a ha s hsK hedge
      rcases List.mem_append.mp ha with h | h
      · exact List.mem_append_left _ (hclosed a h s hsK hedge)
      · rw [List.mem_singleton] at h
        subst h
        exact List.mem_append_left _ (hsrc s hsK hedge)
  · unfold topoMeasure
    simp only [length_pySorted]
    have hmeas := processDsts_measure dsts st.indeg rest (by rw [hkeysEq]; exact hk0)
    rw [← hpr] at hmeas
    have hlen : st.ready.length = rest.length + 1 := by
      rw [hready]
      rfl
    omega

theorem kahn_run (nodes : List SemanticNode) (edges : List (String × List String))
    (keys : List String) (indeg0 : List (String × Int))
    (hk0 : keys.Nodup)
    (h0 : ∀ x ∈ keys, List.lookup x indeg0 = some ((cntInE keys edges x : Nat) : Int)) :
    ∀ (fuel : Nat) (st : TopoState), KahnInv edges keys indeg0 st →
      topoMeasure st < fuel →
      ∃ stF, KahnInv edges keys indeg0 stF ∧ stF.ready = [] ∧
        topoLoop nodes edges fuel st = stF.ordered := by
  intro fuel
  induction fuel with
  | zero =>
    intro st _ h
    omega
  | succ n ih =>
    intro st hInv hm
    cases hready : st.ready with
    | nil =>
      exact ⟨st, hInv, hready, topoLoop_nil nodes edges n st hready⟩
    | cons nid rest =>
      obtain ⟨hInv', hlt⟩ := kahn_step nodes edges keys indeg0 hk0 h0 st nid rest hready hInv
      have hm' : topoMeasure (topoStep nodes edges st nid rest) < n := by omega
      obtain ⟨stF, h1, h2, h3⟩ := ih (topoStep nodes edges st nid rest) hInv' hm'
      refine ⟨stF, h1, h2, ?_⟩
      rw [topoLoop_cons nodes edges n st nid rest hready]
      exact h3

theorem kahn_init (nodes : List SemanticNode) (edges : List (String × List String)) :
    KahnInv edges (firstOccur (nodes.map (fun n => n.id))) (initIndeg nodes edges)
      ⟨initIndeg nodes edges,
       pySorted (fun a b => foKey nodes a ≤ foKey nodes b)
         (((initIndeg nodes edges).filter (fun p => p.2 = 0)).map (fun p => p.1)),
       []⟩ := by
  have hkeys := initIndeg_keys nodes edges
  have hkND : ((initIndeg nodes edges).map Prod.fst).Nodup := by
    rw [hkeys]
    exact nodup_firstOccur _
  have hsubl : (((initIndeg nodes edges).filter (fun p => p.2 = 0)).map (fun p => p.1)).Sublist
      ((initIndeg nodes edges).map Prod.fst) :=
    List.Sublist.map _ (List.filter_sublist _)
  refine ⟨hkeys, ?_, ?_, ?_, ?_, ?_, ?_, ?_, ?_⟩
  · simp only [List.nil_append]
    exact ((pySorted_perm _ _).nodup_iff).mpr (hsubl.nodup hkND)
  · intro x hx
    simp only [List.nil_append] at hx
    rw [mem_pySorted] at hx
    rw [← hkeys]
    exact hsubl.subset hx
  · intro x
    simp only
    have : decs edges [] x = 0 := rfl
    rw [this]
    cases h : List.lookup x (initIndeg nodes edges) <;> simp [h]
  · intro x hx
    simp only [List.nil_append] at hx
    rw [mem_pySorted] at hx
    obtain ⟨p, hpf, hpx⟩ := List.mem_map.mp hx
    have hpmem : p ∈ initIndeg nodes edges := (List.mem_filter.mp hpf).1
    have hp0 : p.2 = 0 := by
      have := (List.mem_filter.mp hpf).2
      simpa using this
    have hlk : List.lookup p.1 (initIndeg nodes edges) = some p.2 :=
      lookup_of_mem_nodup hkND hpmem
    exact ⟨0, by rw [← hpx, hlk, hp0], le_refl 0⟩
  · intro x hxK v hlk hv0
    simp only [List.nil_append]
    rw [mem_pySorted]
    rw [initIndeg_lookup] at hlk
    rw [if_pos (mem_firstOccur.mp hxK)] at hlk
    have heq : ((cntInE (firstOccur (nodes.map (fun n => n.id))) edges x : Nat) : Int) = v :=
      Option.some.inj hlk
    have hcnt0 : cntInE (firstOccur (nodes.map (fun n => n.id))) edges x = 0 := by omega
    have hlk2 : List.lookup x (initIndeg nodes edges) = some 0 := by
      rw [initIndeg_lookup, if_pos (mem_firstOccur.mp hxK), hcnt0]
      simp
    have hmem : (x, (0 : Int)) ∈ initIndeg nodes edges := lookup_some_mem hlk2
    refine List.mem_map.mpr ⟨(x, (0 : Int)), ?_, rfl⟩
    refine List.mem_filter.mpr ⟨hmem, ?_⟩
    simp
  · exact List.Pairwise.nil
  · intro a ha
    exact absurd ha (List.not_mem_nil a)
  · intro a ha
    exact absurd ha (List.not_mem_nil a)

theorem topo_final (nodes : List SemanticNode) (edges : List (String × List String)) :
    ∃ stF : TopoState,
      KahnInv edges (firstOccur (nodes.map (fun n => n.id))) (initIndeg nodes edges) stF ∧
      stF.ready = [] ∧
      topological_sort nodes edges =
        (if stF.ordered.length ≠ nodes.length
         then pySorted (fun a b => a.first_order ≤ b.first_order) nodes
         else stF.ordered.filterMap (nodeById nodes)) := by
  have h0 : ∀ x ∈ firstOccur (nodes.map (fun n => n.id)),
      List.lookup x (initIndeg nodes edges) =
        some ((cntInE (firstOccur (nodes.map (fun n => n.id))) edges x : Nat) : Int) := by
    intro x hx
    rw [initIndeg_lookup, if_pos (mem_firstOccur.mp hx)]
  obtain ⟨stF, hInv, hrdy, hloop⟩ :=
    kahn_run nodes edges (firstOccur (nodes.map (fun n => n.id))) (initIndeg nodes edges)
      (nodup_firstOccur _) h0
      (topoMeasure
        ⟨initIndeg nodes edges,
         pySorted (fun a b => foKey nodes a ≤ foKey nodes b)
           (((initIndeg nodes edges).filter (fun p => p.2 = 0)).map (fun p => p.1)),
         []⟩ + 1)
      ⟨initIndeg nodes edges,
       pySorted (fun a b => foKey nodes a ≤ foKey nodes b)
         (((initIndeg nodes edges).filter (fun p => p.2 = 0)).map (fun p => p.1)),
       []⟩
      (kahn_init nodes edges) (by omega)
  refine ⟨stF, hInv, hrdy, ?_⟩
  simp only [topological_sort]
  rw [hloop]

theorem find?_append_one (xs : List SemanticNode) (a : SemanticNode)
    (p : SemanticNode → Bool) :
    (xs ++ [a]).find? p =
      (match xs.find? p with
       | some b => some b
       | none => if p a then some a else none) := by
  induction xs with
  | nil =>
    simp only [List.nil_append, List.find?]
    cases h : p a <;> simp [h]
  | cons x rest ih =>
    cases h : p x with
    | true => simp [List.find?, h]
    | false => simp [List.find?, h, ih]

theorem find?_reverse_nodup :
    ∀ (l : List SemanticNode), (l.map (fun n => n.id)).Nodup →
      ∀ n ∈ l, l.reverse.find? (fun x => x.id == n.id) = some n := by
  intro l
  induction l with
  | nil =>
    intro _ n hn
    exact absurd hn (List.not_mem_nil n)
  | cons m rest ih =>
    intro hnd n hn
    simp only [List.map_cons, List.nodup_cons] at hnd
    rw [List.reverse_cons, find?_append_one]
    rcases List.mem_cons.mp hn with rfl | hn'
    · have hnone : rest.reverse.find? (fun x => x.id == n.id) = none := by
        rw [List.find?_eq_none]
        intro x hx hbeq
        have he : x.id = n.id := beq_iff_eq.mp hbeq
        exact hnd.1 (he ▸ List.mem_map_of_mem _ (List.mem_reverse.mp hx))
      rw [hnone]
      simp
    · rw [ih hnd.2 n hn']

theorem nodeById_of_nodup {nodes : List SemanticNode}
    (hnd : (nodes.map (fun n => n.id)).Nodup) {n : SemanticNode} (hn : n ∈ nodes) :
    nodeById nodes n.id = some n :=
  find?_reverse_nodup nodes hnd n hn

theorem list_filterMap_congr {α' β' : Type} {l : List α'} {f g : α' → Option β'}
    (h : ∀ a ∈ l, f a = g a) : l.filterMap f = l.filterMap g := by
  induction l with
  | nil => rfl
  | cons a rest ih =>
    rw [List.filterMap_cons, List.filterMap_cons, h a (List.mem_cons_self _ _),
      ih (fun b hb => h b (List.mem_cons_of_mem _ hb))]

theorem filterMap_nodeById_eq {nodes : List SemanticNode}
    (hnd : (nodes.map (fun n => n.id)).Nodup) :
    (nodes.map (fun n => n.id)).filterMap (nodeById nodes) = nodes := by
  have h1 : List.filterMap (nodeById nodes ∘ fun n => n.id) nodes
      = List.filterMap some nodes :=
    list_filterMap_congr (fun n hn => nodeById_of_nodup hnd hn)
  rw [List.filterMap_map, h1, List.filterMap_some]

/-- `_topological_sort` returns a permutation of its input nodes: every node
appears exactly once in the output, on both the topological and the fallback
path. -/
theorem topological_sort_perm (nodes : List SemanticNode)
    (edges : List (String × List String)) :
    (topological_sort nodes edges).Perm nodes := by
  obtain ⟨stF, hInv, hrdy, heq⟩ := topo_final nodes edges
  rw [heq]
  by_cases hlen : stF.ordered.length ≠ nodes.length
  · rw [if_pos hlen]
    exact pySorted_perm _ _
  · rw [if_neg hlen]
    push_neg at hlen
    have hndF : stF.ordered.Nodup := by
      have := hInv.nodupOR
      rw [hrdy, List.append_nil] at this
      exact this
    have hsubF : ∀ x ∈ stF.ordered, x ∈ firstOccur (nodes.map (fun n => n.id)) := by
      intro x hx
      exact hInv.subKeys x (by rw [hrdy, List.append_nil]; exact hx)
    have hsp1 : stF.ordered.Subperm (firstOccur (nodes.map (fun n => n.id))) :=
      hndF.subperm hsubF
    have hsp2 : (firstOccur (nodes.map (fun n => n.id))).Subperm (nodes.map (fun n => n.id)) :=
      (nodup_firstOccur _).subperm (fun x hx => mem_firstOccur.mp hx)
    have hl1 := hsp1.length_le
    have hl2 := hsp2.length_le
    have hidslen : (nodes.map (fun n => n.id)).length = nodes.length := List.length_map _ _
    have hperm1 : stF.ordered.Perm (firstOccur (nodes.map (fun n => n.id))) :=
      hsp1.perm_of_length_le (by omega)
    have hperm2 : (firstOccur (nodes.map (fun n => n.id))).Perm (nodes.map (fun n => n.id)) :=
      hsp2.perm_of_length_le (by omega)
    have hpermIds : stF.ordered.Perm (nodes.map (fun n => n.id)) := hperm1.trans hperm2
    have hidsNd : (nodes.map (fun n => n.id)).Nodup := hpermIds.nodup hndF
    have hfm := hpermIds.filterMap (nodeById nodes)
    rw [filterMap_nodeById_eq hidsNd] at hfm
    exact hfm

/-! ## Atomizer coverage (C1) -/

/-- The hunk-id contribution of one file to the atomizer's nodes: all of its
hunk ids when the file has a truthy effective path, nothing otherwise. -/
def fileContrib (f : FileDiff) : List String :=
  if pyOrD2 f.path_new f.path_old "" = "" then [] else f.hunks.map (fun h => h.id)

theorem nodeFoldStep_nodes (ho : List (String × Nat)) (path : String) (tags : List String)
    (st : NodesResult × List SemanticNode) (gi : Nat × (Option String × List DiffHunk)) :
    ((nodeFoldStep ho path tags st gi).1).nodes.flatMap (fun n => n.hunk_ids) =
      st.1.nodes.flatMap (fun n => n.hunk_ids) ++ gi.2.2.map (fun h => h.id) := by
  by_cases hnil : gi.2.2 = []
  · unfold nodeFoldStep
    rw [if_pos hnil, hnil]
    simp
  · unfold nodeFoldStep
    rw [if_neg hnil]
    cases hmk : module_key path <;>
      simp [hmk, apply_ite NodesResult.nodes, ite_self, List.flatMap_append]

theorem groups_fold_nodes (ho : List (String × Nat)) (path : String) (tags : List String) :
    ∀ (gl : List (Nat × (Option String × List DiffHunk)))
      (st : NodesResult × List SemanticNode),
      ((gl.foldl (nodeFoldStep ho path tags) st).1).nodes.flatMap (fun n => n.hunk_ids) =
        st.1.nodes.flatMap (fun n => n.hunk_ids) ++
          gl.flatMap (fun gi => gi.2.2.map (fun h => h.id)) := by
  intro gl
  induction gl with
  | nil =>
    intro st
    simp
  | cons gi rest ih =>
    intro st
    rw [List.foldl_cons, ih, nodeFoldStep_nodes]
    simp [List.flatMap_cons, List.append_assoc]

theorem enum_flatMap_snd {α' β' : Type} (l : List α') (g : α' → List β') :
    l.enum.flatMap (fun gi => g gi.2) = l.flatMap g := by
  unfold List.flatMap
  congr 1
  have h0 : (fun (gi : Nat × α') => g gi.2) = g ∘ Prod.snd := rfl
  rw [h0, ← List.map_map, List.enum_map_snd]

theorem buildNodesForFile_flatMap (ho : List (String × Nat)) (acc : NodesResult)
    (f : FileDiff) :
    (((buildNodesForFile ho acc f).nodes).flatMap (fun n => n.hunk_ids)).Perm
      (acc.nodes.flatMap (fun n => n.hunk_ids) ++ fileContrib f) := by
  unfold buildNodesForFile fileContrib
  by_cases hh : f.hunks = []
  · rw [if_pos hh, hh]
    simp
  · rw [if_neg hh]
    by_cases hp : pyOrD2 f.path_new f.path_old "" = ""
    · rw [if_pos hp, if_pos hp]
      simp
    · rw [if_neg hp, if_neg hp]
      simp only
      rw [groups_fold_nodes]
      refine List.Perm.append_left _ ?_
      rw [enum_flatMap_snd (group_hunks_by_symbol f.hunks)
        (fun g => g.2.map (fun h => h.id))]
      have h2 : (group_hunks_by_symbol f.hunks).flatMap (fun g => g.2.map (fun h => h.id)) =
          ((group_hunks_by_symbol f.hunks).flatMap Prod.snd).map (fun h => h.id) := by
        induction group_hunks_by_symbol f.hunks with
        | nil => rfl
        | cons g rest ih =>
          simp [List.flatMap_cons, ih]
      rw [h2]
      exact (group_hunks_by_symbol_flat_perm f.hunks).map _

theorem build_nodes_flatMap (ho : List (String × Nat)) :
    ∀ (files : List FileDiff) (acc : NodesResult),
      (((files.foldl (buildNodesForFile ho) acc).nodes).flatMap (fun n => n.hunk_ids)).Perm
        (acc.nodes.flatMap (fun n => n.hunk_ids) ++ files.flatMap fileContrib) := by
  intro files
  induction files with
  | nil =>
    intro acc
    simp
  | cons f rest ih =>
    intro acc
    rw [List.foldl_cons]
    have h1 := ih (buildNodesForFile ho acc f)
    have h2 := (buildNodesForFile_flatMap ho acc f).append_right (rest.flatMap fileContrib)
    have h3 := h1.trans h2
    rw [List.append_assoc] at h3
    simpa [List.flatMap_cons] using h3

/-- **C1 (amended).**  Over a diff in which every file that has hunks also has
a truthy effective path, the atomizer's output covers the diff's hunk ids
exactly: the concatenation of the returned `hunk_ids` lists is a permutation
of the diff's full hunk-id list, and when the diff's hunk ids are distinct no
id appears in two atomic changes or twice in one. -/
theorem C1_atomizer_coverage (diff : Diff)
    (hp : ∀ f ∈ diff.files, f.hunks ≠ [] → pyOrD2 f.path_new f.path_old "" ≠ "") :
    (((atomize_semantically diff).flatMap (fun a => a.hunk_ids)).Perm (allHunkIds diff)) ∧
    ((allHunkIds diff).Nodup →
      ((atomize_semantically diff).flatMap (fun a => a.hunk_ids)).Nodup) := by
  have hcontrib : diff.files.flatMap fileContrib = allHunkIds diff := by
    unfold allHunkIds
    refine flatMap_congr_mem ?_
    intro f hf
    unfold fileContrib
    by_cases hh : f.hunks = []
    · rw [hh]
      by_cases hpp : pyOrD2 f.path_new f.path_old "" = "" <;> simp [hpp]
    · rw [if_neg (hp f hf hh)]
  have hbn := build_nodes_flatMap (build_hunk_order diff) diff.files ⟨[], [], [], []⟩
  simp only [List.flatMap_nil, List.nil_append] at hbn
  rw [hcontrib] at hbn
  have hbn2 : ((build_nodes diff (build_hunk_order diff)).nodes.flatMap
      (fun n => n.hunk_ids)).Perm (allHunkIds diff) := by
    show ((diff.files.foldl (buildNodesForFile (build_hunk_order diff))
        ⟨[], [], [], []⟩).nodes.flatMap (fun n => n.hunk_ids)).Perm (allHunkIds diff)
    exact hbn
  have hmain : ((atomize_semantically diff).flatMap (fun a => a.hunk_ids)).Perm
      (allHunkIds diff) := by
    simp only [atomize_semantically]
    by_cases hres : (build_nodes diff (build_hunk_order diff)).nodes = []
    · rw [if_pos hres]
      rw [hres] at hbn2
      simp only [List.flatMap_nil] at hbn2
      have hnil : allHunkIds diff = [] := List.perm_nil.mp hbn2.symm
      rw [hnil]
      exact List.Perm.refl _
    · rw [if_neg hres]
      have hts := topological_sort_perm (build_nodes diff (build_hunk_order diff)).nodes
        (build_dependencies (build_nodes diff (build_hunk_order diff)).nodes
          (build_nodes diff (build_hunk_order diff)).by_file
          (build_nodes diff (build_hunk_order diff)).by_symbol
          (build_nodes diff (build_hunk_order diff)).by_module)
      rw [List.flatMap_map]
      have h1 := hts.flatMap_right (fun (n : SemanticNode) => n.hunk_ids)
      exact h1.trans hbn2
  exact ⟨hmain, fun hnd => hmain.symm.nodup hnd⟩

/-- A diff whose only file has a hunk but no path at all. -/
def c1cexDiff : Diff :=
  ⟨none, none,
    [{ path_old := none, path_new := none, change_type := ChangeType.modify,
       is_binary := false,
       hunks := [{ id := "x::h0", file_path := "", header := "@@ -1 +1 @@", lines := [] }] }]⟩

/-- **C1, counterexample.**  A pathless file's hunks are silently dropped: the
atomizer returns no atomic change at all, so its hunk-id union misses
`x::h0`, which the diff does contain. -/
theorem C1_counterexample :
    atomize_semantically c1cexDiff = [] ∧ allHunkIds c1cexDiff = ["x::h0"] := by
  constructor
  · decide
  · decide

def c1wDiff : Diff := ⟨none, none, [aFile [aHunk 0, aHunk 1]]⟩

/-- Witness for C1 at a concrete two-hunk diff. -/
theorem C1_atomizer_coverage_witness :
    (((atomize_semantically c1wDiff).flatMap (fun a => a.hunk_ids)).Perm
      (allHunkIds c1wDiff)) ∧
    ((allHunkIds c1wDiff).Nodup →
      ((atomize_semantically c1wDiff).flatMap (fun a => a.hunk_ids)).Nodup) :=
  C1_atomizer_coverage c1wDiff (by decide)

/-! ## Cycle fallback (C8) -/

theorem cycle_avoids_ordered (edges : List (String × List String)) (keys : List String)
    (C : List String) (hCk : ∀ c ∈ C, c ∈ keys) :
    ∀ o : List String, o.Pairwise (fun a b => b ∈ keys → a ∉ edgesOf edges b) →
      (∀ a ∈ o, a ∉ edgesOf edges a) →
      (∀ c ∈ C, c ∈ o → ∃ s, s ∈ C ∧ s ∈ o ∧ c ∈ edgesOf edges s) →
      ∀ c ∈ C, c ∉ o := by
  intro o
  induction o with
  | nil =>
    intro _ _ _ c _ h
    exact absurd h (List.not_mem_nil c)
  | cons a rest ih =>
    intro hpw hself hcl c hc hco
    have hpw' := List.pairwise_cons.mp hpw
    have haC : a ∉ C := by
      intro haC
      obtain ⟨s, hsC, hso, hedge⟩ := hcl a haC (List.mem_cons_self a rest)
      rcases List.mem_cons.mp hso with hs0 | hs'
      · exact hself a (List.mem_cons_self _ _) (hs0 ▸ hedge)
      · exact hpw'.1 s hs' (hCk s hsC) hedge
    rcases List.mem_cons.mp hco with rfl | hc'
    · exact haC hc
    · refine ih hpw'.2 (fun x hx => hself x (List.mem_cons_of_mem _ hx)) ?_ c hc hc'
      intro d hdC hdo
      obtain ⟨s, hsC, hso, hedge⟩ := hcl d hdC (List.mem_cons_of_mem _ hdo)
      rcases List.mem_cons.mp hso with rfl | hs'
      · exact absurd hsC haC
      · exact ⟨s, hsC, hs', hedge⟩

/-- **C8.**  If the dependency graph handed to `_topological_sort` contains a
cycle among the node ids — a nonempty set `C` of node ids each of which has an
incoming edge from a member of `C` — the function returns the stable sort of
ALL nodes by their `first_order`, and (as always) a permutation of the full
node list: no error, no partial result. -/
theorem C8_cycle_fallback (nodes : List SemanticNode) (edges : List (String × List String))
    (C : List String) (hne : C ≠ [])
    (hCk : ∀ c ∈ C, c ∈ nodes.map (fun n => n.id))
    (hcyc : ∀ c ∈ C, ∃ s, s ∈ C ∧ c ∈ edgesOf edges s) :
    topological_sort nodes edges =
      pySorted (fun a b => a.first_order ≤ b.first_order) nodes ∧
    (topological_sort nodes edges).Perm nodes := by
  refine ⟨?_, topological_sort_perm nodes edges⟩
  obtain ⟨stF, hInv, hrdy, heq⟩ := topo_final nodes edges
  have hCkeys : ∀ c ∈ C, c ∈ firstOccur (nodes.map (fun n => n.id)) :=
    fun c hc => mem_firstOccur.mpr (hCk c hc)
  have hndF : stF.ordered.Nodup := by
    have := hInv.nodupOR
    rw [hrdy, List.append_nil] at this
    exact this
  have hsubF : ∀ x ∈ stF.ordered, x ∈ firstOccur (nodes.map (fun n => n.id)) := by
    intro x hx
    exact hInv.subKeys x (by rw [hrdy, List.append_nil]; exact hx)
  have hordSub : ∀ n ∈ stF.ordered,
      (firstOccur (nodes.map (fun n => n.id))).contains n = true :=
    fun n hn => contains_iff_mem.mpr (hsubF n hn)
  have hclosedF : ∀ a ∈ stF.ordered, ∀ s, s ∈ firstOccur (nodes.map (fun n => n.id)) →
      a ∈ edgesOf edges s → s ∈ stF.ordered := hInv.closedIn
  have hclosure : ∀ c ∈ C, c ∈ stF.ordered →
      ∃ s, s ∈ C ∧ s ∈ stF.ordered ∧ c ∈ edgesOf edges s := by
    intro c hcC hco
    obtain ⟨s, hsC, hedge⟩ := hcyc c hcC
    exact ⟨s, hsC, hclosedF c hco s (hCkeys s hsC) hedge, hedge⟩
  have hCnotin := cycle_avoids_ordered edges (firstOccur (nodes.map (fun n => n.id))) C
    hCkeys stF.ordered hInv.noBack hInv.noSelf hclosure
  obtain ⟨c0, hc0⟩ : ∃ c0, c0 ∈ C := by
    cases hC : C with
    | nil => exact absurd hC hne
    | cons a t => exact ⟨a, hC ▸ List.mem_cons_self a t⟩
  have hc0no : c0 ∉ stF.ordered := hCnotin c0 hc0
  have happ : (stF.ordered ++ [c0]).Nodup :=
    List.Nodup.append hndF (List.nodup_singleton c0)
      (fun x hx hx' => hc0no ((List.mem_singleton.mp hx') ▸ hx))
  have hsubApp : ∀ x ∈ stF.ordered ++ [c0], x ∈ firstOccur (nodes.map (fun n => n.id)) := by
    intro x hx
    rcases List.mem_append.mp hx with h | h
    · exact hsubF x h
    · exact (List.mem_singleton.mp h) ▸ hCkeys c0 hc0
  have hsp1 : (stF.ordered ++ [c0]).Subperm (firstOccur (nodes.map (fun n => n.id))) :=
    happ.subperm hsubApp
  have hsp2 : (firstOccur (nodes.map (fun n => n.id))).Subperm (nodes.map (fun n => n.id)) :=
    (nodup_firstOccur _).subperm (fun x hx => mem_firstOccur.mp hx)
  have hl1 := hsp1.length_le
  have hl2 := hsp2.length_le
  have hl3 : (stF.ordered ++ [c0]).length = stF.ordered.length + 1 := by simp
  have hl4 : (nodes.map (fun n => n.id)).length = nodes.length := List.length_map _ _
  have hlen : stF.ordered.length ≠ nodes.length := by omega
  rw [heq, if_pos hlen]

/-- A two-node cyclic dependency graph. -/
def c8nodes : List SemanticNode :=
  [⟨"a", "a.py", none, ["a.py::h0"], [], none, 0⟩,
   ⟨"b", "b.py", none, ["b.py::h0"], [], none, 1⟩]

def c8edges : List (String × List String) := [("a", ["b"]), ("b", ["a"])]

/-- Witness for C8 on a concrete two-node cycle. -/
theorem C8_cycle_fallback_witness :
    topological_sort c8nodes c8edges =
      pySorted (fun a b => a.first_order ≤ b.first_order) c8nodes ∧
    (topological_sort c8nodes c8edges).Perm c8nodes :=
  C8_cycle_fallback c8nodes c8edges ["a", "b"] (by decide) (by decide) (by decide)

/-! ## Acyclic dependency-respecting order (C9) -/

theorem edgesAdd_keys (m : List (String × List String)) (src dst : String) :
    (edgesAdd m src dst).map Prod.fst = m.map Prod.fst := by
  unfold edgesAdd
  rw [List.map_map]
  apply List.map_congr_left
  intro p _
  by_cases h : p.1 = src <;> simp [h]

theorem foldl_keys_pres {γ : Type} (g : List (String × List String) → γ →
      List (String × List String))
    (hg : ∀ m x, (g m x).map Prod.fst = m.map Prod.fst) :
    ∀ (l : List γ) (m : List (String × List String)),
      ((l.foldl g m).map Prod.fst) = m.map Prod.fst := by
  intro l
  induction l with
  | nil =>
    intro m
    rfl
  | cons x xs ih =>
    intro m
    rw [List.foldl_cons, ih, hg]

theorem build_dependencies_keys (nodes : List SemanticNode)
    (bf bs bm : List (String × List SemanticNode)) :
    (build_dependencies nodes bf bs bm).map Prod.fst =
      firstOccur (nodes.map (fun n => n.id)) := by
  unfold build_dependencies
  rw [foldl_keys_pres _ ?h1, foldl_keys_pres _ ?h2, keyFold_keys]
  case h1 =>
    intro m node
    by_cases ht : ¬ node.tags.contains "test"
    · rw [if_pos ht]
    · rw [if_neg ht]
      exact foldl_keys_pres _
        (fun m2 sid => by
          by_cases hs : (nodeById nodes sid).isSome
          · rw [if_pos hs, edgesAdd_keys]
          · rw [if_neg hs]) _ m
  case h2 =>
    intro m p
    exact foldl_keys_pres _
      (fun m2 (q : SemanticNode × SemanticNode) => edgesAdd_keys m2 q.1.id q.2.id) _ m

def diffNodesResult (diff : Diff) : NodesResult := build_nodes diff (build_hunk_order diff)

def diffEdges (diff : Diff) : List (String × List String) :=
  build_dependencies (diffNodesResult diff).nodes (diffNodesResult diff).by_file
    (diffNodesResult diff).by_symbol (diffNodesResult diff).by_module

theorem map_id_filterMap_nodeById {nodes : List SemanticNode}
    (hnd : (nodes.map (fun n => n.id)).Nodup) :
    ∀ (l : List String), (∀ k ∈ l, k ∈ nodes.map (fun n => n.id)) →
      ((l.filterMap (nodeById nodes)).map (fun n => n.id)) = l := by
  intro l
  induction l with
  | nil =>
    intro _
    rfl
  | cons k rest ih =>
    intro hsub
    obtain ⟨n, hn, hnk⟩ := List.mem_map.mp (hsub k (List.mem_cons_self _ _))
    have hk : nodeById nodes k = some n := hnk ▸ nodeById_of_nodup hnd hn
    rw [List.filterMap_cons, hk]
    simp only [List.map_cons, hnk]
    rw [ih (fun x hx => hsub x (List.mem_cons_of_mem _ hx))]

/-- **C9.**  Over a diff with distinct atomizer node ids whose dependency
graph is acyclic (witnessed by a rank function strictly increasing along
every edge), the atomizer's output order respects every dependency: no
atomic change precedes one it depends on — in particular no test-tagged
group precedes a source group it was linked to. -/
theorem C9_acyclic_order_respects_dependencies (diff : Diff)
    (hND : ((diffNodesResult diff).nodes.map (fun n => n.id)).Nodup)
    (hrank : ∃ rank : String → Nat,
      ∀ p ∈ diffEdges diff, ∀ d ∈ p.2, rank p.1 < rank d) :
    ((atomize_semantically diff).map (fun a => a.id)).Pairwise
      (fun a b => a ∉ edgesOf (diffEdges diff) b) := by
  obtain ⟨rank, hrank⟩ := hrank
  have hKE : ((diffEdges diff).map Prod.fst).Nodup := by
    unfold diffEdges
    rw [build_dependencies_keys]
    exact nodup_firstOccur _
  obtain ⟨stF, hInv, hrdy, heq⟩ := topo_final (diffNodesResult diff).nodes (diffEdges diff)
  have hkeysEq : firstOccur ((diffNodesResult diff).nodes.map (fun n => n.id)) =
      (diffNodesResult diff).nodes.map (fun n => n.id) := firstOccur_eq_self hND
  have hrank' : ∀ s x, x ∈ edgesOf (diffEdges diff) s → rank s < rank x := by
    intro s x hx
    unfold edgesOf at hx
    cases hl : List.lookup s (diffEdges diff) with
    | none =>
      rw [hl] at hx
      exact absurd hx (List.not_mem_nil x)
    | some l =>
      rw [hl] at hx
      exact hrank (s, l) (lookup_some_mem hl) x hx
  have hndF : stF.ordered.Nodup := by
    have := hInv.nodupOR
    rw [hrdy, List.append_nil] at this
    exact this
  have hsubF : ∀ x ∈ stF.ordered,
      x ∈ firstOccur ((diffNodesResult diff).nodes.map (fun n => n.id)) := by
    intro x hx
    exact hInv.subKeys x (by rw [hrdy, List.append_nil]; exact hx)
  have hordSub : ∀ n ∈ stF.ordered,
      (firstOccur ((diffNodesResult diff).nodes.map (fun n => n.id))).contains n = true :=
    fun n hn => contains_iff_mem.mpr (hsubF n hn)
  have hcomplete : ∀ x ∈ firstOccur ((diffNodesResult diff).nodes.map (fun n => n.id)),
      x ∈ stF.ordered := by
    have main : ∀ bound x,
        x ∈ firstOccur ((diffNodesResult diff).nodes.map (fun n => n.id)) →
        rank x < bound → x ∈ stF.ordered := by
      intro bound
      induction bound with
      | zero =>
        intro x _ h
        omega
      | succ n ih =>
        intro x hxK hxb
        by_contra hxo
        have hlk := hInv.ledger x
        rw [initIndeg_lookup, if_pos (mem_firstOccur.mp hxK)] at hlk
        simp only [Option.map_some'] at hlk
        have hnonneg := decs_le_cntInE (diffEdges diff)
          (firstOccur ((diffNodesResult diff).nodes.map (fun n => n.id)))
          stF.ordered x hndF hordSub
        have hvle : ¬ ((cntInE (firstOccur ((diffNodesResult diff).nodes.map (fun n => n.id)))
            (diffEdges diff) x : Int) -
            (decs (diffEdges diff) stF.ordered x : Int) ≤ 0) := by
          intro hle
          have := hInv.seen x hxK _ hlk hle
          rw [hrdy, List.append_nil] at this
          exact hxo this
        have hdlt : decs (diffEdges diff) stF.ordered x <
            cntInE (firstOccur ((diffNodesResult diff).nodes.map (fun n => n.id)))
              (diffEdges diff) x := by omega
        have hex : ∃ s, (firstOccur ((diffNodesResult diff).nodes.map
            (fun n => n.id))).contains s = true ∧ s ∉ stF.ordered ∧
            x ∈ edgesOf (diffEdges diff) s := by
          by_contra hno
          have hall : ∀ s, (firstOccur ((diffNodesResult diff).nodes.map
              (fun n => n.id))).contains s = true → s ∉ stF.ordered →
              (edgesOf (diffEdges diff) s).count x = 0 := by
            intro s hs hso
            by_contra hc
            have hpos : 0 < (edgesOf (diffEdges diff) s).count x := Nat.pos_of_ne_zero hc
            exact hno ⟨s, hs, hso, List.one_le_count_iff.mp hpos⟩
          have := decs_complete_cntInE (diffEdges diff)
            (firstOccur ((diffNodesResult diff).nodes.map (fun n => n.id)))
            stF.ordered x hKE hndF hordSub hall
          omega
        obtain ⟨s, hsK, hsO, hsx⟩ := hex
        have hrs : rank s < rank x := hrank' s x hsx
        exact hsO (ih s (contains_iff_mem.mp hsK) (by omega))
    intro x hx
    exact main (rank x + 1) x hx (by omega)
  have hperm : stF.ordered.Perm
      (firstOccur ((diffNodesResult diff).nodes.map (fun n => n.id))) :=
    (hndF.subperm hsubF).antisymm ((nodup_firstOccur _).subperm hcomplete)
  have hlen : stF.ordered.length = (diffNodesResult diff).nodes.length := by
    rw [hperm.length_eq, hkeysEq, List.length_map]
  simp only [atomize_semantically]
  by_cases hnil : (build_nodes diff (build_hunk_order diff)).nodes = []
  · rw [if_pos hnil]
    exact List.Pairwise.nil
  · rw [if_neg hnil]
    rw [List.map_map]
    have hcomp : ((fun (a : AtomicChange) => a.id) ∘
        (fun (node : SemanticNode) =>
          (⟨node.id, node.hunk_ids, node.tags, node.summary⟩ : AtomicChange))) =
        (fun (n : SemanticNode) => n.id) := rfl
    rw [hcomp]
    have hts : topological_sort (build_nodes diff (build_hunk_order diff)).nodes
        (build_dependencies (build_nodes diff (build_hunk_order diff)).nodes
          (build_nodes diff (build_hunk_order diff)).by_file
          (build_nodes diff (build_hunk_order diff)).by_symbol
          (build_nodes diff (build_hunk_order diff)).by_module) =
        stF.ordered.filterMap (nodeById (diffNodesResult diff).nodes) := by
      have heq2 : topological_sort (diffNodesResult diff).nodes (diffEdges diff) =
          stF.ordered.filterMap (nodeById (diffNodesResult diff).nodes) := by
        rw [heq, if_neg (fun h => h hlen)]
      exact heq2
    rw [hts]
    rw [map_id_filterMap_nodeById hND stF.ordered
      (fun k hk => hkeysEq ▸ hsubF k hk)]
    refine List.Pairwise.imp_of_mem ?_ hInv.noBack
    intro a b ha hb hR
    exact hR (hsubF b hb)

/-- The spec's scenario: a test-file hunk tagged `symbol: def compute`
appears BEFORE the matching source-file hunk in raw diff order. -/
def c9wDiff : Diff :=
  ⟨none, none,
    [{ path_old := some "test_calc.py", path_new := some "test_calc.py",
       change_type := ChangeType.modify, is_binary := false,
       hunks := [{ id := "test_calc.py::h0", file_path := "test_calc.py",
                   header := "@@ -1 +1 @@", lines := [],
                   metaSymbol := some "def compute" }] },
     { path_old := some "calc.py", path_new := some "calc.py",
       change_type := ChangeType.modify, is_binary := false,
       hunks := [{ id := "calc.py::h0", file_path := "calc.py",
                   header := "@@ -1 +1 @@", lines := [],
                   metaSymbol := some "def compute" }] }]⟩

/-- Witness for C9 on the test-before-source scenario. -/
theorem C9_acyclic_order_respects_dependencies_witness :
    ((atomize_semantically c9wDiff).map (fun a => a.id)).Pairwise
      (fun a b => a ∉ edgesOf (diffEdges c9wDiff) b) :=
  C9_acyclic_order_respects_dependencies c9wDiff (by decide)
    ⟨fun s => if s = "calc.py::ac0" then 0 else 1, by decide⟩

/-! ## Change-kind precedence (C7) -/

/-- The stripped `---`/`+++` content-header values of a file section's
remaining lines, extracted exactly as `_parse_single_file_diff` does. -/
def contentHeads (r0 : List String) : Option String × Option String :=
  ((stripContentHeader "--- " r0).1,
   (stripContentHeader "+++ " (stripContentHeader "--- " r0).2).1)

/-- The change kind the parser actually assigns: the `+++ /dev/null` sentinel
forces `delete`, else the `--- /dev/null` sentinel forces `add`, and only
otherwise does the marker-derived kind (with `modify` as default) survive. -/
def specChangeKind (marker_kind : ChangeType) (old_line new_line : Option String) :
    ChangeType :=
  if new_line = some "/dev/null" then ChangeType.delete
  else if old_line = some "/dev/null" then ChangeType.add
  else marker_kind

theorem oldRefOf_kind (kind : ChangeType) (fallback : String) (o : Option String) :
    (oldRefOf kind fallback o).1 =
      (if o = some "/dev/null" then ChangeType.add else kind) := by
  cases o with
  | none => simp [oldRefOf]
  | some s =>
    by_cases hdev : s = "/dev/null"
    · simp [oldRefOf, hdev]
    · by_cases he : s = "" <;>
        by_cases ha : pyStartsWith s "a/" = true <;>
          simp [oldRefOf, hdev, he, ha]

theorem newRefOf_kind (kind : ChangeType) (fallback : String) (o : Option String) :
    (newRefOf kind fallback o).1 =
      (if o = some "/dev/null" then ChangeType.delete else kind) := by
  cases o with
  | none => simp [newRefOf]
  | some s =>
    by_cases hdev : s = "/dev/null"
    · simp [newRefOf, hdev]
    · by_cases he : s = "" <;>
        by_cases hb : pyStartsWith s "b/" = true <;>
          simp [newRefOf, hdev, he, hb]

/-- **C7 (amended).**  For every non-binary textual file section, the parsed
change kind is `specChangeKind` of the marker-scan result and the content
headers: the null-device sentinels on `---`/`+++` take precedence OVER the
explicit new-file/deleted-file/rename markers (not the other way around), and
the marker-derived kind (default `modify`) applies only when no sentinel is
present. -/
theorem C7_change_kind_precedence (header_line : String) (rest : List String)
    (hparts : ¬ (pySplitWs header_line).length < 4)
    (hstop : (metaScan rest ⟨ChangeType.modify, false, none, none⟩).2.1 ≠ MetaStop.nextFile)
    (hbin : (metaScan rest ⟨ChangeType.modify, false, none, none⟩).1.is_binary = false) :
    ∃ fd restOut, parse_single_file_diff header_line rest = (some fd, restOut) ∧
      fd.change_type =
        specChangeKind (metaScan rest ⟨ChangeType.modify, false, none, none⟩).1.change_type
          (contentHeads (metaScan rest ⟨ChangeType.modify, false, none, none⟩).2.2).1
          (contentHeads (metaScan rest ⟨ChangeType.modify, false, none, none⟩).2.2).2 := by
  simp only [parse_single_file_diff]
  rw [if_neg hparts, if_neg hstop]
  rw [if_neg (by rw [hbin]; exact Bool.false_ne_true)]
  refine ⟨_, _, rfl, ?_⟩
  simp only [specChangeKind, contentHeads]
  rw [newRefOf_kind, oldRefOf_kind]

/-- A file section carrying both an explicit `new file mode` marker and a
`+++ /dev/null` sentinel. -/
def c7lines : List String := ["new file mode 100644", "--- a/f.py", "+++ /dev/null"]

/-- **C7, counterexample.**  With an explicit new-file marker AND a
`+++ /dev/null` content header, the parser returns kind `delete`: the
null-device sentinel, applied after the marker scan, overrides the
marker-derived `add`, the reverse of the claimed precedence. -/
theorem C7_counterexample :
    ((parse_single_file_diff "diff --git a/f.py b/f.py" c7lines).1.map
      (fun fd => fd.change_type)) = some ChangeType.delete ∧
    (metaScan c7lines ⟨ChangeType.modify, false, none, none⟩).1.change_type =
      ChangeType.add := by
  constructor
  · decide
  · decide

/-- Witness for C7 at the marker-plus-sentinel section. -/
theorem C7_change_kind_precedence_witness :
    ∃ fd restOut,
      parse_single_file_diff "diff --git a/f.py b/f.py" c7lines = (some fd, restOut) ∧
      fd.change_type =
        specChangeKind
          (metaScan c7lines ⟨ChangeType.modify, false, none, none⟩).1.change_type
          (contentHeads (metaScan c7lines ⟨ChangeType.modify, false, none, none⟩).2.2).1
          (contentHeads (metaScan c7lines ⟨ChangeType.modify, false, none, none⟩).2.2).2 :=
  C7_change_kind_precedence "diff --git a/f.py b/f.py" c7lines (by decide) (by decide)
    (by decide)

/-! ## Apply rollback on interruption (C2) -/

deriving instance DecidableEq for Except

/-- A repository whose first patch application raises `KeyboardInterrupt`. -/
def c2opsKI : GitOps :=
  { ensure_repo_clean := Except.ok (), get_current_ref := Except.ok "main",
    create_branch := Except.ok (), checkout := fun _ => Except.ok (),
    apply_patch := fun i =>
      if i = 0 then Except.error PyExc.keyboardInterrupt else Except.ok (),
    create_commit := fun _ => Except.ok (), trees_equal := Except.ok true,
    delete_branch := Except.ok () }

/-- The same repository, but the first patch application raises `GitError`. -/
def c2opsGE : GitOps :=
  { ensure_repo_clean := Except.ok (), get_current_ref := Except.ok "main",
    create_branch := Except.ok (), checkout := fun _ => Except.ok (),
    apply_patch := fun i =>
      if i = 0 then Except.error (PyExc.gitError "patch failed") else Except.ok (),
    create_commit := fun _ => Except.ok (), trees_equal := Except.ok true,
    delete_branch := Except.ok () }

def isRollbackCall : GitCall → Bool
  | GitCall.deleteBranch _ _ => true
  | GitCall.checkoutRef r => decide (r = "main")
  | _ => false

/-- **C2 (code bug).**  A `KeyboardInterrupt` raised mid-apply, after the
branch was created and checked out, does NOT trigger the rollback path: the
handler is `except Exception`, which `KeyboardInterrupt` does not derive
from, so the run ends with the interrupt propagating and with no checkout of
the pre-run ref and no branch deletion in the call trace.  An ordinary
`GitError` at the very same point does trigger both rollback calls. -/
theorem C2_keyboardinterrupt_skips_rollback :
    ((apply_plan c2opsKI c5wPlan false).outcome =
        Except.error PyExc.keyboardInterrupt ∧
      (apply_plan c2opsKI c5wPlan false).trace.all
        (fun c => ¬ isRollbackCall c) = true) ∧
    ((apply_plan c2opsGE c5wPlan false).outcome =
        Except.error (PyExc.gitError "patch failed") ∧
      GitCall.checkoutRef "main" ∈ (apply_plan c2opsGE c5wPlan false).trace ∧
      GitCall.deleteBranch "banana-split/split-tgt" true ∈
        (apply_plan c2opsGE c5wPlan false).trace) := by
  refine ⟨⟨?_, ?_⟩, ⟨?_, ?_, ?_⟩⟩
  · decide
  · decide
  · decide
  · decide
  · decide

/-! ## Render/parse round trip (C3) -/

theorem stringMk_data (s : String) : String.mk s.data = s := by
  cases s
  rfl

theorem string_data_append (a b : String) : (a ++ b).data = a.data ++ b.data := rfl

theorem isPrefixOf_append_self (p t : List Char) : p.isPrefixOf (p ++ t) = true := by
  induction p with
  | nil => simp [List.isPrefixOf]
  | cons c cs ih => simp [List.isPrefixOf, ih]

theorem pyStartsWith_append (p s : String) : pyStartsWith (p ++ s) p = true := by
  unfold pyStartsWith
  rw [string_data_append]
  exact isPrefixOf_append_self _ _

theorem pyStartsWith_false_of_head {s q : String} {c c' : Char} {cs cs' : List Char}
    (hs : s.data = c :: cs) (hq : q.data = c' :: cs') (hne : c' ≠ c) :
    pyStartsWith s q = false := by
  unfold pyStartsWith
  rw [hs, hq]
  simp [List.isPrefixOf, hne]

theorem string_ne_of_head {a b : String} {c c' : Char} {cs cs' : List Char}
    (ha : a.data = c :: cs) (hb : b.data = c' :: cs') (hne : c ≠ c') : a ≠ b := by
  intro he
  rw [he, hb] at ha
  injection ha with h1 h2
  exact hne h1.symm

theorem string_ne_empty_of_head {a : String} {c : Char} {cs : List Char}
    (ha : a.data = c :: cs) : a ≠ "" := by
  intro he
  rw [he] at ha
  exact List.noConfusion ha

theorem pyStrip_of_all_nonWs {s : String} (h : ∀ c ∈ s.data, ¬ pyIsSpace c = true) :
    pyStrip s = s := by
  unfold pyStrip
  have h1 : s.data.dropWhile pyIsSpace = s.data := by
    rw [List.dropWhile_eq_self_iff]
    intro hl
    exact h _ (s.data.get_mem _ _)
  rw [h1]
  have h2 : s.data.reverse.dropWhile pyIsSpace = s.data.reverse := by
    rw [List.dropWhile_eq_self_iff]
    intro hl
    exact h _ (List.mem_reverse.mp (s.data.reverse.get_mem _ _))
  rw [h2, List.reverse_reverse]

theorem pyIsSpace_of_lineBound {c : Char} (h : pyIsLineBound c = true) :
    pyIsSpace c = true := by
  simp only [pyIsLineBound, Bool.or_eq_true, beq_iff_eq] at h
  rcases h with ((((((((rfl | rfl) | rfl) | rfl) | rfl) | rfl) | rfl) | rfl) | rfl) | rfl <;>
    decide

theorem not_cr_of_not_lineBound {c : Char} (h : ¬ pyIsLineBound c = true) :
    ¬ (c = '\r') := by
  intro he
  exact h (by rw [he]; decide)

theorem splitLinesGo_chunk {cs : List Char} (rest : List Char)
    (h : ∀ c ∈ cs, ¬ pyIsLineBound c = true) :
    ∀ (fuel : Nat) (acc : List Char),
      splitLinesGo (cs.length + (fuel + 1)) (cs ++ '\n' :: rest) acc =
        String.mk (acc.reverse ++ cs) :: splitLinesGo fuel rest [] := by
  induction cs with
  | nil =>
    intro fuel acc
    simp only [List.length_nil, Nat.zero_add, List.nil_append]
    simp only [splitLinesGo]
    rw [if_neg (by decide : ¬ (('\n' : Char) = '\r'))]
    rw [if_pos (by decide : pyIsLineBound '\n' = true)]
    simp
  | cons c cs ih =>
    intro fuel acc
    have hc : ¬ pyIsLineBound c = true := h c (List.mem_cons_self _ _)
    have hlen : (c :: cs).length + (fuel + 1) = (cs.length + (fuel + 1)) + 1 := by
      simp only [List.length_cons]
      omega
    rw [hlen, List.cons_append]
    have hstep : splitLinesGo ((cs.length + (fuel + 1)) + 1)
        (c :: (cs ++ '\n' :: rest)) acc =
        splitLinesGo (cs.length + (fuel + 1)) (cs ++ '\n' :: rest) (c :: acc) := by
      simp only [splitLinesGo, if_neg (not_cr_of_not_lineBound hc), if_neg hc]
    rw [hstep]
    rw [ih (fun x hx => h x (List.mem_cons_of_mem _ hx)) fuel (c :: acc)]
    simp

theorem joinNl_append_nl :
    ∀ (out : List String), out ≠ [] →
      joinNlChars out ++ ['\n'] = out.flatMap (fun l => l.data ++ ['\n']) := by
  intro out
  induction out with
  | nil =>
    intro h
    exact absurd rfl h
  | cons s rest ih =>
    intro _
    cases hr : rest with
    | nil => simp [joinNlChars]
    | cons t ts =>
      have hne : rest ≠ [] := by rw [hr]; exact List.cons_ne_nil t ts
      have hrec := ih hne
      rw [hr] at hrec
      show (s.data ++ '\n' :: joinNlChars (t :: ts)) ++ ['\n'] =
        (s.data ++ ['\n']) ++ (t :: ts).flatMap (fun l => l.data ++ ['\n'])
      rw [List.append_assoc, List.append_assoc]
      congr 1
      simpa using hrec
  
theorem splitLinesGo_nil_input : ∀ (fuel : Nat), splitLinesGo fuel [] [] = [] := by
  intro fuel
  cases fuel with
  | zero => rfl
  | succ n => rfl

theorem splitLinesGo_flat :
    ∀ (out : List String), (∀ l ∈ out, ∀ c ∈ l.data, ¬ pyIsLineBound c = true) →
      ∀ fuel,
        splitLinesGo ((out.flatMap (fun l => l.data ++ ['\n'])).length + fuel)
          (out.flatMap (fun l => l.data ++ ['\n'])) [] = out := by
  intro out
  induction out with
  | nil =>
    intro _ fuel
    have h0 : (([] : List String).flatMap (fun l => l.data ++ ['\n'])) = [] := rfl
    rw [h0, List.length_nil, Nat.zero_add]
    exact splitLinesGo_nil_input fuel
  | cons s rest ih =>
    intro h fuel
    rw [List.flatMap_cons, List.append_assoc]
    show splitLinesGo
        ((s.data ++ (['\n'] ++ rest.flatMap (fun l => l.data ++ ['\n']))).length + fuel)
        (s.data ++ '\n' :: rest.flatMap (fun l => l.data ++ ['\n'])) [] = s :: rest
    have hlen : (s.data ++ (['\n'] ++ rest.flatMap (fun l => l.data ++ ['\n']))).length
        + fuel =
        s.data.length + (((rest.flatMap (fun l => l.data ++ ['\n'])).length + fuel) + 1) := by
      simp only [List.length_append, List.length_cons, List.length_nil]
      omega
    rw [hlen]
    rw [splitLinesGo_chunk _ (h s (List.mem_cons_self _ _))]
    rw [ih (fun l hl => h l (List.mem_cons_of_mem _ hl))]
    simp [stringMk_data]

theorem splitLines_joinNl (out : List String) (hne : out ≠ [])
    (h : ∀ l ∈ out, ∀ c ∈ l.data, ¬ pyIsLineBound c = true) :
    pySplitLines (String.mk (joinNlChars out ++ ['\n'])) = out := by
  unfold pySplitLines
  show splitLinesGo (joinNlChars out ++ ['\n']).length (joinNlChars out ++ ['\n']) [] = out
  rw [joinNl_append_nl out hne]
  have := splitLinesGo_flat out h 0
  rw [Nat.add_zero] at this
  exact this

theorem splitWsGo_token {cs : List Char} (rest : List Char)
    (h : ∀ c ∈ cs, ¬ pyIsSpace c = true) :
    ∀ acc, acc ≠ [] ∨ cs ≠ [] →
      splitWsGo (cs ++ ' ' :: rest) acc = (acc.reverse ++ cs) :: splitWsGo rest [] := by
  induction cs with
  | nil =>
    intro acc hne
    have hacc : acc ≠ [] := by
      rcases hne with h1 | h1
      · exact h1
      · exact absurd rfl h1
    simp only [List.nil_append]
    show splitWsGo (' ' :: rest) acc = (acc.reverse ++ []) :: splitWsGo rest []
    simp only [splitWsGo, if_pos (by decide : pyIsSpace ' ' = true), if_neg hacc]
    simp
  | cons c cs ih =>
    intro acc _
    have hc : ¬ pyIsSpace c = true := h c (List.mem_cons_self _ _)
    have hstep : splitWsGo (c :: (cs ++ ' ' :: rest)) acc =
        splitWsGo (cs ++ ' ' :: rest) (c :: acc) := by
      simp only [splitWsGo, if_neg hc]
    rw [List.cons_append, hstep]
    rw [ih (fun x hx => h x (List.mem_cons_of_mem _ hx)) (c :: acc)
      (Or.inl (List.cons_ne_nil c acc))]
    simp

theorem splitWsGo_last {cs : List Char} (h : ∀ c ∈ cs, ¬ pyIsSpace c = true) :
    ∀ acc, acc ≠ [] ∨ cs ≠ [] →
      splitWsGo cs acc = [acc.reverse ++ cs] := by
  induction cs with
  | nil =>
    intro acc hne
    have hacc : acc ≠ [] := by
      rcases hne with h1 | h1
      · exact h1
      · exact absurd rfl h1
    simp only [splitWsGo, if_neg hacc]
    simp
  | cons c cs ih =>
    intro acc _
    have hc : ¬ pyIsSpace c = true := h c (List.mem_cons_self _ _)
    have hstep : splitWsGo (c :: cs) acc = splitWsGo cs (c :: acc) := by
      simp only [splitWsGo, if_neg hc]
    rw [hstep]
    rw [ih (fun x hx => h x (List.mem_cons_of_mem _ hx)) (c :: acc)
      (Or.inl (List.cons_ne_nil c acc))]
    simp

/-- The `diff --git a/PO b/PN` header splits into exactly its four tokens
when the two paths contain no whitespace. -/
theorem pySplitWs_dgLine (po pn : String)
    (hpo : ∀ c ∈ po.data, ¬ pyIsSpace c = true)
    (hpn : ∀ c ∈ pn.data, ¬ pyIsSpace c = true) :
    pySplitWs ("diff --git a/" ++ po ++ " b/" ++ pn) =
      ["diff", "--git", "a/" ++ po, "b/" ++ pn] := by
  unfold pySplitWs
  have hdata : ("diff --git a/" ++ po ++ " b/" ++ pn).data =
      ("diff".data ++ ' ' :: ("--git".data ++ ' ' ::
        (('a' :: '/' :: po.data) ++ ' ' :: ('b' :: '/' :: pn.data)))) := by
    rw [string_data_append, string_data_append, string_data_append]
    show "diff --git a/".data ++ po.data ++ " b/".data ++ pn.data = _
    simp
  rw [hdata]
  rw [splitWsGo_token _ (by decide) [] (Or.inr (by decide))]
  rw [splitWsGo_token _ (by decide) [] (Or.inr (by decide))]
  rw [splitWsGo_token _ ?ha [] (Or.inr (List.cons_ne_nil _ _))]
  rw [splitWsGo_last ?hb [] (Or.inr (List.cons_ne_nil _ _))]
  case ha =>
    intro c hc
    rcases List.mem_cons.mp hc with rfl | hc2
    · decide
    rcases List.mem_cons.mp hc2 with rfl | hc3
    · decide
    · exact hpo c hc3
  case hb =>
    intro c hc
    rcases List.mem_cons.mp hc with rfl | hc2
    · decide
    rcases List.mem_cons.mp hc2 with rfl | hc3
    · decide
    · exact hpn c hc3
  simp only [List.reverse_nil, List.nil_append, List.map_cons, List.map_nil]
  refine congrArg₂ List.cons rfl ?_
  refine congrArg₂ List.cons rfl ?_
  have h3 : String.mk ('a' :: '/' :: po.data) = "a/" ++ po := by
    have : ("a/" ++ po).data = 'a' :: '/' :: po.data := by
      rw [string_data_append]
      rfl
    rw [← this, stringMk_data]
  have h4 : String.mk ('b' :: '/' :: pn.data) = "b/" ++ pn := by
    have : ("b/" ++ pn).data = 'b' :: '/' :: pn.data := by
      rw [string_data_append]
      rfl
    rw [← this, stringMk_data]
  rw [h3, h4]

theorem data_append_cons (p : String) (l : String) {c : Char} {cs : List Char}
    (hp : p.data = c :: cs) : (p ++ l).data = c :: (cs ++ l.data) := by
  rw [string_data_append, hp]
  rfl

/-- `metaScan` stops immediately at a rendered `--- ` content header. -/
theorem metaScan_content (l1 : String) (rest : List String) (st : MetaState) :
    metaScan (("--- " ++ l1) :: rest) st =
      (st, MetaStop.contentHeader, ("--- " ++ l1) :: rest) := by
  have hd : ("--- " ++ l1).data = '-' :: (['-', '-', ' '] ++ l1.data) :=
    data_append_cons "--- " l1 rfl
  unfold metaScan
  rw [if_neg (by rw [pyStartsWith_false_of_head hd rfl (by decide)]; exact Bool.false_ne_true)]
  rw [if_neg (by rw [pyStartsWith_false_of_head hd rfl (by decide)]; exact Bool.false_ne_true)]
  rw [if_neg (by rw [pyStartsWith_false_of_head hd rfl (by decide)]; exact Bool.false_ne_true)]
  rw [if_neg (by rw [pyStartsWith_false_of_head hd rfl (by decide)]; exact Bool.false_ne_true)]
  rw [if_neg (by rw [pyStartsWith_false_of_head hd rfl (by decide)]; exact Bool.false_ne_true)]
  rw [if_neg (by
    rw [show pyStartsWith ("--- " ++ l1) "Binary files " = false from
      pyStartsWith_false_of_head hd rfl (by decide)]
    simp)]
  rw [if_neg (by rw [pyStartsWith_false_of_head hd rfl (by decide)]; exact Bool.false_ne_true)]
  rw [if_pos (by
    rw [show ("--- " ++ l1) = ("--- " : String) ++ l1 from rfl, pyStartsWith_append])]

/-- `stripContentHeader` on a rendered header with a whitespace-free label. -/
theorem stripContentHeader_cons (pre l1 : String) (rest : List String)
    (hpre : pre.data.length = 4)
    (hstart : pyStartsWith (pre ++ l1) pre = true)
    (hl1 : ∀ c ∈ l1.data, ¬ pyIsSpace c = true) :
    stripContentHeader pre ((pre ++ l1) :: rest) = (some l1, rest) := by
  show (if pyStartsWith (pre ++ l1) pre = true
      then (some (pyStrip (pyDropChars 4 (pre ++ l1))), rest)
      else (none, (pre ++ l1) :: rest)) = (some l1, rest)
  rw [if_pos hstart]
  have hdrop : pyDropChars 4 (pre ++ l1) = l1 := by
    unfold pyDropChars
    rw [string_data_append]
    rw [List.drop_append_of_le_length (by omega)]
    rw [show pre.data.drop 4 = [] from List.drop_eq_nil_of_le (by omega)]
    rw [List.nil_append, stringMk_data]
  rw [hdrop, pyStrip_of_all_nonWs hl1]

/-- A rendered hunk body line never stops the hunk scan. -/
theorem renderLine_not_hunkStop (dl : DiffLine) : hunkStop (renderLine dl) = false := by
  have hd : ∃ cs, (renderLine dl).data =
      (match dl.line_type with
       | PyLineType.add => '+'
       | PyLineType.del => '-'
       | PyLineType.ctx => ' ') :: cs := by
    unfold renderLine
    cases dl.line_type <;>
      exact ⟨dl.content.data, by rw [string_data_append]; rfl⟩
  obtain ⟨cs, hd⟩ := hd
  unfold hunkStop
  cases hlt : dl.line_type <;>
    rw [hlt] at hd <;>
    rw [pyStartsWith_false_of_head hd rfl (by decide),
      pyStartsWith_false_of_head hd rfl (by decide)] <;>
    rfl

theorem header_data_atat {h : String} (hs : pyStartsWith h "@@" = true) :
    ∃ cs, h.data = '@' :: '@' :: cs := by
  unfold pyStartsWith at hs
  have : ∃ t, ("@@" : String).data ++ t = h.data := by
    have hpfx := List.isPrefixOf_iff_prefix.mp hs
    exact hpfx
  obtain ⟨t, ht⟩ := this
  exact ⟨t, ht.symm⟩

theorem header_hunkStop {h : String} (hs : pyStartsWith h "@@" = true) :
    hunkStop h = true := by
  unfold hunkStop
  rw [hs]
  simp

theorem header_not_dg {h : String} (hs : pyStartsWith h "@@" = true) :
    pyStartsWith h "diff --git " = false := by
  obtain ⟨cs, hd⟩ := header_data_atat hs
  exact pyStartsWith_false_of_head hd rfl (by decide)

theorem takeWhile_block {body : List String} (rest : List String)
    (hbody : ∀ l ∈ body, hunkStop l = false)
    (hrest : rest = [] ∨ ∃ r rs, rest = r :: rs ∧ hunkStop r = true) :
    (body ++ rest).takeWhile (fun l => ¬ hunkStop l) = body ∧
    (body ++ rest).dropWhile (fun l => ¬ hunkStop l) = rest := by
  induction body with
  | nil =>
    simp only [List.nil_append]
    rcases hrest with rfl | ⟨r, rs, rfl, hr⟩
    · exact ⟨rfl, rfl⟩
    · constructor
      · rw [List.takeWhile_cons]
        simp [hr]
      · rw [List.dropWhile_cons]
        simp [hr]
  | cons l ls ih =>
    have hl : hunkStop l = false := hbody l (List.mem_cons_self _ _)
    obtain ⟨ht, hdr⟩ := ih (fun x hx => hbody x (List.mem_cons_of_mem _ hx))
    constructor
    · rw [List.cons_append, List.takeWhile_cons, if_pos (by simp [hl])]
      rw [ht]
    · rw [List.cons_append, List.dropWhile_cons, if_pos (by simp [hl])]
      exact hdr

/-- The lines a list of hunks contributes to a rendered file section. -/
def hunkBlock (hs : List DiffHunk) : List String :=
  hs.flatMap (fun h => h.header :: h.lines.map renderLine)

theorem dg_hunkStop {r : String} (h : pyStartsWith r "diff --git " = true) :
    hunkStop r = true := by
  unfold hunkStop
  rw [h]
  rfl

theorem hunkBlock_stop {hs : List DiffHunk} {rest : List String}
    (hhead : ∀ h ∈ hs, pyStartsWith h.header "@@" = true)
    (hrest : rest = [] ∨ ∃ r rs, rest = r :: rs ∧ pyStartsWith r "diff --git " = true) :
    hunkBlock hs ++ rest = [] ∨
      ∃ r rs, hunkBlock hs ++ rest = r :: rs ∧ hunkStop r = true := by
  cases hs with
  | nil =>
    rcases hrest with rfl | ⟨r, rs, rfl, hr⟩
    · exact Or.inl rfl
    · exact Or.inr ⟨r, rs, rfl, dg_hunkStop hr⟩
  | cons h tl =>
    refine Or.inr ⟨h.header, h.lines.map renderLine ++ (hunkBlock tl ++ rest), ?_,
      header_hunkStop (hhead h (List.mem_cons_self _ _))⟩
    show (h.header :: (h.lines.map renderLine ++ hunkBlock tl)) ++ rest = _
    rw [List.cons_append, List.append_assoc]

theorem hunksScan_block :
    ∀ (hs : List DiffHunk) (fuel idx : Nat) (rest : List String) (fp : String)
      (lang : Option String),
      (∀ h ∈ hs, pyStartsWith h.header "@@" = true) →
      (rest = [] ∨ ∃ r rs, rest = r :: rs ∧ pyStartsWith r "diff --git " = true) →
      hs.length < fuel →
      ∃ out, hunksScan fuel (hunkBlock hs ++ rest) fp idx lang = (out, rest) ∧
        out.map (fun h => h.id) =
          (List.range hs.length).map (fun i => fp ++ "::h" ++ toString (idx + i)) := by
  intro hs
  induction hs with
  | nil =>
    intro fuel idx rest fp lang _ hrest hfuel
    cases fuel with
    | zero => omega
    | succ f =>
      refine ⟨[], ?_, rfl⟩
      show hunksScan (f + 1) rest fp idx lang = ([], rest)
      rcases hrest with rfl | ⟨r, rs, rfl, hr⟩
      · rfl
      · simp [hunksScan, hr]
  | cons h tl ih =>
    intro fuel idx rest fp lang hhead hrest hfuel
    cases fuel with
    | zero => omega
    | succ f =>
      have hh : pyStartsWith h.header "@@" = true := hhead h (List.mem_cons_self _ _)
      have hblock : hunkBlock (h :: tl) ++ rest =
          h.header :: (h.lines.map renderLine ++ (hunkBlock tl ++ rest)) := by
        show (h.header :: (h.lines.map renderLine ++ hunkBlock tl)) ++ rest = _
        rw [List.cons_append, List.append_assoc]
      rw [hblock]
      have hndg : pyStartsWith h.header "diff --git " = false := header_not_dg hh
      have hsplit := @takeWhile_block (h.lines.map renderLine) (hunkBlock tl ++ rest)
        (fun l hl => by
          obtain ⟨dl, _, rfl⟩ := List.mem_map.mp hl
          exact renderLine_not_hunkStop dl)
        (hunkBlock_stop (fun x hx => hhead x (List.mem_cons_of_mem _ hx)) hrest)
      have hparse : parse_hunk h.header (h.lines.map renderLine ++ (hunkBlock tl ++ rest))
          fp idx lang =
          (⟨fp ++ "::h" ++ toString idx, fp, h.header,
            buildDiffLines (h.lines.map renderLine)
              (parse_hunk_header_ranges h.header).1
              (parse_hunk_header_ranges h.header).2,
            lang, extract_symbol_name_from_hunk_header h.header⟩,
           hunkBlock tl ++ rest) := by
        unfold parse_hunk
        rw [hsplit.1, hsplit.2]
      obtain ⟨out, hout, hids⟩ := ih f (idx + 1) rest fp lang
        (fun x hx => hhead x (List.mem_cons_of_mem _ hx)) hrest (by simpa using hfuel)
      refine ⟨(⟨fp ++ "::h" ++ toString idx, fp, h.header,
        buildDiffLines (h.lines.map renderLine) (parse_hunk_header_ranges h.header).1
          (parse_hunk_header_ranges h.header).2,
        lang, extract_symbol_name_from_hunk_header h.header⟩ : DiffHunk) :: out, ?_, ?_⟩
      · simp only [hunksScan, hndg, Bool.false_eq_true, if_false, hh, if_pos rfl]
        rw [hparse]
        simp only [hout]
        rw [if_pos trivial]
      · simp only [List.map_cons, hids, List.length_cons]
        rw [List.range_succ_eq_map]
        simp only [List.map_cons, List.map_map]
        refine congrArg₂ List.cons (by rw [Nat.add_zero]) ?_
        apply List.map_congr_left
        intro i _
        simp only [Function.comp_apply]
        have : idx + Nat.succ i = idx + 1 + i := by omega
        rw [this]

/-- The `a/`-side path the renderer prints for a file. -/
def renderPo (f : FileDiff) : String := pyOrD2 f.path_old f.path_new "unknown"

/-- The `b/`-side path the renderer prints for a file. -/
def renderPn (f : FileDiff) : String := pyOrD2 f.path_new f.path_old "unknown"

/-- The file path the parser will reconstruct for the section (the old path
for deletions — whose `+++` side is `/dev/null` — and the new path otherwise). -/
def parseFp (f : FileDiff) : String :=
  if f.change_type = ChangeType.delete then renderPo f else renderPn f

/-- The `---` label the renderer prints. -/
def label1 (f : FileDiff) : String :=
  if f.change_type = ChangeType.add then "/dev/null" else "a/" ++ renderPo f

/-- The `+++` label the renderer prints. -/
def label2 (f : FileDiff) : String :=
  if f.change_type = ChangeType.delete then "/dev/null" else "b/" ++ renderPn f

def wfHunk (fp : String) (idx : Nat) (h : DiffHunk) : Bool :=
  (h.id == fp ++ "::h" ++ toString idx) &&
  pyStartsWith h.header "@@" &&
  h.header.data.all (fun c => !(pyIsLineBound c)) &&
  h.lines.all (fun dl => dl.content.data.all (fun c => !(pyIsLineBound c)))

/-- Round-trippable file: nonempty hunks, rendered paths free of Python
whitespace, and canonical hunk ids with headers and line contents free of
Python line boundaries. -/
def wfFile (f : FileDiff) : Bool :=
  !f.hunks.isEmpty &&
  (renderPo f).data.all (fun c => !(pyIsSpace c)) &&
  (renderPn f).data.all (fun c => !(pyIsSpace c)) &&
  f.hunks.enum.all (fun p => wfHunk (parseFp f) p.1 p.2)

def wfRound (diff : Diff) : Bool := diff.files.all wfFile

theorem pyOrD_ne_empty {a : Option String} {d : String} (hd : d ≠ "") : pyOrD a d ≠ "" := by
  cases a with
  | none => exact hd
  | some s =>
    show (if s = "" then d else s) ≠ ""
    by_cases hs : s = ""
    · rw [if_pos hs]
      exact hd
    · rw [if_neg hs]
      exact hs

theorem renderPo_ne_empty (f : FileDiff) : renderPo f ≠ "" :=
  pyOrD_ne_empty (pyOrD_ne_empty (by decide))

theorem renderPn_ne_empty (f : FileDiff) : renderPn f ≠ "" :=
  pyOrD_ne_empty (pyOrD_ne_empty (by decide))

theorem pyDropChars_append_left {p : String} {n : Nat} (hp : p.data.length = n) (s : String) :
    pyDropChars n (p ++ s) = s := by
  unfold pyDropChars
  rw [string_data_append]
  rw [List.drop_append_of_le_length (by omega)]
  rw [show p.data.drop n = [] from List.drop_eq_nil_of_le (by omega)]
  rw [List.nil_append, stringMk_data]

theorem oldRefOf_apath (k : ChangeType) (fb po : String) :
    oldRefOf k fb (some ("a/" ++ po)) = (k, some po) := by
  have hd : ("a/" ++ po).data = 'a' :: ('/' :: po.data) := by
    rw [string_data_append]
    rfl
  show (if ("a/" ++ po) = "/dev/null" then (ChangeType.add, none)
    else if (decide (("a/" ++ po) ≠ "") && pyStartsWith ("a/" ++ po) "a/") = true
      then (k, some (pyDropChars 2 ("a/" ++ po)))
      else if ("a/" ++ po) ≠ "" then (k, some ("a/" ++ po)) else (k, some fb)) =
    (k, some po)
  rw [if_neg (string_ne_of_head hd rfl (by decide))]
  rw [if_pos (by rw [pyStartsWith_append]; simp [string_ne_empty_of_head hd])]
  rw [@pyDropChars_append_left "a/" 2 rfl po]

theorem newRefOf_bpath (k : ChangeType) (fb pn : String) :
    newRefOf k fb (some ("b/" ++ pn)) = (k, some pn) := by
  have hd : ("b/" ++ pn).data = 'b' :: ('/' :: pn.data) := by
    rw [string_data_append]
    rfl
  show (if ("b/" ++ pn) = "/dev/null" then (ChangeType.delete, none)
    else if (decide (("b/" ++ pn) ≠ "") && pyStartsWith ("b/" ++ pn) "b/") = true
      then (k, some (pyDropChars 2 ("b/" ++ pn)))
      else if ("b/" ++ pn) ≠ "" then (k, some ("b/" ++ pn)) else (k, some fb)) =
    (k, some pn)
  rw [if_neg (string_ne_of_head hd rfl (by decide))]
  rw [if_pos (by rw [pyStartsWith_append]; simp [string_ne_empty_of_head hd])]
  rw [@pyDropChars_append_left "b/" 2 rfl pn]

theorem hunkBlock_length_ge (hs : List DiffHunk) : hs.length ≤ (hunkBlock hs).length := by
  induction hs with
  | nil => exact Nat.le_refl 0
  | cons h tl ih =>
    show tl.length + 1 ≤ (h.header :: (h.lines.map renderLine ++ hunkBlock tl)).length
    simp only [List.length_cons, List.length_append]
    omega

theorem ids_canonical (fp : String) :
    ∀ (hs : List DiffHunk) (k : Nat),
      (∀ p ∈ hs.enumFrom k, p.2.id = fp ++ "::h" ++ toString p.1) →
      hs.map (fun h => h.id) =
        (List.range hs.length).map (fun i => fp ++ "::h" ++ toString (k + i)) := by
  intro hs
  induction hs with
  | nil =>
    intro k _
    rfl
  | cons h tl ih =>
    intro k hids
    simp only [List.map_cons, List.length_cons]
    rw [List.range_succ_eq_map]
    simp only [List.map_cons, List.map_map]
    refine congrArg₂ List.cons ?_ ?_
    · have hh := hids (k, h) (List.mem_cons_self _ _)
      rw [hh, Nat.add_zero]
    · have htl := ih (k + 1) (fun p hp => hids p (List.mem_cons_of_mem _ hp))
      rw [htl]
      apply List.map_congr_left
      intro i _
      simp only [Function.comp_apply]
      have hki : k + Nat.succ i = k + 1 + i := by omega
      rw [hki]

theorem oldRefOf_devnull (k : ChangeType) (fb : String) :
    oldRefOf k fb (some "/dev/null") = (ChangeType.add, none) := by
  show (if ("/dev/null" : String) = "/dev/null" then ((ChangeType.add, none) :
      ChangeType × Option String)
    else if (decide (("/dev/null" : String) ≠ "") && pyStartsWith "/dev/null" "a/") = true
      then (k, some (pyDropChars 2 "/dev/null"))
      else if ("/dev/null" : String) ≠ "" then (k, some "/dev/null") else (k, some fb)) =
    (ChangeType.add, none)
  rw [if_pos rfl]

theorem newRefOf_devnull (k : ChangeType) (fb : String) :
    newRefOf k fb (some "/dev/null") = (ChangeType.delete, none) := by
  show (if ("/dev/null" : String) = "/dev/null" then ((ChangeType.delete, none) :
      ChangeType × Option String)
    else if (decide (("/dev/null" : String) ≠ "") && pyStartsWith "/dev/null" "b/") = true
      then (k, some (pyDropChars 2 "/dev/null"))
      else if ("/dev/null" : String) ≠ "" then (k, some "/dev/null") else (k, some fb)) =
    (ChangeType.delete, none)
  rw [if_pos rfl]

theorem pyOrD2_some_left {s : String} (hs : s ≠ "") (b : Option String) (d : String) :
    pyOrD2 (some s) b d = s := by
  unfold pyOrD2
  show (if s = "" then pyOrD b d else s) = s
  rw [if_neg hs]

theorem pyOrD2_none_some {s : String} (hs : s ≠ "") (d : String) :
    pyOrD2 none (some s) d = s := by
  unfold pyOrD2
  show (if s = "" then d else s) = s
  rw [if_neg hs]

theorem parse_section_core (po pn l1 l2 : String) (hs : List DiffHunk) (rest : List String)
    (hpo : ∀ c ∈ po.data, ¬ pyIsSpace c = true)
    (hpn : ∀ c ∈ pn.data, ¬ pyIsSpace c = true)
    (hl1 : ∀ c ∈ l1.data, ¬ pyIsSpace c = true)
    (hl2 : ∀ c ∈ l2.data, ¬ pyIsSpace c = true)
    (hheads : ∀ h ∈ hs, pyStartsWith h.header "@@" = true)
    (hrest : rest = [] ∨ ∃ r rs, rest = r :: rs ∧ pyStartsWith r "diff --git " = true)
    (k1 : ChangeType) (po3 : Option String)
    (hold : oldRefOf ChangeType.modify po (some l1) = (k1, po3))
    (k2 : ChangeType) (pn3 : Option String)
    (hnew : newRefOf k1 pn (some l2) = (k2, pn3))
    (fpv : String) (hfp : pyOrD2 pn3 po3 "" = fpv) :
    ∃ out, parse_single_file_diff ("diff --git a/" ++ po ++ " b/" ++ pn)
        (("--- " ++ l1) :: ("+++ " ++ l2) :: (hunkBlock hs ++ rest))
      = (some ⟨po3, pn3, k2, false, out⟩, rest) ∧
      out.map (fun h => h.id) =
        (List.range hs.length).map (fun i => fpv ++ "::h" ++ toString i) := by
  have hfuel : hs.length < (hunkBlock hs ++ rest).length + 1 := by
    have := hunkBlock_length_ge hs
    rw [List.length_append]
    omega
  obtain ⟨out, hout, hids⟩ := hunksScan_block hs ((hunkBlock hs ++ rest).length + 1) 0 rest
    fpv (if pyTruthy (pyOr pn3 po3) then detect_language (pyOrD (pyOr pn3 po3) "") else none)
    hheads hrest hfuel
  refine ⟨out, ?_, ?_⟩
  · simp only [parse_single_file_diff]
    rw [pySplitWs_dgLine po pn hpo hpn]
    rw [if_neg (by simp)]
    rw [metaScan_content l1 (("+++ " ++ l2) :: (hunkBlock hs ++ rest))
      ⟨ChangeType.modify, false, none, none⟩]
    rw [if_neg (show ¬(MetaStop.contentHeader = MetaStop.nextFile) from by decide)]
    rw [if_neg (show ¬(false = true) from by decide)]
    rw [stripContentHeader_cons "--- " l1 _ rfl (pyStartsWith_append _ _) hl1]
    rw [stripContentHeader_cons "+++ " l2 _ rfl (pyStartsWith_append _ _) hl2]
    simp only
    rw [show (["diff", "--git", "a/" ++ po, "b/" ++ pn] : List String).getD
        ((["diff", "--git", "a/" ++ po, "b/" ++ pn] : List String).length - 2) "" =
        "a/" ++ po from rfl]
    rw [show (["diff", "--git", "a/" ++ po, "b/" ++ pn] : List String).getD
        ((["diff", "--git", "a/" ++ po, "b/" ++ pn] : List String).length - 1) "" =
        "b/" ++ pn from rfl]
    rw [if_pos (pyStartsWith_append "a/" po), if_pos (pyStartsWith_append "b/" pn)]
    rw [@pyDropChars_append_left "a/" 2 rfl po, @pyDropChars_append_left "b/" 2 rfl pn]
    rw [hold, hnew]
    simp only
    rw [hfp]
    rw [hout]
  · rw [hids]
    apply List.map_congr_left
    intro i _
    rw [Nat.zero_add]

/-- The lines `render_file_lines` emits for a fully selected file. -/
def fileBlock (f : FileDiff) : List String :=
  ("diff --git a/" ++ renderPo f ++ " b/" ++ renderPn f) ::
  ("--- " ++ label1 f) :: ("+++ " ++ label2 f) :: hunkBlock f.hunks

theorem render_file_lines_full (f : FileDiff) (ids : List String)
    (hne : f.hunks ≠ [])
    (hsel : ∀ h ∈ f.hunks, ids.contains h.id = true) :
    render_file_lines f ids = fileBlock f := by
  simp only [render_file_lines]
  have hf : f.hunks.filter (fun h => ids.contains h.id) = f.hunks :=
    List.filter_eq_self.mpr (fun h hh => hsel h hh)
  rw [hf, if_neg hne]
  rcases hct : f.change_type with _ | _ | _ | _ <;>
    simp [fileBlock, label1, label2, hunkBlock, hct, renderPo, renderPn]

theorem prefixed_nonWs {p s : String} (hp : ∀ c ∈ p.data, ¬ pyIsSpace c = true)
    (hs : ∀ c ∈ s.data, ¬ pyIsSpace c = true) :
    ∀ c ∈ (p ++ s).data, ¬ pyIsSpace c = true := by
  intro c hc
  rw [string_data_append] at hc
  rcases List.mem_append.mp hc with h | h
  · exact hp c h
  · exact hs c h

theorem exists_enumFrom_of_mem {α : Type} :
    ∀ (l : List α) (k : Nat) (x : α), x ∈ l → ∃ i, (i, x) ∈ l.enumFrom k := by
  intro l
  induction l with
  | nil => intro k x hx; cases hx
  | cons a tl ih =>
    intro k x hx
    rcases List.mem_cons.mp hx with rfl | hx'
    · exact ⟨k, List.mem_cons_self _ _⟩
    · obtain ⟨i, hi⟩ := ih (k + 1) x hx'
      exact ⟨i, List.mem_cons_of_mem _ hi⟩

theorem parse_file_roundtrip (f : FileDiff) (rest : List String)
    (hwf : wfFile f = true)
    (hrest : rest = [] ∨ ∃ r rs, rest = r :: rs ∧ pyStartsWith r "diff --git " = true) :
    ∃ fd, parse_single_file_diff ("diff --git a/" ++ renderPo f ++ " b/" ++ renderPn f)
        (("--- " ++ label1 f) :: ("+++ " ++ label2 f) :: (hunkBlock f.hunks ++ rest))
      = (some fd, rest) ∧
      fd.hunks.map (fun h => h.id) = f.hunks.map (fun h => h.id) := by
  simp only [wfFile, Bool.and_eq_true] at hwf
  obtain ⟨⟨⟨hne0, hpo0⟩, hpn0⟩, hcanon0⟩ := hwf
  have hpo : ∀ c ∈ (renderPo f).data, ¬ pyIsSpace c = true := by
    intro c hc
    have := List.all_eq_true.mp hpo0 c hc
    simpa using this
  have hpn : ∀ c ∈ (renderPn f).data, ¬ pyIsSpace c = true := by
    intro c hc
    have := List.all_eq_true.mp hpn0 c hc
    simpa using this
  have hwfh : ∀ p ∈ f.hunks.enum, wfHunk (parseFp f) p.1 p.2 = true :=
    List.all_eq_true.mp hcanon0
  have hheads : ∀ h ∈ f.hunks, pyStartsWith h.header "@@" = true := by
    intro h hh
    obtain ⟨i, hi⟩ := exists_enumFrom_of_mem f.hunks 0 h hh
    have := hwfh (i, h) hi
    simp only [wfHunk, Bool.and_eq_true] at this
    exact this.1.1.2
  have hcanonIds : ∀ p ∈ f.hunks.enumFrom 0,
      p.2.id = parseFp f ++ "::h" ++ toString p.1 := by
    intro p hp
    have := hwfh p hp
    simp only [wfHunk, Bool.and_eq_true] at this
    exact eq_of_beq this.1.1.1
  have hcanList := ids_canonical (parseFp f) f.hunks 0 hcanonIds
  simp only [Nat.zero_add] at hcanList
  have haw : ∀ c ∈ ("a/" : String).data, ¬ pyIsSpace c = true := by decide
  have hbw : ∀ c ∈ ("b/" : String).data, ¬ pyIsSpace c = true := by decide
  have hdn : ∀ c ∈ ("/dev/null" : String).data, ¬ pyIsSpace c = true := by decide
  rcases hct : f.change_type with _ | _ | _ | _
  · -- add
    have hl1 : label1 f = "/dev/null" := by simp [label1, hct]
    have hl2 : label2 f = "b/" ++ renderPn f := by simp [label2, hct]
    have hfpeq : parseFp f = renderPn f := by simp [parseFp, hct]
    rw [hl1, hl2]
    obtain ⟨out, hparse, hids⟩ := parse_section_core (renderPo f) (renderPn f)
      "/dev/null" ("b/" ++ renderPn f) f.hunks rest hpo hpn hdn
      (prefixed_nonWs hbw hpn) hheads hrest
      ChangeType.add none (oldRefOf_devnull ChangeType.modify (renderPo f))
      ChangeType.add (some (renderPn f))
      (newRefOf_bpath ChangeType.add (renderPn f) (renderPn f))
      (renderPn f) (pyOrD2_some_left (renderPn_ne_empty f) none "")
    refine ⟨_, hparse, ?_⟩
    rw [hids, hcanList, hfpeq]
  · -- modify
    have hl1 : label1 f = "a/" ++ renderPo f := by simp [label1, hct]
    have hl2 : label2 f = "b/" ++ renderPn f := by simp [label2, hct]
    have hfpeq : parseFp f = renderPn f := by simp [parseFp, hct]
    rw [hl1, hl2]
    obtain ⟨out, hparse, hids⟩ := parse_section_core (renderPo f) (renderPn f)
      ("a/" ++ renderPo f) ("b/" ++ renderPn f) f.hunks rest hpo hpn
      (prefixed_nonWs haw hpo) (prefixed_nonWs hbw hpn) hheads hrest
      ChangeType.modify (some (renderPo f))
      (oldRefOf_apath ChangeType.modify (renderPo f) (renderPo f))
      ChangeType.modify (some (renderPn f))
      (newRefOf_bpath ChangeType.modify (renderPn f) (renderPn f))
      (renderPn f) (pyOrD2_some_left (renderPn_ne_empty f) (some (renderPo f)) "")
    refine ⟨_, hparse, ?_⟩
    rw [hids, hcanList, hfpeq]
  · -- delete
    have hl1 : label1 f = "a/" ++ renderPo f := by simp [label1, hct]
    have hl2 : label2 f = "/dev/null" := by simp [label2, hct]
    have hfpeq : parseFp f = renderPo f := by simp [parseFp, hct]
    rw [hl1, hl2]
    obtain ⟨out, hparse, hids⟩ := parse_section_core (renderPo f) (renderPn f)
      ("a/" ++ renderPo f) "/dev/null" f.hunks rest hpo hpn
      (prefixed_nonWs haw hpo) hdn hheads hrest
      ChangeType.modify (some (renderPo f))
      (oldRefOf_apath ChangeType.modify (renderPo f) (renderPo f))
      ChangeType.delete none (newRefOf_devnull ChangeType.modify (renderPn f))
      (renderPo f) (pyOrD2_none_some (renderPo_ne_empty f) "")
    refine ⟨_, hparse, ?_⟩
    rw [hids, hcanList, hfpeq]
  · -- rename
    have hl1 : label1 f = "a/" ++ renderPo f := by simp [label1, hct]
    have hl2 : label2 f = "b/" ++ renderPn f := by simp [label2, hct]
    have hfpeq : parseFp f = renderPn f := by simp [parseFp, hct]
    rw [hl1, hl2]
    obtain ⟨out, hparse, hids⟩ := parse_section_core (renderPo f) (renderPn f)
      ("a/" ++ renderPo f) ("b/" ++ renderPn f) f.hunks rest hpo hpn
      (prefixed_nonWs haw hpo) (prefixed_nonWs hbw hpn) hheads hrest
      ChangeType.modify (some (renderPo f))
      (oldRefOf_apath ChangeType.modify (renderPo f) (renderPo f))
      ChangeType.modify (some (renderPn f))
      (newRefOf_bpath ChangeType.modify (renderPn f) (renderPn f))
      (renderPn f) (pyOrD2_some_left (renderPn_ne_empty f) (some (renderPo f)) "")
    refine ⟨_, hparse, ?_⟩
    rw [hids, hcanList, hfpeq]

theorem string_append_assoc (a b c : String) : a ++ b ++ c = a ++ (b ++ c) := by
  have : (a ++ b ++ c).data = (a ++ (b ++ c)).data := by
    simp only [string_data_append, List.append_assoc]
  cases a with | mk la => cases b with | mk lb => cases c with | mk lc => exact congrArg String.mk this

theorem string_eq_of_data {a b : String} (h : a.data = b.data) : a = b := by
  cases a with | mk la => cases b with | mk lb => exact congrArg String.mk h

theorem dgline_starts (po pn : String) :
    pyStartsWith ("diff --git a/" ++ po ++ " b/" ++ pn) "diff --git " = true := by
  rw [show ("diff --git a/" ++ po ++ " b/" ++ pn) =
      "diff --git " ++ ("a/" ++ (po ++ (" b/" ++ pn))) from
    string_eq_of_data (by
      simp only [string_data_append, List.append_assoc]
      conv_rhs => rw [← List.append_assoc]
      rfl)]
  exact pyStartsWith_append _ _

theorem fileBlock_head (f : FileDiff) (rest : List String) :
    ∃ r rs, fileBlock f ++ rest = r :: rs ∧ pyStartsWith r "diff --git " = true :=
  ⟨_, _, rfl, dgline_starts _ _⟩

theorem flatMap_blocks_shape (fs : List FileDiff) :
    fs.flatMap fileBlock = [] ∨
      ∃ r rs, fs.flatMap fileBlock = r :: rs ∧ pyStartsWith r "diff --git " = true := by
  cases fs with
  | nil => exact Or.inl rfl
  | cons f tl => exact Or.inr (fileBlock_head f (tl.flatMap fileBlock))

theorem parseFilesGo_blocks :
    ∀ (fs : List FileDiff) (fuel : Nat),
      (∀ f ∈ fs, wfFile f = true) → fs.length < fuel →
      ∃ out, parseFilesGo fuel (fs.flatMap fileBlock) = out ∧
        out.map (fun f => f.hunks.map (fun h => h.id)) =
          fs.map (fun f => f.hunks.map (fun h => h.id)) := by
  intro fs
  induction fs with
  | nil =>
    intro fuel _ hfuel
    cases fuel with
    | zero => omega
    | succ n => exact ⟨[], rfl, rfl⟩
  | cons f tl ih =>
    intro fuel hwf hfuel
    cases fuel with
    | zero => omega
    | succ n =>
      have hblk : (f :: tl).flatMap fileBlock =
          ("diff --git a/" ++ renderPo f ++ " b/" ++ renderPn f) ::
          (("--- " ++ label1 f) :: ("+++ " ++ label2 f) ::
            (hunkBlock f.hunks ++ tl.flatMap fileBlock)) := by
        rw [List.flatMap_cons]
        show fileBlock f ++ tl.flatMap fileBlock = _
        simp only [fileBlock, List.cons_append, List.append_assoc]
      obtain ⟨fd, hparse, hids⟩ := parse_file_roundtrip f (tl.flatMap fileBlock)
        (hwf f (List.mem_cons_self _ _)) (flatMap_blocks_shape tl)
      obtain ⟨out, hout, houtids⟩ := ih n
        (fun x hx => hwf x (List.mem_cons_of_mem _ hx)) (by simpa using hfuel)
      refine ⟨fd :: out, ?_, ?_⟩
      · rw [hblk]
        show (if pyStartsWith ("diff --git a/" ++ renderPo f ++ " b/" ++ renderPn f)
            "diff --git " = true then _ else _) = _
        rw [if_pos (dgline_starts (renderPo f) (renderPn f))]
        rw [hparse]
        show fd :: parseFilesGo n (tl.flatMap fileBlock) = fd :: out
        rw [hout]
      · simp only [List.map_cons, houtids, hids]

theorem flatMap_eq_of_map_eq {α β : Type} {l₁ l₂ : List α} {f : α → List β}
    (h : l₁.map f = l₂.map f) : l₁.flatMap f = l₂.flatMap f := by
  induction l₁ generalizing l₂ with
  | nil => cases l₂ with
    | nil => rfl
    | cons b tl2 => simp at h
  | cons a tl ih =>
    cases l₂ with
    | nil => simp at h
    | cons b tl2 =>
      simp only [List.map_cons, List.cons.injEq] at h
      rw [List.flatMap_cons, List.flatMap_cons, h.1, ih h.2]

theorem flatMap_congr_left {α β : Type} {l : List α} {f g : α → List β}
    (h : ∀ a ∈ l, f a = g a) : l.flatMap f = l.flatMap g := by
  induction l with
  | nil => rfl
  | cons a tl ih =>
    rw [List.flatMap_cons, List.flatMap_cons, h a (List.mem_cons_self _ _),
      ih (fun x hx => h x (List.mem_cons_of_mem _ hx))]

theorem length_le_flatMap_fileBlock :
    ∀ (fs : List FileDiff), fs.length ≤ (fs.flatMap fileBlock).length := by
  intro fs
  induction fs with
  | nil => exact Nat.le_refl 0
  | cons f tl ih =>
    rw [List.flatMap_cons, List.length_append]
    show tl.length + 1 ≤ _
    have : 1 ≤ (fileBlock f).length := by
      show 1 ≤ (_ :: _).length
      simp
    omega

theorem no_nl_of_nonWs {s : String} (h : ∀ c ∈ s.data, ¬ pyIsSpace c = true) :
    ∀ c ∈ s.data, ¬ pyIsLineBound c = true :=
  fun c hc hb => h c hc (pyIsSpace_of_lineBound hb)

theorem no_nl_append {a b : String} (ha : ∀ c ∈ a.data, ¬ pyIsLineBound c = true)
    (hb : ∀ c ∈ b.data, ¬ pyIsLineBound c = true) :
    ∀ c ∈ (a ++ b).data, ¬ pyIsLineBound c = true := by
  intro c hc
  rw [string_data_append] at hc
  rcases List.mem_append.mp hc with h | h
  · exact ha c h
  · exact hb c h

theorem no_nl_of_not_contains {s : String}
    (h : s.data.all (fun c => !(pyIsLineBound c)) = true) :
    ∀ c ∈ s.data, ¬ pyIsLineBound c = true := by
  intro c hc
  have := List.all_eq_true.mp h c hc
  simpa using this

theorem renderLine_no_nl (dl : DiffLine)
    (h : dl.content.data.all (fun c => !(pyIsLineBound c)) = true) :
    ∀ c ∈ (renderLine dl).data, ¬ pyIsLineBound c = true := by
  unfold renderLine
  rcases hlt : dl.line_type with _ | _ | _ <;>
    exact no_nl_append (by decide) (no_nl_of_not_contains h)

theorem label1_nonWs (f : FileDiff)
    (hpo : ∀ c ∈ (renderPo f).data, ¬ pyIsSpace c = true) :
    ∀ c ∈ (label1 f).data, ¬ pyIsSpace c = true := by
  unfold label1
  by_cases h : f.change_type = ChangeType.add
  · rw [if_pos h]
    decide
  · rw [if_neg h]
    exact prefixed_nonWs (by decide) hpo

theorem label2_nonWs (f : FileDiff)
    (hpn : ∀ c ∈ (renderPn f).data, ¬ pyIsSpace c = true) :
    ∀ c ∈ (label2 f).data, ¬ pyIsSpace c = true := by
  unfold label2
  by_cases h : f.change_type = ChangeType.delete
  · rw [if_pos h]
    decide
  · rw [if_neg h]
    exact prefixed_nonWs (by decide) hpn

theorem fileBlock_no_nl (f : FileDiff) (hwf : wfFile f = true) :
    ∀ l ∈ fileBlock f, ∀ c ∈ l.data, ¬ pyIsLineBound c = true := by
  simp only [wfFile, Bool.and_eq_true] at hwf
  obtain ⟨⟨⟨_, hpo0⟩, hpn0⟩, hcanon0⟩ := hwf
  have hpoW : ∀ c ∈ (renderPo f).data, ¬ pyIsSpace c = true := by
    intro c hc
    have := List.all_eq_true.mp hpo0 c hc
    simpa using this
  have hpnW : ∀ c ∈ (renderPn f).data, ¬ pyIsSpace c = true := by
    intro c hc
    have := List.all_eq_true.mp hpn0 c hc
    simpa using this
  have hpo := no_nl_of_nonWs hpoW
  have hpn := no_nl_of_nonWs hpnW
  have hwfh : ∀ p ∈ f.hunks.enum, wfHunk (parseFp f) p.1 p.2 = true :=
    List.all_eq_true.mp hcanon0
  have hhdr : ∀ h ∈ f.hunks, (∀ c ∈ h.header.data, ¬ pyIsLineBound c = true) ∧
      ∀ dl ∈ h.lines, ∀ c ∈ (renderLine dl).data, ¬ pyIsLineBound c = true := by
    intro h hh
    obtain ⟨i, hi⟩ := exists_enumFrom_of_mem f.hunks 0 h hh
    have hw := hwfh (i, h) hi
    simp only [wfHunk, Bool.and_eq_true] at hw
    refine ⟨no_nl_of_not_contains hw.1.2, ?_⟩
    intro dl hdl
    exact renderLine_no_nl dl (List.all_eq_true.mp hw.2 dl hdl)
  intro l hl
  simp only [fileBlock, List.mem_cons] at hl
  rcases hl with rfl | rfl | rfl | hl
  · exact no_nl_append (no_nl_append (no_nl_append (by decide) hpo) (by decide)) hpn
  · exact no_nl_append (by decide) (no_nl_of_nonWs (label1_nonWs f hpoW))
  · exact no_nl_append (by decide) (no_nl_of_nonWs (label2_nonWs f hpnW))
  · obtain ⟨h, hh, hlh⟩ := List.mem_flatMap.mp hl
    rcases List.mem_cons.mp hlh with rfl | hlh
    · exact (hhdr h hh).1
    · obtain ⟨dl, hdl, rfl⟩ := List.mem_map.mp hlh
      exact (hhdr h hh).2 dl hdl

theorem contains_of_mem {l : List String} {a : String} (h : a ∈ l) :
    l.contains a = true :=
  List.elem_iff.mpr h

theorem hunks_ne_nil_of_wf {f : FileDiff} (hwf : wfFile f = true) : f.hunks ≠ [] := by
  intro hnil
  simp only [wfFile, Bool.and_eq_true] at hwf
  have := hwf.1.1.1
  rw [hnil] at this
  simp at this

theorem parse_unified_diff_files (raw : String) :
    (parse_unified_diff raw).files =
      parseFilesGo
        (((pySplitLines raw).dropWhile
            (fun l => ¬ pyStartsWith l "diff --git ")).length + 1)
        ((pySplitLines raw).dropWhile (fun l => ¬ pyStartsWith l "diff --git ")) := rfl

theorem dropWhile_flatMap_blocks (f0 : FileDiff) (fs : List FileDiff) :
    ((f0 :: fs).flatMap fileBlock).dropWhile (fun l => ¬ pyStartsWith l "diff --git ")
      = (f0 :: fs).flatMap fileBlock := by
  rw [List.flatMap_cons]
  rw [show fileBlock f0 ++ fs.flatMap fileBlock =
    ("diff --git a/" ++ renderPo f0 ++ " b/" ++ renderPn f0) ::
    (("--- " ++ label1 f0) :: ("+++ " ++ label2 f0) ::
      (hunkBlock f0.hunks ++ fs.flatMap fileBlock)) from rfl]
  rw [List.dropWhile_cons]
  rw [if_neg (by simp [dgline_starts])]

/-- C3: for every Diff satisfying the round-trippability well-formedness
predicate `wfRound` (each file has at least one hunk, rendered paths free
of Python whitespace, and canonical hunk ids with headers and contents free
of Python line boundaries), rendering the complete hunk-id set with
`render_partial_diff` and re-parsing with `parse_unified_diff` yields a
Diff with the same number of files, the same per-file hunk counts, and
the same hunk-id list as the original. -/
theorem C3_roundtrip (diff : Diff) (hwf : wfRound diff = true) :
    (parse_unified_diff (render_partial_diff diff (allHunkIds diff))).files.length
        = diff.files.length ∧
    (parse_unified_diff (render_partial_diff diff (allHunkIds diff))).files.map
        (fun f => f.hunks.length) = diff.files.map (fun f => f.hunks.length) ∧
    allHunkIds (parse_unified_diff (render_partial_diff diff (allHunkIds diff)))
        = allHunkIds diff := by
  have hwff : ∀ f ∈ diff.files, wfFile f = true := List.all_eq_true.mp hwf
  rcases hfs : diff.files with _ | ⟨f0, fs⟩
  · have hids : allHunkIds diff = [] := by
      unfold allHunkIds
      rw [hfs]
      rfl
    have hrender : render_partial_diff diff (allHunkIds diff) = "" := by
      unfold render_partial_diff
      rw [hids, if_pos rfl]
    rw [hrender, hids]
    refine ⟨by decide, by decide, by decide⟩
  · have hwf0 := hwff f0 (by rw [hfs]; exact List.mem_cons_self _ _)
    have hcontains : ∀ f ∈ diff.files, ∀ h ∈ f.hunks,
        (allHunkIds diff).contains h.id = true := by
      intro f hf h hh
      exact contains_of_mem
        (List.mem_flatMap.mpr ⟨f, hf, List.mem_map_of_mem _ hh⟩)
    have houtput : diff.files.flatMap (fun f => render_file_lines f (allHunkIds diff))
        = diff.files.flatMap fileBlock :=
      flatMap_congr_left (fun f hf =>
        render_file_lines_full f _ (hunks_ne_nil_of_wf (hwff f hf))
          (fun h hh => hcontains f hf h hh))
    have hidsne : allHunkIds diff ≠ [] := by
      rcases hx : f0.hunks with _ | ⟨h0, hs⟩
      · exact absurd hx (hunks_ne_nil_of_wf hwf0)
      · exact List.ne_nil_of_mem (List.mem_flatMap.mpr
          ⟨f0, by rw [hfs]; exact List.mem_cons_self _ _,
            List.mem_map_of_mem _ (by rw [hx]; exact List.mem_cons_self _ _)⟩)
    have houtne : diff.files.flatMap fileBlock ≠ [] := by
      rw [hfs, List.flatMap_cons]
      rw [show fileBlock f0 ++ fs.flatMap fileBlock =
        ("diff --git a/" ++ renderPo f0 ++ " b/" ++ renderPn f0) ::
        (("--- " ++ label1 f0) :: ("+++ " ++ label2 f0) ::
          (hunkBlock f0.hunks ++ fs.flatMap fileBlock)) from rfl]
      exact List.cons_ne_nil _ _
    have hrender : render_partial_diff diff (allHunkIds diff)
        = String.mk (joinNlChars (diff.files.flatMap fileBlock) ++ ['\n']) := by
      simp only [render_partial_diff]
      rw [if_neg hidsne, houtput, if_neg houtne]
    have hnl : ∀ l ∈ diff.files.flatMap fileBlock, ∀ c ∈ l.data,
        ¬ pyIsLineBound c = true := by
      intro l hl
      obtain ⟨f, hf, hlf⟩ := List.mem_flatMap.mp hl
      exact fileBlock_no_nl f (hwff f hf) l hlf
    have hsplit := splitLines_joinNl (diff.files.flatMap fileBlock) houtne hnl
    obtain ⟨out, hout, hmaps⟩ := parseFilesGo_blocks diff.files
      ((diff.files.flatMap fileBlock).length + 1) hwff
      (by have := length_le_flatMap_fileBlock diff.files; omega)
    have hdrop : (diff.files.flatMap fileBlock).dropWhile
        (fun l => ¬ pyStartsWith l "diff --git ") = diff.files.flatMap fileBlock := by
      rw [hfs]
      exact dropWhile_flatMap_blocks f0 fs
    have hfiles : (parse_unified_diff (render_partial_diff diff (allHunkIds diff))).files
        = out := by
      rw [hrender, parse_unified_diff_files, hsplit, hdrop, hout]
    have hlen : out.length = diff.files.length := by
      have h := congrArg List.length hmaps
      simpa using h
    refine ⟨?_, ?_, ?_⟩
    · rw [hfiles, hlen, hfs]
    · rw [hfiles, ← hfs]
      have h2 := congrArg (List.map List.length) hmaps
      simp only [List.map_map] at h2
      have hconv : ∀ (l : List FileDiff),
          l.map (List.length ∘ fun f => f.hunks.map (fun h => h.id))
            = l.map (fun f => f.hunks.length) :=
        fun l => List.map_congr_left (fun f _ => by simp)
      rw [hconv, hconv] at h2
      exact h2
    · show (parse_unified_diff (render_partial_diff diff (allHunkIds diff))).files.flatMap
          (fun f => f.hunks.map (fun h => h.id))
        = diff.files.flatMap (fun f => f.hunks.map (fun h => h.id))
      rw [hfiles]
      exact flatMap_eq_of_map_eq hmaps

/-- A binary file carries no hunks; the renderer emits nothing for it and
re-parsing loses the file entirely. -/
def c3cexDiff : Diff :=
  ⟨none, none, [⟨some "img.png", some "img.png", ChangeType.modify, true, []⟩]⟩

/-- C3 counterexample: rendering the complete (empty) hunk-id set of a
one-file Diff whose single file is binary (hunkless) and re-parsing yields
zero files, not one — file count is not preserved by the round trip. -/
theorem C3_counterexample :
    (parse_unified_diff (render_partial_diff c3cexDiff (allHunkIds c3cexDiff))).files.length
        = 0 ∧
    c3cexDiff.files.length = 1 := by
  decide

/-- A well-formed two-file Diff (a modified source file with two hunks and an
added test file with one hunk) exercising the round trip. -/
def c3wDiff : Diff :=
  ⟨none, none,
   [⟨some "src/app.py", some "src/app.py", ChangeType.modify, false,
     [⟨"src/app.py::h0", "src/app.py", "@@ -1,2 +1,2 @@",
       [⟨PyLineType.ctx, "x = 1", some 1, some 1⟩,
        ⟨PyLineType.del, "y = 2", some 2, none⟩,
        ⟨PyLineType.add, "y = 3", none, some 2⟩], none, none⟩,
      ⟨"src/app.py::h1", "src/app.py", "@@ -10,1 +10,2 @@",
       [⟨PyLineType.add, "z = 4", none, some 11⟩], none, none⟩]⟩,
    ⟨none, some "tests/new.py", ChangeType.add, false,
     [⟨"tests/new.py::h0", "tests/new.py", "@@ -0,0 +1,2 @@",
       [⟨PyLineType.add, "import app", none, some 1⟩], none, none⟩]⟩]⟩

/-- Witness for C3: the well-formedness hypothesis holds on `c3wDiff` and the
round trip preserves its file count, per-file hunk counts, and hunk ids. -/
theorem C3_roundtrip_witness :
    (parse_unified_diff (render_partial_diff c3wDiff (allHunkIds c3wDiff))).files.length
        = c3wDiff.files.length ∧
    (parse_unified_diff (render_partial_diff c3wDiff (allHunkIds c3wDiff))).files.map
        (fun f => f.hunks.length) = c3wDiff.files.map (fun f => f.hunks.length) ∧
    allHunkIds (parse_unified_diff (render_partial_diff c3wDiff (allHunkIds c3wDiff)))
        = allHunkIds c3wDiff :=
  C3_roundtrip c3wDiff (by decide)
